import Mathlib

/-!
# Verification of the docsanitizer PII anonymization core

A shallow embedding of the detection / conflict-resolution / mapping /
encode / decode pipeline of the `docsanitizer` package, together with
proofs and refutations of its specified properties.

Strings are modelled as `List Char` (Python `str` is a sequence of code
points); positions are `Nat` indices into that list.  Python regular
expressions are embedded as an explicit syntax tree with a backtracking
matcher that reproduces `re`'s leftmost-first semantics (alternation in
order, greedy quantifiers, word boundaries, negative lookahead, and a
single capture group, which is all the source patterns use).
-/

namespace DocSan

abbrev Str := List Char

def sl (s : String) : Str := s.data

/-! ## Character utilities (ASCII, as used by the source patterns) -/

def isDigitC (c : Char) : Bool := '0' ≤ c && c ≤ '9'

def isUpperAZ (c : Char) : Bool := 'A' ≤ c && c ≤ 'Z'

def isLowerAZ (c : Char) : Bool := 'a' ≤ c && c ≤ 'z'

/-- Python `str.lower` restricted to ASCII (the only case the source relies on). -/
def pyLowerChar (c : Char) : Char :=
  if isUpperAZ c then Char.ofNat (c.toNat + 32) else c

/-- Python `str.upper` restricted to ASCII. -/
def pyUpperChar (c : Char) : Char :=
  if isLowerAZ c then Char.ofNat (c.toNat - 32) else c

def pyLower (s : Str) : Str := s.map pyLowerChar

def pyUpper (s : Str) : Str := s.map pyUpperChar

/-- Python whitespace (`str.split` / `str.strip` / regex `\s`), ASCII part. -/
def isPyWs (c : Char) : Bool :=
  c = ' ' || c = '\t' || c = '\n' || c = '\x0d' || c = '\x0c' || c = '\x0b'

/-- Python word character for `\b` (`\w`): ASCII alphanumerics, underscore and
the accented letters that occur in the source patterns. -/
def isWordC (c : Char) : Bool :=
  isUpperAZ c || isLowerAZ c || isDigitC c || c = '_' ||
  c = 'é' || c = 'è' || c = 'à' || c = 'ä' || c = 'ö' || c = 'ü' || c = 'ß' ||
  c = 'É' || c = 'ç' || c = 'ô' || c = 'î'

def dropWhileWs (s : Str) : Str := s.dropWhile (fun c => isPyWs c)

/-- Python `str.strip()`. -/
def pyStrip (s : Str) : Str := (dropWhileWs ((dropWhileWs s.reverse).reverse))

/-- Worker for `str.split()`: `cur` is the current token, reversed. -/
def splitWsAux : Str → Str → List Str
  | [], cur => if cur.isEmpty then [] else [cur.reverse]
  | c :: rest, cur =>
      if isPyWs c then
        if cur.isEmpty then splitWsAux rest [] else cur.reverse :: splitWsAux rest []
      else splitWsAux rest (c :: cur)

/-- Python `str.split()` (split on whitespace runs, dropping empty parts). -/
def pySplitWs (s : Str) : List Str := splitWsAux s []

/-- `needle` occurs in `haystack` starting at its head (`str.startswith`). -/
def listStarts (needle haystack : Str) : Bool :=
  needle.isPrefixOf haystack

/-- Python `needle in haystack` (substring containment). -/
def subIn (needle haystack : Str) : Bool :=
  (List.range (haystack.length + 1)).any
    (fun i => listStarts needle (haystack.drop i))

/-- Python `haystack.index(needle)`: first index where `needle` occurs
(`haystack.length` when absent, which the source never hits). -/
def pyIndex (needle haystack : Str) : Nat :=
  match (List.range (haystack.length + 1)).find?
      (fun i => listStarts needle (haystack.drop i)) with
  | some i => i
  | none => haystack.length

/-- Python slice `s[a:b]` for `0 ≤ a ≤ b`. -/
def slice (s : Str) (a b : Nat) : Str := (s.take b).drop a

/-! ## Regex syntax

Character classes are lists of inclusive ranges, which covers every class
in the source patterns.  `grp` marks the (single) capture group. -/

abbrev CClass := List (Char × Char)

def ccMatch (cc : CClass) (c : Char) : Bool :=
  cc.any (fun r => r.1 ≤ c && c ≤ r.2)

inductive RE where
  | eps : RE
  | cls : CClass → RE
  | cat : RE → RE → RE
  | alt : RE → RE → RE
  | star : RE → RE
  | wordB : RE
  | nla : RE → RE
  | grp : RE → RE
deriving Repr

/-- An end position paired with the capture group's span, if it matched. -/
abbrev MRes := Nat × Option (Nat × Nat)

def mergeCap (x y : Option (Nat × Nat)) : Option (Nat × Nat) :=
  match x with
  | some v => some v
  | none => y

/-- Word-boundary test at position `i` of `s` (Python `\b`). -/
def isBoundary (s : Str) (i : Nat) : Bool :=
  let before := if h : 0 < i ∧ i ≤ s.length then isWordC (s.get ⟨i - 1, by omega⟩) else false
  let after := if h : i < s.length then isWordC (s.get ⟨i, h⟩) else false
  before ≠ after

/-- The greedy `star` loop: try one iteration of the body (which must make
progress) then the rest of the star, preferring more iterations; the empty
match comes last.  `fuel` bounds the number of iterations; every quantified
subpattern in the source consumes at least one character, so `s.length + 1`
fuel is always enough. -/
def starEnds (body : Nat → List MRes) : Nat → Nat → List MRes
  | 0, i => [(i, none)]
  | fuel + 1, i =>
      ((body i).flatMap
        (fun p =>
          if i < p.1 then
            (starEnds body fuel p.1).map (fun q => (q.1, mergeCap q.2 p.2))
          else []))
      ++ [(i, none)]

/-- All end positions (with captures) of matches of `re` starting at `i`,
in Python's backtracking preference order: the head of the list is the
match `re` itself would produce. -/
def matchEnds (s : Str) (fuel : Nat) : RE → Nat → List MRes
  | .eps, i => [(i, none)]
  | .cls cc, i =>
      match s.get? i with
      | some d => if ccMatch cc d then [(i + 1, none)] else []
      | none => []
  | .cat a b, i =>
      (matchEnds s fuel a i).flatMap
        (fun p => (matchEnds s fuel b p.1).map (fun q => (q.1, mergeCap p.2 q.2)))
  | .alt a b, i => matchEnds s fuel a i ++ matchEnds s fuel b i
  | .wordB, i => if isBoundary s i then [(i, none)] else []
  | .nla a, i => if (matchEnds s fuel a i).isEmpty then [(i, none)] else []
  | .grp a, i => (matchEnds s fuel a i).map (fun q => (q.1, some (i, q.1)))
  | .star a, i => starEnds (fun j => matchEnds s fuel a j) fuel i

/-- The match Python's engine returns at position `i` (if any). -/
def reFirst (re : RE) (s : Str) (i : Nat) : Option MRes :=
  (matchEnds s (s.length + 1) re i).head?

/-- `re.finditer`: scan left to right, take the first match at each position,
resume after its end.  The fuel argument is `s.length + 1 - i` at the first
call, which suffices because the position strictly increases. -/
def finditerGo (re : RE) (s : Str) : Nat → Nat → List (Nat × Nat × Option (Nat × Nat))
  | 0, _ => []
  | fuel + 1, i =>
    if i ≤ s.length then
      match reFirst re s i with
      | some (j, cap) =>
          if i < j ∧ j ≤ s.length then
            (i, j, cap) :: finditerGo re s fuel j
          else if i < s.length then
            finditerGo re s fuel (i + 1)
          else []
      | none =>
          if i < s.length then finditerGo re s fuel (i + 1) else []
    else []

def finditer (re : RE) (s : Str) : List (Nat × Nat × Option (Nat × Nat)) :=
  finditerGo re s (s.length + 1) 0

/-- Spans `(start, end)` of all matches. -/
def fspans (re : RE) (s : Str) : List (Nat × Nat) :=
  (finditer re s).map (fun t => (t.1, t.2.1))

/-- `re.sub(pattern, f, s)` where `f` maps the matched slice to its
replacement. -/
def reSubGo (s : Str) (f : Str → Str) : List (Nat × Nat) → Nat → Str
  | [], p => s.drop p
  | (a, b) :: rest, p => slice s p a ++ f (slice s a b) ++ reSubGo s f rest b

def reSub (re : RE) (f : Str → Str) (s : Str) : Str :=
  reSubGo s f (fspans re s) 0

/-! ### Pattern-building helpers -/

def rchr (c : Char) : RE := .cls [(c, c)]

/-- Lower/upper pairs for the accented letters appearing in the word lists. -/
def accentPairs : List (Char × Char) :=
  [('é', 'É'), ('è', 'È'), ('à', 'À'), ('ä', 'Ä'), ('ö', 'Ö'), ('ü', 'Ü'),
   ('ç', 'Ç'), ('ô', 'Ô'), ('î', 'Î'), ('â', 'Â'), ('û', 'Û')]

/-- Case-insensitive single character. -/
def rchrCI (c : Char) : RE :=
  if isUpperAZ c || isLowerAZ c then
    .cls [(pyLowerChar c, pyLowerChar c), (pyUpperChar c, pyUpperChar c)]
  else
    match accentPairs.find? (fun p => p.1 = c || p.2 = c) with
    | some p => .cls [(p.1, p.1), (p.2, p.2)]
    | none => rchr c

def rseq (l : List RE) : RE := l.foldr RE.cat .eps

def rstr (w : String) : RE := rseq (w.data.map rchr)

def rstrCI (w : String) : RE := rseq (w.data.map rchrCI)

/-- Ordered alternation of a list (empty list never matches). -/
def raltL (l : List RE) : RE :=
  match l with
  | [] => .cls []
  | [a] => a
  | a :: rest => .alt a (raltL rest)

def ropt (a : RE) : RE := .alt a .eps

def rplus (a : RE) : RE := .cat a (.star a)

/-- Greedy bounded repetition `a{n}`. -/
def rexact (a : RE) : Nat → RE
  | 0 => .eps
  | n + 1 => .cat a (rexact a n)

/-- Greedy `a{0,n}`: prefer more copies. -/
def ruptoN (a : RE) : Nat → RE
  | 0 => .eps
  | n + 1 => .alt (.cat a (ruptoN a n)) .eps

/-- Greedy `a{lo,hi}`. -/
def rbetween (a : RE) (lo hi : Nat) : RE :=
  .cat (rexact a lo) (ruptoN a (hi - lo))

/-- `a{lo,}`. -/
def ratleast (a : RE) (lo : Nat) : RE :=
  .cat (rexact a lo) (.star a)

/-- Stable insertion of `x` after every `y` with `le y x` (Python's sort is
stable; `sinsert` preserves the original order of key-equal elements when
elements are folded in from the left). -/
def sinsert (le : α → α → Bool) (x : α) : List α → List α
  | [] => [x]
  | y :: ys => if le y x then y :: sinsert le x ys else x :: y :: ys

/-- Python `list.sort(key=...)` as a stable sort w.r.t. a boolean `le`. -/
def pySort (le : α → α → Bool) (l : List α) : List α :=
  l.foldl (fun acc x => sinsert le x acc) []

def dDigit : RE := .cls [('0', '9')]

def dSpace : RE := .cls [(' ', ' '), ('\t', '\t'), ('\n', '\n'), ('\x0b', '\x0b'), ('\x0c', '\x0c'), ('\x0d', '\x0d')]

def dUpper : RE := .cls [('A', 'Z')]

def dLower : RE := .cls [('a', 'z')]

/-! ## Python dicts and sets

Python dicts preserve insertion order; they are modelled as association
lists where updating an existing key keeps its position and a new key is
appended.  Python sets are modelled as duplicate-free lists (contents are
what matters; `set.add` appends when absent). -/

abbrev Dict (α : Type) := List (Str × α)

def dictGet {α : Type} (d : Dict α) (k : Str) : Option α :=
  match d.find? (fun p => p.1 = k) with
  | some p => some p.2
  | none => none

def dictGetD {α : Type} (d : Dict α) (k : Str) (dflt : α) : α :=
  (dictGet d k).getD dflt

def dictSet {α : Type} (d : Dict α) (k : Str) (v : α) : Dict α :=
  match d with
  | [] => [(k, v)]
  | p :: rest => if p.1 = k then (k, v) :: rest else p :: dictSet rest k v

def setAdd (s : List Str) (v : Str) : List Str :=
  if s.contains v then s else s ++ [v]

/-- Python `set(list)`: contents of the list without duplicates. -/
def setOfList (l : List Str) : List Str :=
  l.foldl setAdd []

/-! ## mapper.py — `MappingEntry`, `Mapping` -/

structure MEntry where
  placeholder : Str
  canonical : Str
  variations : List Str
  occurrences : Nat
deriving Repr, DecidableEq

/-- `Mapping.__init__` state.  `created` is the timestamp string chosen at
construction time (opaque data here). -/
structure MState where
  entries : Dict MEntry
  valueToPlaceholder : Dict Str
  counters : Dict Nat
  created : Str
  version : Str
deriving Repr, DecidableEq

def mappingInit (created : Str) : MState :=
  { entries := [], valueToPlaceholder := [], counters := [],
    created := created, version := sl "1.0" }

/-- `Mapping._normalize_name`. -/
def particles : List Str :=
  [sl "EL", sl "AL", sl "VAN", sl "DE", sl "DER", sl "DEN", sl "TEN", sl "TER", sl "LA", sl "LE"]

/-- Lexicographic string order on code points (Python `<` on `str`,
used by `list.sort`). -/
def strLt : Str → Str → Bool
  | [], [] => false
  | [], _ :: _ => true
  | _ :: _, [] => false
  | a :: as_, b :: bs => if a < b then true else if a = b then strLt as_ bs else false

def strLe (a b : Str) : Bool := !(strLt b a)

def joinBar (l : List Str) : Str :=
  match l with
  | [] => []
  | [a] => a
  | a :: rest => a ++ '|' :: joinBar rest

def normalizeName (name : Str) : Str :=
  let nameU := pyUpper name
  let parts := pySplitWs nameU
  let core := parts.filter (fun p => !(particles.contains p))
  joinBar (pySort strLe core)

/-- `Mapping._normalize_phone`.  `re.sub(r'[^\d+]', '', phone)` keeps every
`'+'`, wherever it occurs. -/
def normalizePhone (phone : Str) : Str :=
  let digits := phone.filter (fun c => isDigitC c || c = '+')
  if listStarts (sl "00") digits then '+' :: digits.drop 2
  else if listStarts (sl "0") digits && digits.length = 10 then sl "+32" ++ digits.drop 1
  else digits

/-- `Mapping._normalize_iban`: uppercase, remove `\s`. -/
def normalizeIban (iban : Str) : Str :=
  (pyUpper iban).filter (fun c => !isPyWs c)

/-- `Mapping._normalize`. -/
def normalize (value : Str) (category : Str) : Str :=
  if category = sl "PERSON" then normalizeName value
  else if category = sl "PHONE" then normalizePhone value
  else if category = sl "IBAN" then normalizeIban value
  else pyStrip (pyUpper value)

def digitChar (n : Nat) : Char := Char.ofNat (48 + n)

/-- Decimal digits of `n` (most significant first); `fuel ≥ n` suffices. -/
def natDigitsF : Nat → Nat → Str
  | 0, _ => []
  | fuel + 1, n =>
      if n < 10 then [digitChar n]
      else natDigitsF fuel (n / 10) ++ [digitChar (n % 10)]

/-- Python `str(n)` for a natural number. -/
def natDigits (n : Nat) : Str := natDigitsF (n + 1) n

/-- `f"{n:03d}"`. -/
def pad3 (n : Nat) : Str :=
  let s := natDigits n
  List.replicate (3 - s.length) '0' ++ s

/-- `Mapping.get_or_create_placeholder`.  The inner `none` branch is
unreachable for states reached through this function (Python would raise
`KeyError` there). -/
def getOrCreate (m : MState) (value category : Str) : Str × MState :=
  let normalized := normalize value category
  match dictGet m.valueToPlaceholder normalized with
  | some ph =>
      match dictGet m.entries ph with
      | some e =>
          let e2 : MEntry :=
            { e with variations := setAdd e.variations value,
                     occurrences := e.occurrences + 1 }
          (ph, { m with entries := dictSet m.entries ph e2 })
      | none => (ph, m)
  | none =>
      let cnt := dictGetD m.counters category 0 + 1
      let ph := category ++ '_' :: pad3 cnt
      let e : MEntry :=
        { placeholder := ph, canonical := value, variations := [value], occurrences := 1 }
      (ph, { m with
              entries := dictSet m.entries ph e,
              valueToPlaceholder := dictSet m.valueToPlaceholder normalized ph,
              counters := dictSet m.counters category cnt })

/-- `Mapping.get_original`. -/
def getOriginal (m : MState) (ph : Str) : Option Str :=
  (dictGet m.entries ph).map (fun e => e.canonical)

/-- Split a (reversed) string at its first `'_'`: `some (before, after)`,
`none` when there is no underscore. -/
def breakAtUnd : Str → Option (Str × Str)
  | [] => none
  | c :: rest =>
      if c = '_' then some ([], rest)
      else match breakAtUnd rest with
        | some (a, b) => some (c :: a, b)
        | none => none

/-- `placeholder.rsplit('_', 1)[0]` (everything before the last `'_'`). -/
def rsplitHead (ph : Str) : Str :=
  match breakAtUnd ph.reverse with
  | some (_, b) => b.reverse
  | none => ph

/-- `placeholder.rsplit('_', 1)[1]` (everything after the last `'_'`). -/
def rsplitTail (ph : Str) : Str :=
  match breakAtUnd ph.reverse with
  | some (a, _) => a.reverse
  | none => []

/-- `int(s)` for a string of digits. -/
def pyInt (s : Str) : Nat :=
  s.foldl (fun acc c => acc * 10 + (c.toNat - '0'.toNat)) 0

/-- The persisted JSON form of one entry. -/
structure EntryDict where
  canonical : Str
  variations : List Str
  occurrences : Nat
deriving Repr, DecidableEq

/-- The persisted JSON object (`Mapping.to_dict`). -/
structure MapDict where
  version : Str
  created : Str
  statistics : Dict Nat
  mappings : Dict EntryDict
deriving Repr, DecidableEq

def toDict (m : MState) : MapDict :=
  { version := m.version,
    created := m.created,
    statistics := m.counters,
    mappings := m.entries.map (fun p =>
      (p.1, { canonical := p.2.canonical, variations := p.2.variations,
              occurrences := p.2.occurrences })) }

/-- One iteration of the `Mapping.load` loop over the persisted mappings. -/
def loadStep (m : MState) (p : Str × EntryDict) : MState :=
  let ph := p.1
  let ed := p.2
  let entry : MEntry :=
    { placeholder := ph, canonical := ed.canonical,
      variations := setOfList ed.variations, occurrences := ed.occurrences }
  let category := rsplitHead ph
  let normalized := normalize ed.canonical category
  let num := pyInt (rsplitTail ph)
  { m with
      entries := dictSet m.entries ph entry,
      valueToPlaceholder := dictSet m.valueToPlaceholder normalized ph,
      counters := dictSet m.counters category (Nat.max (dictGetD m.counters category 0) num) }

/-- `Mapping.load` (on the parsed JSON object; file I/O elided). -/
def loadDict (d : MapDict) : MState :=
  d.mappings.foldl loadStep
    { entries := [], valueToPlaceholder := [], counters := [],
      created := d.created, version := d.version }

/-! ## patterns.py — `Match` and the Conflict Resolver -/

/-- `Match` (the `end` field is called `stop`; `end` is a Lean keyword). -/
structure Match where
  text : Str
  start : Nat
  stop : Nat
  category : Str
  confidence : Nat
  context : Str := []
deriving Repr, DecidableEq

/-- Sort key `(-confidence, -(end - start))`, as a boolean `≤`. -/
def confLenLe (a b : Match) : Bool :=
  if a.confidence = b.confidence then b.stop - b.start ≤ a.stop - a.start
  else b.confidence < a.confidence

def sortByStart (ms : List Match) : List Match :=
  pySort (fun a b => a.start ≤ b.start) ms

/-- `matches.sort(key=lambda m: m.start, reverse=True)` (stable). -/
def sortByStartDesc (ms : List Match) : List Match :=
  pySort (fun a b => b.start ≤ a.start) ms

/-! ## patterns.py — pattern detectors

Helper notation: `wsCC` is the `\s` class, `ws0` is `\s?`, `wsP` is `\s+`,
`dN n` is `\d{n}`, `dRange lo hi` is `\d{lo,hi}`. -/

def wsCC : CClass :=
  [(' ', ' '), ('\t', '\t'), ('\n', '\n'), ('\x0b', '\x0b'), ('\x0c', '\x0c'), ('\x0d', '\x0d')]

def ws0 : RE := ropt dSpace

def wsP : RE := rplus dSpace

def dN (n : Nat) : RE := rexact dDigit n

def dRange (lo hi : Nat) : RE := rbetween dDigit lo hi

def plusOpt : RE := ropt (rchr '+')

/-- `[/.\s]` -/
def sepSD : RE := .cls ([('/', '/'), ('.', '.')] ++ wsCC)

/-- `[-.\s]` -/
def sepDDS : RE := .cls ([('-', '-'), ('.', '.')] ++ wsCC)

/-- `[-\s]` -/
def sepDS : RE := .cls ([('-', '-')] ++ wsCC)

/-- date separator class (`-`, `/`, `.`) -/
def dateSep : RE := .cls [('-', '-'), ('/', '/'), ('.', '.')]

def ctxAround (text : Str) (a b pre post : Nat) : Str :=
  slice text (a - pre) (b + post)

/-- Build a `Match`.  Confidence is in hundredths (the source uses float
literals with exactly two decimals, e.g. `0.95` is `95` here; all
comparisons between these values coincide). -/
def mkM (t : Str) (a b : Nat) (cat : String) (conf : Nat) (ctx : Str) : Match :=
  { text := t, start := a, stop := b, category := sl cat, confidence := conf, context := ctx }

/-- `PHONE_PATTERNS` (subtype tags do not influence `detect_phones`). -/
def phonePats : List RE :=
  [ -- \b0\d{1,2}[/.\s]\d{2,3}[/.\s]\d{2}[/.\s]\d{2}\b  (BE_LANDLINE)
    rseq [.wordB, rchr '0', dRange 1 2, sepSD, dRange 2 3, sepSD, dN 2, sepSD, dN 2, .wordB],
    -- \+?32\s?\d{9}  (BE_MOBILE)
    rseq [plusOpt, rstr "32", ws0, dN 9],
    -- \+?32\s?\d{3}\s?\d{2}\s?\d{2}\s?\d{2}  (BE_MOBILE)
    rseq [plusOpt, rstr "32", ws0, dN 3, ws0, dN 2, ws0, dN 2, ws0, dN 2],
    -- \b0[4-9]\d{2}[/.\s]?\d{2}[/.\s]?\d{2}[/.\s]?\d{2}\b  (BE_MOBILE_LOCAL)
    rseq [.wordB, rchr '0', .cls [('4', '9')], dN 2, ropt sepSD, dN 2, ropt sepSD, dN 2,
          ropt sepSD, dN 2, .wordB],
    -- \+?31\s?\d{9}  (NL_MOBILE)
    rseq [plusOpt, rstr "31", ws0, dN 9],
    -- \+?31\s?6\s?\d{4}\s?\d{4}  (NL_MOBILE)
    rseq [plusOpt, rstr "31", ws0, rchr '6', ws0, dN 4, ws0, dN 4],
    -- \(\d{3}\)\s?\d{3}[-.\s]?\d{4}  (US_PHONE)
    rseq [rchr '(', dN 3, rchr ')', ws0, dN 3, ropt sepDDS, dN 4],
    -- \b\d{3}[-.\s]\d{3}[-.\s]\d{4}\b  (US_PHONE)
    rseq [.wordB, dN 3, sepDDS, dN 3, sepDDS, dN 4, .wordB],
    -- \+?1[-.\s]?\d{3}[-.\s]?\d{3}[-.\s]?\d{4}  (US_PHONE)
    rseq [plusOpt, rchr '1', ropt sepDDS, dN 3, ropt sepDDS, dN 3, ropt sepDDS, dN 4],
    -- \+?44\s?\d{2,4}\s?\d{3,4}\s?\d{4}  (UK_PHONE)
    rseq [plusOpt, rstr "44", ws0, dRange 2 4, ws0, dRange 3 4, ws0, dN 4],
    -- \b0\d{2,4}\s?\d{3,4}\s?\d{4}\b  (UK_PHONE)
    rseq [.wordB, rchr '0', dRange 2 4, ws0, dRange 3 4, ws0, dN 4, .wordB],
    -- \+?33\s?\d{9}  (FR_MOBILE)
    rseq [plusOpt, rstr "33", ws0, dN 9],
    -- \+?33\s?\d\s?\d{2}\s?\d{2}\s?\d{2}\s?\d{2}  (FR_PHONE)
    rseq [plusOpt, rstr "33", ws0, dDigit, ws0, dN 2, ws0, dN 2, ws0, dN 2, ws0, dN 2],
    -- \b0\d\s?\d{2}\s?\d{2}\s?\d{2}\s?\d{2}\b  (FR_PHONE)
    rseq [.wordB, rchr '0', dDigit, ws0, dN 2, ws0, dN 2, ws0, dN 2, ws0, dN 2, .wordB],
    -- \+?49\s?\d{2,4}\s?\d{6,8}  (DE_PHONE)
    rseq [plusOpt, rstr "49", ws0, dRange 2 4, ws0, dRange 6 8],
    -- \b0\d{2,4}\s?\d{6,8}\b  (DE_PHONE)
    rseq [.wordB, rchr '0', dRange 2 4, ws0, dRange 6 8, .wordB],
    -- \+?212\s?\d{9}  (MA_MOBILE)
    rseq [plusOpt, rstr "212", ws0, dN 9],
    -- \+?79\s?\d{9}  (RU_MOBILE)
    rseq [plusOpt, rstr "79", ws0, dN 9],
    -- \+\d{2,3}\s?\d{8,12}  (INTL_GENERIC)
    rseq [rchr '+', dRange 2 3, ws0, dRange 8 12] ]

/-- `detect_phones`. -/
def detectPhones (text : Str) : List Match :=
  (phonePats.foldl
    (fun acc p =>
      (fspans p text).foldl
        (fun acc2 sp =>
          if acc2.2.contains sp then acc2
          else (acc2.1 ++ [mkM (slice text sp.1 sp.2) sp.1 sp.2 "PHONE" 95
                  (ctxAround text sp.1 sp.2 20 20)],
                acc2.2 ++ [sp]))
        acc)
    (([], []) : List Match × List (Nat × Nat))).1

/-- `EMAIL_PATTERN`: `[a-zA-Z0-9._%+-]+@[a-zA-Z0-9.-]+\.[a-zA-Z]{2,}` -/
def emailRE : RE :=
  rseq [rplus (.cls [('a', 'z'), ('A', 'Z'), ('0', '9'), ('.', '.'), ('_', '_'), ('%', '%'),
          ('+', '+'), ('-', '-')]),
        rchr '@',
        rplus (.cls [('a', 'z'), ('A', 'Z'), ('0', '9'), ('.', '.'), ('-', '-')]),
        rchr '.',
        ratleast (.cls [('a', 'z'), ('A', 'Z')]) 2]

/-- `detect_emails`. -/
def detectEmails (text : Str) : List Match :=
  (fspans emailRE text).map
    (fun sp => mkM (slice text sp.1 sp.2) sp.1 sp.2 "EMAIL" 99
      (ctxAround text sp.1 sp.2 20 20))

def alnumU : RE := .cls [('A', 'Z'), ('0', '9')]

/-- `IBAN_PATTERNS`. -/
def ibanPats : List RE :=
  [ -- \bBE\d{2}\s?\d{4}\s?\d{4}\s?\d{4}\b
    rseq [.wordB, rstr "BE", dN 2, ws0, dN 4, ws0, dN 4, ws0, dN 4, .wordB],
    -- \bNL\d{2}\s?[A-Z]{4}\s?\d{4}\s?\d{4}\s?\d{2}\b
    rseq [.wordB, rstr "NL", dN 2, ws0, rexact dUpper 4, ws0, dN 4, ws0, dN 4, ws0, dN 2, .wordB],
    -- \bDE\d{2}\s?\d{4}\s?\d{4}\s?\d{4}\s?\d{4}\s?\d{2}\b
    rseq [.wordB, rstr "DE", dN 2, ws0, dN 4, ws0, dN 4, ws0, dN 4, ws0, dN 4, ws0, dN 2, .wordB],
    -- \bFR\d{2}\s?\d{4}\s?\d{4}\s?\d{4}\s?\d{4}\s?\d{4}\s?\d{3}\b
    rseq [.wordB, rstr "FR", dN 2, ws0, dN 4, ws0, dN 4, ws0, dN 4, ws0, dN 4, ws0, dN 4,
          ws0, dN 3, .wordB],
    -- \bGB\d{2}\s?[A-Z]{4}\s?\d{4}\s?\d{4}\s?\d{4}\s?\d{2}\b
    rseq [.wordB, rstr "GB", dN 2, ws0, rexact dUpper 4, ws0, dN 4, ws0, dN 4, ws0, dN 4,
          ws0, dN 2, .wordB],
    -- \bES\d{2}\s?\d{4}\s?\d{4}\s?\d{4}\s?\d{4}\s?\d{4}\b
    rseq [.wordB, rstr "ES", dN 2, ws0, dN 4, ws0, dN 4, ws0, dN 4, ws0, dN 4, ws0, dN 4, .wordB],
    -- \bIT\d{2}\s?[A-Z]\d{3}\s?\d{4}\s?\d{4}\s?\d{4}\s?\d{4}\s?\d{3}\b
    rseq [.wordB, rstr "IT", dN 2, ws0, dUpper, dN 3, ws0, dN 4, ws0, dN 4, ws0, dN 4,
          ws0, dN 4, ws0, dN 3, .wordB],
    -- \b[A-Z]{2}\d{2}\s?[A-Z0-9]{4}(?:\s?[A-Z0-9]{4}){2,6}\b
    rseq [.wordB, rexact dUpper 2, dN 2, ws0, rexact alnumU 4,
          rbetween (rseq [ws0, rexact alnumU 4]) 2 6, .wordB] ]

/-- `detect_ibans` (skips spans containing `XX`/`xx` without recording them). -/
def detectIbans (text : Str) : List Match :=
  (ibanPats.foldl
    (fun acc p =>
      (fspans p text).foldl
        (fun acc2 sp =>
          if acc2.2.contains sp then acc2
          else
            let g := slice text sp.1 sp.2
            if subIn (sl "XX") g || subIn (sl "xx") g then acc2
            else (acc2.1 ++ [mkM g sp.1 sp.2 "IBAN" 95 (ctxAround text sp.1 sp.2 20 20)],
                  acc2.2 ++ [sp]))
        acc)
    (([], []) : List Match × List (Nat × Nat))).1

/-- `DATE_PATTERN`: backslash-b, d{1,2}, sep, d{1,2}, sep, d{2,4}, backslash-b with sep the date separator class -/
def dateRE : RE :=
  rseq [.wordB, dRange 1 2, dateSep, dRange 1 2, dateSep, dRange 2 4, .wordB]

def dobContextBefore : List Str :=
  [sl "geboren op", sl "geboren", sl "geboortedatum", sl "geboortedatum:",
   sl "birth", sl "date of birth", sl "dob", sl "born on", sl "born",
   sl "né le", sl "née le", sl "naissance", sl "date de naissance",
   sl "geboren am", sl "geburtsdatum", sl "geb.",
   sl "°", sl "*"]

/-- `detect_dates_of_birth`. -/
def detectDatesOfBirth (text : Str) : List Match :=
  let textLower := pyLower text
  (fspans dateRE text).foldl
    (fun acc sp =>
      let before := slice textLower (sp.1 - 30) sp.1
      if dobContextBefore.any (fun c => subIn c before) then
        acc ++ [mkM (slice text sp.1 sp.2) sp.1 sp.2 "DOB" 90
          (ctxAround text sp.1 sp.2 30 20)]
      else acc)
    []

/-- `[a-zé]` -/
def lowE : RE := .cls [('a', 'z'), ('é', 'é')]

/-- `[a-zé-]` -/
def lowEH : RE := .cls [('a', 'z'), ('é', 'é'), ('-', '-')]

/-- `[a-zäöüß]` -/
def lowDE : RE := .cls [('a', 'z'), ('ä', 'ä'), ('ö', 'ö'), ('ü', 'ü'), ('ß', 'ß')]

/-- `ADDRESS_PATTERNS`. -/
def addressPats : List RE :=
  [ -- [A-Z][a-zé]+(?:straat|laan|weg|plein|singel|dreef|lei|steenweg|kaai)[a-z]*\s+\d+(?:/[A-Z]?\d+)?
    rseq [dUpper, rplus lowE,
          raltL [rstr "straat", rstr "laan", rstr "weg", rstr "plein", rstr "singel",
                 rstr "dreef", rstr "lei", rstr "steenweg", rstr "kaai"],
          .star dLower, wsP, rplus dDigit,
          ropt (rseq [rchr '/', ropt dUpper, rplus dDigit])],
    -- \b[1-9]\d{3} [A-Z][a-z]+\b
    rseq [.wordB, .cls [('1', '9')], dN 3, rchr ' ', dUpper, rplus dLower, .wordB],
    -- \b\d{4}\s?[A-Z]{2}\s+[A-Z][a-z]+(?:\s+\([A-Za-z]+\))?
    rseq [.wordB, dN 4, ws0, rexact dUpper 2, wsP, dUpper, rplus dLower,
          ropt (rseq [wsP, rchr '(', rplus (.cls [('A', 'Z'), ('a', 'z')]), rchr ')'])],
    -- \b\d+\s+[A-Z][a-z]+(?:\s+[A-Z][a-z]+)?\s+(?:Street|St|Avenue|Ave|Road|Rd|Drive|Dr|Lane|Ln|Boulevard|Blvd|Way|Court|Ct|Place|Pl)\b
    rseq [.wordB, rplus dDigit, wsP, dUpper, rplus dLower,
          ropt (rseq [wsP, dUpper, rplus dLower]), wsP,
          raltL [rstr "Street", rstr "St", rstr "Avenue", rstr "Ave", rstr "Road", rstr "Rd",
                 rstr "Drive", rstr "Dr", rstr "Lane", rstr "Ln", rstr "Boulevard", rstr "Blvd",
                 rstr "Way", rstr "Court", rstr "Ct", rstr "Place", rstr "Pl"],
          .wordB],
    -- \b\d{5}(?:-\d{4})?\b
    rseq [.wordB, dN 5, ropt (rseq [rchr '-', dN 4]), .wordB],
    -- \b[A-Z][a-z]+(?:\s+[A-Z][a-z]+)?,\s*[A-Z]{2}\s+\d{5}(?:-\d{4})?\b
    rseq [.wordB, dUpper, rplus dLower, ropt (rseq [wsP, dUpper, rplus dLower]), rchr ',',
          .star dSpace, rexact dUpper 2, wsP, dN 5, ropt (rseq [rchr '-', dN 4]), .wordB],
    -- \b[A-Z]{1,2}\d[A-Z\d]?\s*\d[A-Z]{2}\b
    rseq [.wordB, rbetween dUpper 1 2, dDigit, ropt (.cls [('A', 'Z'), ('0', '9')]),
          .star dSpace, dDigit, rexact dUpper 2, .wordB],
    -- \b\d+\s+[A-Z][a-z]+(?:\s+[A-Z][a-z]+)?\s+(?:Street|Road|Lane|Avenue|Gardens|Square|Terrace|Close|Crescent)\b
    rseq [.wordB, rplus dDigit, wsP, dUpper, rplus dLower,
          ropt (rseq [wsP, dUpper, rplus dLower]), wsP,
          raltL [rstr "Street", rstr "Road", rstr "Lane", rstr "Avenue", rstr "Gardens",
                 rstr "Square", rstr "Terrace", rstr "Close", rstr "Crescent"],
          .wordB],
    -- \b\d+\s+(?:rue|avenue|boulevard|place|allée|chemin|impasse)\s+(?:de\s+(?:la\s+)?|du\s+|des\s+)?[A-Z][a-zé-]+(?:\s+[A-Z][a-zé-]+)*\b
    rseq [.wordB, rplus dDigit, wsP,
          raltL [rstr "rue", rstr "avenue", rstr "boulevard", rstr "place", rstr "allée",
                 rstr "chemin", rstr "impasse"],
          wsP,
          ropt (raltL [rseq [rstr "de", wsP, ropt (rseq [rstr "la", wsP])],
                       rseq [rstr "du", wsP], rseq [rstr "des", wsP]]),
          dUpper, rplus lowEH, .star (rseq [wsP, dUpper, rplus lowEH]), .wordB],
    -- \b\d{5}\s+[A-Z][a-zé-]+(?:-[A-Z][a-zé-]+)*\b
    rseq [.wordB, dN 5, wsP, dUpper, rplus lowEH,
          .star (rseq [rchr '-', dUpper, rplus lowEH]), .wordB],
    -- \b[A-Z][a-zäöüß]+(?:straße|strasse|weg|platz|allee|gasse)\s+\d+[a-z]?\b
    rseq [.wordB, dUpper, rplus lowDE,
          raltL [rstr "straße", rstr "strasse", rstr "weg", rstr "platz", rstr "allee",
                 rstr "gasse"],
          wsP, rplus dDigit, ropt dLower, .wordB],
    -- \b\d{5}\s+[A-Z][a-zäöüß]+\b
    rseq [.wordB, dN 5, wsP, dUpper, rplus lowDE, .wordB] ]

/-- `detect_addresses` (skips spans containing a newline without recording
them). -/
def detectAddresses (text : Str) : List Match :=
  (addressPats.foldl
    (fun acc p =>
      (fspans p text).foldl
        (fun acc2 sp =>
          if acc2.2.contains sp then acc2
          else
            let g := slice text sp.1 sp.2
            if g.contains '\n' then acc2
            else (acc2.1 ++ [mkM g sp.1 sp.2 "ADDRESS" 85
                    (ctxAround text sp.1 sp.2 30 20)],
                  acc2.2 ++ [sp]))
        acc)
    (([], []) : List Match × List (Nat × Nat))).1

/-- `NATIONAL_ID_PATTERNS` with their subtype tags. -/
def nationalIdPats : List (RE × String) :=
  [ -- \b\d{9}\b
    (rseq [.wordB, dN 9, .wordB], "NL_BSN"),
    -- \b\d{8}[-.\s]?\d{1}\b
    (rseq [.wordB, dN 8, ropt sepDDS, dN 1, .wordB], "NL_BSN"),
    -- \b\d{2}\.?\d{2}\.?\d{2}[-.\s]?\d{3}[-.\s]?\d{2}\b
    (rseq [.wordB, dN 2, ropt (rchr '.'), dN 2, ropt (rchr '.'), dN 2, ropt sepDDS, dN 3,
           ropt sepDDS, dN 2, .wordB], "BE_NATIONAL"),
    -- \b\d{3}[-\s]?\d{2}[-\s]?\d{4}\b
    (rseq [.wordB, dN 3, ropt sepDS, dN 2, ropt sepDS, dN 4, .wordB], "US_SSN"),
    -- \b[A-Z]{2}\s?\d{2}\s?\d{2}\s?\d{2}\s?[A-Z]\b
    (rseq [.wordB, rexact dUpper 2, ws0, dN 2, ws0, dN 2, ws0, dN 2, ws0, dUpper, .wordB],
     "UK_NI"),
    -- \b[12]\s?\d{2}\s?\d{2}\s?\d{2}\s?\d{3}\s?\d{3}\s?\d{2}\b
    (rseq [.wordB, .cls [('1', '2')], ws0, dN 2, ws0, dN 2, ws0, dN 2, ws0, dN 3, ws0, dN 3,
           ws0, dN 2, .wordB], "FR_INSEE"),
    -- \b\d{2}\s?\d{6}\s?[A-Z]\s?\d{3}\s?\d\b
    (rseq [.wordB, dN 2, ws0, dN 6, ws0, dUpper, ws0, dN 3, ws0, dN 1, .wordB], "DE_SOZVERS"),
    -- \b[A-Z]\d{8}\b
    (rseq [.wordB, dUpper, dN 8, .wordB], "DE_PERSO"),
    -- \b\d{8}[-\s]?[A-Z]\b
    (rseq [.wordB, dN 8, ropt sepDS, dUpper, .wordB], "ES_DNI"),
    -- \b[XYZ][-\s]?\d{7}[-\s]?[A-Z]\b
    (rseq [.wordB, .cls [('X', 'Z')], ropt sepDS, dN 7, ropt sepDS, dUpper, .wordB], "ES_NIE"),
    -- \b[A-Z]{6}\d{2}[A-Z]\d{2}[A-Z]\d{3}[A-Z]\b
    (rseq [.wordB, rexact dUpper 6, dN 2, dUpper, dN 2, dUpper, dN 3, dUpper, .wordB], "IT_CF"),
    -- \b[A-Z]{1,2}\d{6,8}\b
    (rseq [.wordB, rbetween dUpper 1 2, dRange 6 8, .wordB], "PASSPORT") ]

def idContext : List Str :=
  [sl "bsn", sl "burgerservicenummer", sl "sofinummer", sl "sofi-nummer",
   sl "nationaal nummer", sl "rijksregisternummer", sl "identiteitskaartnummer",
   sl "national number", sl "id number",
   sl "ssn", sl "social security", sl "national insurance", sl "ni number",
   sl "passport", sl "driver license", sl "driving licence",
   sl "numéro de sécurité sociale", sl "numéro insee", sl "passeport",
   sl "sozialversicherungsnummer", sl "personalausweis", sl "reisepass",
   sl "dni", sl "nie", sl "documento nacional",
   sl "codice fiscale"]

/-- `_validate_bsn`: strip non-digits, require 9 digits, 11-proef checksum. -/
def validateBsn (bsn : Str) : Bool :=
  let digits := bsn.filter (fun c => isDigitC c)
  if digits.length ≠ 9 then false
  else
    let weights : List Int := [9, 8, 7, 6, 5, 4, 3, 2, -1]
    let total : Int :=
      (digits.zip weights).foldl
        (fun acc p => acc + ((p.1.toNat : Int) - 48) * p.2) 0
    total % 11 = 0

/-- `detect_national_ids`. -/
def detectNationalIds (text : Str) : List Match :=
  let textLower := pyLower text
  (nationalIdPats.foldl
    (fun acc pr =>
      (fspans pr.1 text).foldl
        (fun acc2 sp =>
          if acc2.2.contains sp then acc2
          else
            let g := slice text sp.1 sp.2
            let before := slice textLower (sp.1 - 50) sp.1
            let hasContext := idContext.any (fun c => subIn c before)
            if pr.2 = "NL_BSN" && !validateBsn g && !hasContext then acc2
            else if pr.2 = "US_SSN" &&
                !([sl "ssn", sl "social security"].any (fun c => subIn c before)) then acc2
            else if pr.2 = "BE_NATIONAL" &&
                (g.filter (fun c => c ≠ '.' && c ≠ '-' && c ≠ ' ')).length = 11 &&
                !hasContext then acc2
            else if pr.2 = "PASSPORT" && !hasContext then acc2
            else
              (acc2.1 ++ [mkM g sp.1 sp.2 "ID" (if hasContext then 85 else 70)
                  (ctxAround text sp.1 sp.2 30 20)],
               acc2.2 ++ [sp]))
        acc)
    (([], []) : List Match × List (Nat × Nat))).1

/-- `BELGIAN_PLACES ∪ DUTCH_PLACES ∪ GERMAN_PLACES`, in source literal order
(Python iterates the set in an unspecified order; no settled claim depends
on the iteration order). -/
def knownPlaces : List String :=
  ["Antwerpen", "Gent", "Brugge", "Leuven", "Mechelen", "Aalst", "Hasselt",
   "Sint-Niklaas", "Kortrijk", "Oostende", "Genk", "Roeselare", "Dendermonde",
   "Turnhout", "Lokeren", "Beveren", "Vilvoorde", "Waregem", "Ieper",
   "Herentals", "Diest", "Tongeren", "Lommel", "Tienen", "Maasmechelen",
   "Geraardsbergen", "Ninove", "Wetteren", "Brasschaat", "Beringen",
   "Temse", "Knokke-Heist", "Mol", "Aarschot", "Izegem", "Eeklo",
   "Deinze", "Halle", "Dilsen-Stokkem", "Pelt", "Zottegem", "Oudenaarde",
   "Menen", "Willebroek", "Zele", "Wevelgem", "Bree", "Bornem",
   "Brussel", "Brussels", "Bruxelles", "Schaarbeek", "Anderlecht", "Molenbeek",
   "Etterbeek", "Elsene", "Ixelles", "Ukkel", "Uccle", "Jette", "Evere",
   "Sint-Gillis", "Sint-Jans-Molenbeek", "Vorst", "Forest", "Watermaal-Bosvoorde",
   "Luik", "Liège", "Charleroi", "Namen", "Namur", "Bergen", "Mons",
   "La Louvière", "Doornik", "Tournai", "Seraing", "Verviers", "Moeskroen",
   "Châtelet", "Binche", "Soignies", "Ath", "Eupen", "Malmedy", "Arlon",
   "Zaventem", "Mortsel", "Boom", "Kapellen", "Schoten", "Wijnegem",
   "Merksem", "Deurne", "Berchem", "Hoboken", "Borgerhout", "Wilrijk",
   "Amsterdam", "Rotterdam", "Den Haag", "'s-Gravenhage", "Utrecht",
   "Eindhoven", "Tilburg", "Groningen", "Almere", "Breda", "Nijmegen",
   "Enschede", "Apeldoorn", "Haarlem", "Arnhem", "Zaanstad", "Amersfoort",
   "Haarlemmermeer", "Dordrecht", "Leiden", "Zoetermeer", "Maastricht",
   "Delft", "Deventer", "Alkmaar", "Venlo", "Hilversum", "Heerlen",
   "Roosendaal", "Oss", "Schiedam", "Spijkenisse", "Helmond",
   "Aken", "Aachen", "Keulen", "Köln", "Düsseldorf", "Dusseldorf",
   "Bonn", "Duisburg", "Essen", "Mönchengladbach"]

/-- `[a-zA-Zé\-]` -/
def azAZeH : RE := .cls [('a', 'z'), ('A', 'Z'), ('é', 'é'), ('-', '-')]

/-- `(?:te|in|naar|uit|van|bij)\s+([A-Z][a-zé-]+(?:-[A-Z][a-zé]+)?)\b` -/
def placeContextRE : RE :=
  rseq [raltL [rstr "te", rstr "in", rstr "naar", rstr "uit", rstr "van", rstr "bij"],
        wsP,
        .grp (rseq [dUpper, rplus lowEH, ropt (rseq [rchr '-', dUpper, rplus lowE])]),
        .wordB]

/-- `detect_places`: known place names (case-insensitive) plus context-based
capitalized words. -/
def detectPlaces (text : Str) : List Match :=
  let step1 :=
    knownPlaces.foldl
      (fun acc place =>
        (fspans (rseq [.wordB, rstrCI place, .wordB]) text).foldl
          (fun acc2 sp =>
            if acc2.2.contains sp then acc2
            else (acc2.1 ++ [mkM (slice text sp.1 sp.2) sp.1 sp.2 "PLACE" 95
                    (ctxAround text sp.1 sp.2 20 20)],
                  acc2.2 ++ [sp]))
          acc)
      (([], []) : List Match × List (Nat × Nat))
  ((finditer placeContextRE text).foldl
    (fun acc2 t =>
      match t.2.2 with
      | none => acc2
      | some cap =>
        let placeName := slice text cap.1 cap.2
        let pos := cap
        if acc2.2.contains pos then acc2
        else if [sl "het", sl "de", sl "een", sl "dit", sl "dat", sl "deze"].contains
            (pyLower placeName) then acc2
        else if knownPlaces.any (fun p => sl p = placeName) then acc2
        else if placeName.length < 3 then acc2
        else (acc2.1 ++ [mkM placeName cap.1 cap.2 "PLACE" 75
                (slice text (t.1 - 20) (cap.2 + 20))],
              acc2.2 ++ [pos]))
    step1).1

/-- `[a-zA-Zé\-]` as used in `LOCATION_MARKERS` group classes. -/
def azAZeHCtx : RE := .cls [('a', 'z'), ('A', 'Z'), ('é', 'é'), ('-', '-')]

/-- `LOCATION_MARKERS` (marker tags omitted; they do not influence the
logic). -/
def locationMarkers : List RE :=
  [ -- \bte\s+([A-Z][a-zA-Zé\-]+(?:\s*-\s*[A-Z][a-zA-Zé]+)?)
    rseq [.wordB, rstr "te", wsP,
          .grp (rseq [dUpper, rplus azAZeHCtx,
                ropt (rseq [.star dSpace, rchr '-', .star dSpace, dUpper,
                      rplus (.cls [('a', 'z'), ('A', 'Z'), ('é', 'é')])])])],
    -- \brichting\s+([A-Z][a-zA-Zé\-]+)
    rseq [.wordB, rstr "richting", wsP, .grp (rseq [dUpper, rplus azAZeHCtx])],
    -- \bnaar\s+([A-Z][a-zA-Zé\-]+)
    rseq [.wordB, rstr "naar", wsP, .grp (rseq [dUpper, rplus azAZeHCtx])],
    -- \bvanuit\s+([A-Z][a-zA-Zé\-]+)
    rseq [.wordB, rstr "vanuit", wsP, .grp (rseq [dUpper, rplus azAZeHCtx])],
    -- \bvia\s+([A-Z][a-zA-Zé\-]+)
    rseq [.wordB, rstr "via", wsP, .grp (rseq [dUpper, rplus azAZeHCtx])],
    -- \bt\.?h\.?v\.?\s+([A-Z][a-zA-Zé\-]+)
    rseq [.wordB, rchr 't', ropt (rchr '.'), rchr 'h', ropt (rchr '.'), rchr 'v',
          ropt (rchr '.'), wsP, .grp (rseq [dUpper, rplus azAZeHCtx])],
    -- \bter hoogte van\s+([A-Z][a-zA-Zé\-]+)
    rseq [.wordB, rstr "ter hoogte van", wsP, .grp (rseq [dUpper, rplus azAZeHCtx])],
    -- \b\d{4}\s+([A-Z][a-zA-Zé\-]+)\b
    rseq [.wordB, dN 4, wsP, .grp (rseq [dUpper, rplus azAZeHCtx]), .wordB],
    -- \b\d{4}\s*[A-Z]{2}\s+([A-Z][a-zA-Zé\-]+)\b
    rseq [.wordB, dN 4, .star dSpace, rexact dUpper 2, wsP,
          .grp (rseq [dUpper, rplus azAZeHCtx]), .wordB],
    -- \b([A-Z]{3,})\s+\d{4}\b
    rseq [.wordB, .grp (ratleast dUpper 3), wsP, dN 4, .wordB],
    -- \brichting\s+([a-zA-Z][a-zA-Zé\-]+)
    rseq [.wordB, rstr "richting", wsP,
          .grp (rseq [.cls [('a', 'z'), ('A', 'Z')], rplus azAZeHCtx])] ]

def placeExclusions : List Str :=
  [sl "het", sl "de", sl "een", sl "van", sl "naar", sl "met", sl "voor", sl "door", sl "over",
   sl "België", sl "Nederland", sl "Duitsland", sl "Frankrijk",
   sl "Politie", sl "Justitie", sl "Parket", sl "Rechtbank",
   sl "Procureur", sl "Onderzoeksrechter", sl "Commissaris",
   sl "Maandag", sl "Dinsdag", sl "Woensdag", sl "Donderdag", sl "Vrijdag", sl "Zaterdag",
   sl "Zondag",
   sl "Januari", sl "Februari", sl "Maart", sl "April", sl "Mei", sl "Juni",
   sl "Juli", sl "Augustus", sl "September", sl "Oktober", sl "November", sl "December"]

/-- `detect_context_places`.  The span recorded is the first occurrence of
the group's text inside the whole match (`m.group(0).index(place_name)`). -/
def detectContextPlaces (text : Str) : List Match :=
  (locationMarkers.foldl
    (fun acc p =>
      (finditer p text).foldl
        (fun acc2 t =>
          match t.2.2 with
          | none => acc2
          | some cap =>
            let placeName := slice text cap.1 cap.2
            if placeExclusions.contains placeName then acc2
            else if placeName.length < 3 then acc2
            else
              let g0 := slice text t.1 t.2.1
              let placeStart := t.1 + pyIndex placeName g0
              let placeStop := placeStart + placeName.length
              let pos := (placeStart, placeStop)
              if acc2.2.contains pos then acc2
              else (acc2.1 ++ [mkM placeName placeStart placeStop "PLACE" 90
                      (slice text (t.1 - 10) (t.2.1 + 10))],
                    acc2.2 ++ [pos]))
        acc)
    (([], []) : List Match × List (Nat × Nat))).1

/-- The street-suffix tuple of `detect_any_street`. -/
def streetSuffixes : List String :=
  ["straat", "laan", "weg", "plein", "singel", "dreef", "lei", "steenweg",
   "kaai", "baan", "dijk", "gracht", "kade", "pad", "hof", "park",
   "boulevard", "avenue", "ring", "passage", "markt", "poort", "dam",
   "vest", "wal", "statie", "square", "plaats", "berg", "brug"]

def notStreets : List Str :=
  [sl "overlevering", sl "uitvoering", sl "niet-uitvoering", sl "levering", sl "bezorging",
   sl "herinnering", sl "verandering", sl "verbetering", sl "verklaring", sl "bewering",
   sl "ervaring", sl "oefening", sl "vergadering", sl "bediening", sl "besturing",
   sl "verwijdering", sl "verschijning", sl "verbinding", sl "beëindiging", sl "opening",
   sl "sluiting", sl "aflevering", sl "inlevering", sl "aanlevering", sl "toelevering",
   sl "onderweg", sl "halverwege", sl "vanwege", sl "wegens",
   sl "verlaan",
   sl "schadedam", sl "verdamdam",
   sl "volplein",
   sl "loopbaan", sl "rijbaan", sl "racebaan", sl "vliegbaan", sl "schaatsbaan",
   sl "wielerbaan", sl "omloopbaan", sl "glijbaan",
   sl "tegenpad", sl "voetpad", sl "fietspad", sl "wandelpad", sl "bospad",
   sl "ijsberg", sl "zandberg", sl "afvalberg", sl "schuldenberg",
   sl "paspoort", sl "exportpoort", sl "importpoort",
   sl "luchtbrug", sl "touwbrug",
   sl "zwemvest", sl "reddingsvest", sl "kogelvrijevest",
   sl "arbeidsmarkt", sl "huizenmarkt", sl "woningmarkt", sl "aandelenmarkt",
   sl "obligatiemarkt",
   sl "rechtbank", sl "vooruitgang", sl "achteruitgang"]

/-- The `detect_any_street` regex (case-insensitive): a word of letters and
hyphens ending in a street suffix. -/
def anyStreetRE : RE :=
  rseq [.wordB,
        rplus (.cls [('A', 'Z'), ('a', 'z'), ('é', 'é'), ('É', 'É'), ('-', '-')]),
        raltL (streetSuffixes.map rstrCI), .wordB]

/-- `detect_any_street`.  The nested `-ing` conditional in the source only
ever skips matches ending in `ering` (the outer `or` branch for other
`-ing` words reaches an `if` that does not fire), so it is embedded as the
single `ering` test. -/
def detectAnyStreet (text : Str) : List Match :=
  ((fspans anyStreetRE text).foldl
    (fun acc2 sp =>
      let streetName := slice text sp.1 sp.2
      if streetName.length < 6 then acc2
      else if streetSuffixes.any (fun s => pyLower streetName = sl s) then acc2
      else if notStreets.contains (pyLower streetName) then acc2
      else if (sl "ering").isSuffixOf (pyLower streetName) then acc2
      else if acc2.2.contains sp then acc2
      else (acc2.1 ++ [mkM streetName sp.1 sp.2 "STREET" 88
              (ctxAround text sp.1 sp.2 20 20)],
            acc2.2 ++ [sp]))
    (([], []) : List Match × List (Nat × Nat))).1

/-- `VEHICLE_BRANDS` in source literal order (Python set; see
`knownPlaces`). -/
def vehicleBrands : List String :=
  ["fiat", "bmw", "mercedes", "mercedes-benz", "audi", "volkswagen", "vw",
   "opel", "peugeot", "renault", "citroën", "citroen", "volvo", "skoda",
   "seat", "porsche", "ferrari", "lamborghini", "alfa", "mini", "smart",
   "jaguar", "land rover", "landrover", "bentley", "rolls-royce", "aston martin",
   "maserati", "bugatti", "dacia", "lancia", "saab",
   "toyota", "honda", "nissan", "mazda", "hyundai", "kia", "suzuki",
   "mitsubishi", "lexus", "subaru", "isuzu", "daihatsu", "infiniti",
   "acura", "genesis", "ssangyong",
   "ford", "chevrolet", "chevy", "dodge", "jeep", "tesla", "cadillac",
   "chrysler", "buick", "gmc", "lincoln", "ram", "hummer",
   "iveco", "man", "daf", "scania", "renault trucks"]

def vehicleModels : List String :=
  ["ducato", "sprinter", "transit", "transporter", "crafter", "vivaro",
   "trafic", "master", "boxer", "jumper", "daily", "vito", "caddy",
   "berlingo", "partner", "kangoo", "combo", "doblo", "nv200", "hiace",
   "golf", "polo", "passat", "corsa", "astra", "focus", "fiesta",
   "civic", "corolla", "camry", "yaris", "clio", "megane", "scenic",
   "3-serie", "5-serie", "a3", "a4", "a6", "c-klasse", "e-klasse"]

/-- Brand pattern: backslash-b, `(brand(?:\s+[A-Za-z0-9\-]+)?)`, backslash-b,
case-insensitive.  The group spans the whole match (the boundaries are
zero-width), so the recorded span equals the group span. -/
def brandRE (brand : String) : RE :=
  rseq [.wordB,
        .grp (rseq [rstrCI brand,
              ropt (rseq [wsP,
                    rplus (.cls [('A', 'Z'), ('a', 'z'), ('0', '9'), ('-', '-')])])]),
        .wordB]

def modelRE (model : String) : RE :=
  rseq [.wordB, .grp (rstrCI model), .wordB]

/-- `detect_vehicles`. -/
def detectVehicles (text : Str) : List Match :=
  let brandsStep :=
    vehicleBrands.foldl
      (fun acc brand =>
        (fspans (brandRE brand) text).foldl
          (fun acc2 sp =>
            let vehicle := slice text sp.1 sp.2
            if vehicle.length < 3 then acc2
            else if acc2.2.contains sp then acc2
            else (acc2.1 ++ [mkM vehicle sp.1 sp.2 "VEHICLE" 92
                    (ctxAround text sp.1 sp.2 20 20)],
                  acc2.2 ++ [sp]))
          acc)
      (([], []) : List Match × List (Nat × Nat))
  (vehicleModels.foldl
    (fun acc model =>
      (fspans (modelRE model) text).foldl
        (fun acc2 sp =>
          if acc2.2.contains sp then acc2
          else if acc2.2.any (fun r => !(sp.2 ≤ r.1 || sp.1 ≥ r.2)) then acc2
          else (acc2.1 ++ [mkM (slice text sp.1 sp.2) sp.1 sp.2 "VEHICLE" 88
                  (ctxAround text sp.1 sp.2 20 20)],
                acc2.2 ++ [sp]))
        acc)
    brandsStep).1

/-- The road pattern: backslash-b, `[NAERnaer]`, `\d{1,4}`, backslash-b. -/
def roadRE : RE :=
  rseq [.wordB,
        .cls [('N', 'N'), ('A', 'A'), ('E', 'E'), ('R', 'R'),
              ('n', 'n'), ('a', 'a'), ('e', 'e'), ('r', 'r')],
        dRange 1 4, .wordB]

/-- `detect_roads`. -/
def detectRoads (text : Str) : List Match :=
  ((fspans roadRE text).foldl
    (fun acc2 sp =>
      if acc2.2.contains sp then acc2
      else (acc2.1 ++ [mkM (slice text sp.1 sp.2) sp.1 sp.2 "ROAD" 95
              (ctxAround text sp.1 sp.2 20 20)],
            acc2.2 ++ [sp]))
    (([], []) : List Match × List (Nat × Nat))).1

/-- `NAME_PATTERNS`. -/
def namePats : List RE :=
  [ -- \b(?:EL|VAN|DE|DER|DEN|TEN|TER)\s+[A-Z]{2,}\s+[A-Z][a-zé]+(?:\s+[A-Z][a-zé]+)?\b
    rseq [.wordB,
          raltL [rstr "EL", rstr "VAN", rstr "DE", rstr "DER", rstr "DEN", rstr "TEN",
                 rstr "TER"],
          wsP, ratleast dUpper 2, wsP, dUpper, rplus lowE,
          ropt (rseq [wsP, dUpper, rplus lowE]), .wordB],
    -- \b(?:El|Van|De|Der|Den|Ten|Ter|La|Le)\s+[A-Z][a-zé]+\s+[A-Z][a-zé]+(?:\s+[A-Z][a-zé]+)?\b
    rseq [.wordB,
          raltL [rstr "El", rstr "Van", rstr "De", rstr "Der", rstr "Den", rstr "Ten",
                 rstr "Ter", rstr "La", rstr "Le"],
          wsP, dUpper, rplus lowE, wsP, dUpper, rplus lowE,
          ropt (rseq [wsP, dUpper, rplus lowE]), .wordB],
    -- \b(?:Jean|Marie|Pierre|Jacques|Philippe|François|Michel|André|Louis|Charles)[-\s][A-Z][a-zé]+(?:\s+(?:de|du|la|le)\s+[A-Z][a-zé]+)?\b
    rseq [.wordB,
          raltL [rstr "Jean", rstr "Marie", rstr "Pierre", rstr "Jacques", rstr "Philippe",
                 rstr "François", rstr "Michel", rstr "André", rstr "Louis", rstr "Charles"],
          sepDS, dUpper, rplus lowE,
          ropt (rseq [wsP, raltL [rstr "de", rstr "du", rstr "la", rstr "le"], wsP,
                dUpper, rplus lowE]),
          .wordB],
    -- \b(?:de|du)\s+(?:la\s+)?[A-Z][a-zé]+\s+[A-Z][a-zé]+\b
    rseq [.wordB, raltL [rstr "de", rstr "du"], wsP, ropt (rseq [rstr "la", wsP]),
          dUpper, rplus lowE, wsP, dUpper, rplus lowE, .wordB],
    -- \b(?:von|zu|vom)\s+(?:der\s+)?[A-Z][a-zé]+(?:\s+[A-Z][a-zé]+)?\b
    rseq [.wordB, raltL [rstr "von", rstr "zu", rstr "vom"], wsP,
          ropt (rseq [rstr "der", wsP]), dUpper, rplus lowE,
          ropt (rseq [wsP, dUpper, rplus lowE]), .wordB],
    -- \bO'[A-Z][a-z]+\b
    rseq [.wordB, rstr "O'", dUpper, rplus dLower, .wordB],
    -- \b(?:Mc|Mac)[A-Z][a-z]+\b
    rseq [.wordB, raltL [rstr "Mc", rstr "Mac"], dUpper, rplus dLower, .wordB],
    -- \b[A-Z]{2,}(?:\s+[A-Z][a-zé]+){1,3}\b
    rseq [.wordB, ratleast dUpper 2, rbetween (rseq [wsP, dUpper, rplus lowE]) 1 3, .wordB],
    -- \b[A-Z][a-zé]+\s+[A-Z]{2,}\b
    rseq [.wordB, dUpper, rplus lowE, wsP, ratleast dUpper 2, .wordB],
    -- \b(?:EL|VAN|DE)\s+(?!ERSTE|EERSTE|AANLEG|VLAANDEREN|NEDERLAND|FRANCE|GERMANY)[A-Z]{2,}\b
    rseq [.wordB, raltL [rstr "EL", rstr "VAN", rstr "DE"], wsP,
          .nla (raltL [rstr "ERSTE", rstr "EERSTE", rstr "AANLEG", rstr "VLAANDEREN",
                rstr "NEDERLAND", rstr "FRANCE", rstr "GERMANY"]),
          ratleast dUpper 2, .wordB],
    -- \b(?:Mr|Mrs|Ms|Miss|Dr|Prof)\.?\s+[A-Z][a-z]+(?:\s+[A-Z][a-z]+){0,2}\b
    rseq [.wordB, raltL [rstr "Mr", rstr "Mrs", rstr "Ms", rstr "Miss", rstr "Dr", rstr "Prof"],
          ropt (rchr '.'), wsP, dUpper, rplus dLower,
          ruptoN (rseq [wsP, dUpper, rplus dLower]) 2, .wordB] ]

def nameExclusions : List Str :=
  [sl "VAN EERSTE", sl "DE EERSTE", sl "VAN AANLEG", sl "DE AANLEG",
   sl "VLAANDEREN", sl "NEDERLAND", sl "BELGIE", sl "BELGIUM",
   sl "PRO JUSTITIA", sl "EUR", sl "SEPA", sl "BTW", sl "BIC",
   sl "DE GROTE MARKT", sl "DE KLEINE MARKT", sl "DE OUDE MARKT",
   sl "DE GROTE PLAATS", sl "HET GROTE PLEIN", sl "DE MARKT",
   sl "VAN DE MARKT", sl "VAN HET PLEIN"]

def placeSuffixExclusions : List Str :=
  [sl "markt", sl "plein", sl "straat", sl "laan", sl "weg", sl "dreef", sl "lei",
   sl "kaai", sl "dijk", sl "gracht", sl "park", sl "bos", sl "hof", sl "tuin",
   sl "kerk", sl "station", sl "haven", sl "poort", sl "brug", sl "centrum"]

/-- `detect_names`. -/
def detectNames (text : Str) : List Match :=
  (namePats.foldl
    (fun acc p =>
      (fspans p text).foldl
        (fun acc2 sp =>
          if acc2.2.contains sp then acc2
          else
            let name := slice text sp.1 sp.2
            let nameUpper := pyUpper name
            if nameExclusions.contains nameUpper then acc2
            else if [sl "VLAANDEREN", sl "NEDERLAND", sl "BELGIE", sl "AFDELING"].any
                (fun loc => subIn loc nameUpper) then acc2
            else
              let nameLower := pyLower name
              let lastWord := (pySplitWs nameLower).getLastD []
              if placeSuffixExclusions.contains lastWord then acc2
              else if name.contains '\n' then acc2
              else if name.length < 5 then acc2
              else (acc2.1 ++ [mkM name sp.1 sp.2 "PERSON" 80
                      (ctxAround text sp.1 sp.2 30 20)],
                    acc2.2 ++ [sp]))
        acc)
    (([], []) : List Match × List (Nat × Nat))).1

/-- `[A-Za-zé'\-]` (with apostrophe) -/
def nameCharW : RE := .cls [('A', 'Z'), ('a', 'z'), ('é', 'é'), ('\'', '\''), ('-', '-')]

/-- `[a-zé'\-]` -/
def nameCharL : RE := .cls [('a', 'z'), ('é', 'é'), ('\'', '\''), ('-', '-')]

/-- `[-–]` (hyphen or en dash) -/
def dashCls : RE := .cls [('-', '-'), ('–', '–')]

/-- Pattern 1 of `detect_names_by_context`: a name before a birth date. -/
def nameBeforeDateRE : RE :=
  rseq [.grp (rseq [dUpper, rplus nameCharW,
              .star (rseq [wsP, ropt dUpper, rplus nameCharL]),
              .star (rseq [wsP, dUpper, rplus nameCharW])]),
        .star dSpace, dashCls, .star dSpace,
        dRange 1 2, dateSep, dRange 1 2, dateSep, dRange 2 4]

/-- Pattern 2: an ALLCAPS name followed by a date / nationality marker. -/
def allcapsNameRE : RE :=
  rseq [.wordB,
        .grp (rseq [ratleast dUpper 3, .star (rseq [wsP, dUpper, rplus dLower])]),
        .star dSpace,
        raltL [rseq [dashCls, .star dSpace, dRange 1 2, dateSep],
               rstr "Nationaliteit", rstr "PERSON_", rstr "geboren"]]

/-- Pattern 3: a mixed-case name before an existing `PERSON_` placeholder. -/
def partialNameRE : RE :=
  rseq [.grp (rseq [dUpper, rplus dLower, rplus (rseq [wsP, dUpper, rplus dLower])]),
        wsP, rstr "PERSON_", dRange 3 4]

/-- `detect_names_by_context`. -/
def detectNamesByContext (text : Str) : List Match :=
  let step1 :=
    (finditer nameBeforeDateRE text).foldl
      (fun acc2 t =>
        match t.2.2 with
        | none => acc2
        | some cap =>
          let name := pyStrip (slice text cap.1 cap.2)
          let pos := (t.1, t.1 + name.length)
          if name.length < 3 || name.contains '_' then acc2
          else if [sl "geboren", sl "geboortedatum", sl "datum", sl "nationaliteit",
              sl "wettelijke", sl "werkelijke"].contains (pyLower name) then acc2
          else if acc2.2.contains pos then acc2
          else (acc2.1 ++ [mkM name pos.1 pos.2 "PERSON" 88
                  (slice text (pos.1 - 10) (pos.2 + 30))],
                acc2.2 ++ [pos]))
      (([], []) : List Match × List (Nat × Nat))
  let step2 :=
    (finditer allcapsNameRE text).foldl
      (fun acc2 t =>
        match t.2.2 with
        | none => acc2
        | some cap =>
          let name := pyStrip (slice text cap.1 cap.2)
          let pos := (t.1, t.1 + name.length)
          if name.contains '_' ||
              [sl "PERSON", sl "PLACE", sl "STREET", sl "PHONE", sl "EMAIL", sl "VEHICLE",
               sl "ROAD", sl "PAGE"].contains name then acc2
          else if acc2.2.any (fun r => !(pos.2 ≤ r.1 || pos.1 ≥ r.2)) then acc2
          else if acc2.2.contains pos then acc2
          else (acc2.1 ++ [mkM name pos.1 pos.2 "PERSON" 85
                  (slice text (pos.1 - 10) (pos.2 + 30))],
                acc2.2 ++ [pos]))
      step1
  ((finditer partialNameRE text).foldl
    (fun acc2 t =>
      match t.2.2 with
      | none => acc2
      | some cap =>
        let name := pyStrip (slice text cap.1 cap.2)
        let pos := (t.1, t.1 + name.length)
        if name.length < 4 then acc2
        else if acc2.2.contains pos then acc2
        else (acc2.1 ++ [mkM name pos.1 pos.2 "PERSON" 82
                (slice text (pos.1 - 10) (pos.2 + 30))],
              acc2.2 ++ [pos]))
    step2).1

/-- The greedy sweep inside `_remove_overlaps`. -/
def remOvGo : List Match → List (Nat × Nat) → List Match
  | [], _ => []
  | m :: rest, used =>
      if used.any (fun r => !(m.stop ≤ r.1 || m.start ≥ r.2)) then remOvGo rest used
      else m :: remOvGo rest ((m.start, m.stop) :: used)

/-- `_remove_overlaps`: sort by `(confidence desc, length desc)`, then keep
greedily whatever does not overlap an already-kept span. -/
def removeOverlaps (ms : List Match) : List Match :=
  remOvGo (pySort confLenLe ms) []

/-- `detect_all`: run every detector in source order, remove overlaps, sort
by start position. -/
def detectAll (text : Str) : List Match :=
  let allMatches :=
    detectEmails text ++ detectIbans text ++ detectPhones text ++ detectVehicles text ++
    detectRoads text ++ detectDatesOfBirth text ++ detectAddresses text ++
    detectAnyStreet text ++ detectContextPlaces text ++ detectPlaces text ++
    detectNationalIds text ++ detectNamesByContext text ++ detectNames text
  sortByStart (removeOverlaps allMatches)

/-! ## hybrid.py — `HybridDetector.detect`

The external NER capability only contributes through its output contract
(`detect(text, language) -> list of (text, start, end, label)` spans into
the input text), so its output is a parameter here. -/

structure NerEnt where
  text : Str
  start : Nat
  stop : Nat
  label : Str
deriving Repr, DecidableEq

def spacyLabelMap : Dict Str :=
  [(sl "PER", sl "PERSON"), (sl "PERSON", sl "PERSON"),
   (sl "LOC", sl "PLACE"), (sl "GPE", sl "PLACE"), (sl "FAC", sl "PLACE"),
   (sl "ORG", sl "ORG"),
   (sl "MISC", sl "MISC"), (sl "NORP", sl "MISC"), (sl "EVENT", sl "MISC"),
   (sl "PRODUCT", sl "MISC"), (sl "WORK_OF_ART", sl "MISC")]

/-- `HybridDetector.detect`: pattern detectors first (their spans are
reserved), then the NER entities with label mapping, category filtering,
overlap suppression and the short/email filters.  No conflict resolution is
applied. -/
def detectHybrid (ner : List NerEnt) (includeOrg : Bool) (text : Str) : List Match :=
  let patternMatches :=
    detectEmails text ++ detectPhones text ++ detectIbans text ++
    detectDatesOfBirth text ++ detectNationalIds text ++ detectVehicles text ++
    detectRoads text ++ detectAnyStreet text ++ detectContextPlaces text ++
    detectNamesByContext text
  let seen0 := patternMatches.map (fun m => (m.start, m.stop))
  let cats := if includeOrg then [sl "PERSON", sl "PLACE", sl "ORG"]
              else [sl "PERSON", sl "PLACE"]
  let final :=
    ner.foldl
      (fun acc ent =>
        match dictGet spacyLabelMap ent.label with
        | none => acc
        | some category =>
          if !(cats.contains category) then acc
          else
            let pos := (ent.start, ent.stop)
            if acc.2.any (fun r => !(pos.2 ≤ r.1 || pos.1 ≥ r.2)) then acc
            else if (pyStrip ent.text).length < 2 then acc
            else if ent.text.contains '@' || pyLower ent.text = sl "email" then acc
            else (acc.1 ++ [mkM ent.text ent.start ent.stop "" 90
                    (ctxAround text ent.start ent.stop 20 20)
                    |> fun m => { m with category := category }],
                  acc.2 ++ [pos]))
      ((patternMatches, seen0) : List Match × List (Nat × Nat))
  sortByStart final.1

/-! ## encoder.py / decoder.py -/

/-- `_is_masked`. -/
def isMasked (t : Str) : Bool :=
  subIn (sl "XX") t || subIn (sl "xx") t || subIn (sl "***") t || subIn (sl "XXX") t

def preprocessParticles : List String :=
  ["EL", "VAN", "DE", "DER", "DEN", "TEN", "TER", "LA", "LE"]

/-- One preprocess pattern: backslash-b, particle, newline, `[A-Z][A-Za-z]+`.
The replacement `\1 \2` turns the single newline of the match into a
space. -/
def preprocessRE (particle : String) : RE :=
  rseq [.wordB, rstr particle, rchr '\n', dUpper, rplus (.cls [('A', 'Z'), ('a', 'z')])]

/-- `_preprocess` (each match contains exactly one newline, so the
`\1 \2` replacement is the newline-to-space map on the matched slice). -/
def preprocess (text : Str) : Str :=
  preprocessParticles.foldl
    (fun t particle =>
      reSub (preprocessRE particle)
        (fun g => g.map (fun c => if c = '\n' then ' ' else c)) t)
    text

/-- An anonymization strategy as consumed by `encode`: `replace` goes
through the mapping; any other strategy is an abstract transform
`raw → category → anonymized` (the raw value is still registered). -/
inductive StratKind where
  | replace : StratKind
  | other : (Str → Str → Str) → StratKind

/-- `encode` (the orchestration after backend selection): preprocess,
detect, optionally drop already-masked values, sort by start descending,
then splice each replacement into the partially rewritten text. -/
def encodeCore (det : Str → List Match) (strat : StratKind) (m0 : MState)
    (skipAlreadyMasked : Bool) (text0 : Str) : Str × MState :=
  let text := preprocess text0
  let ms := det text
  let msF := if skipAlreadyMasked then ms.filter (fun m => !isMasked m.text) else ms
  let sorted := sortByStartDesc msF
  sorted.foldl
    (fun acc m =>
      match strat with
      | .replace =>
          let r := getOrCreate acc.2 m.text m.category
          (acc.1.take m.start ++ r.1 ++ acc.1.drop m.stop, r.2)
      | .other f =>
          let anonymized := f m.text m.category
          let r := getOrCreate acc.2 m.text m.category
          (acc.1.take m.start ++ anonymized ++ acc.1.drop m.stop, r.2))
    ((text, m0) : Str × MState)

/-- `encode(text, backend="patterns", strategy="replace")` with a fresh
mapping (also the body of the hybrid path when spaCy is unavailable). -/
def encodePatterns (created : Str) (text : Str) : Str × MState :=
  encodeCore detectAll .replace (mappingInit created) true text

/-- `encode(text, backend="hybrid", strategy="replace")` with a fresh
mapping, the NER output being the parameter `ner`. -/
def encodeHybrid (ner : List NerEnt) (created : Str) (text : Str) : Str × MState :=
  encodeCore (detectHybrid ner false) .replace (mappingInit created) true text

/-- The `replace`-strategy application loop of `encode`, factored out: splice
each match's placeholder into the partially rewritten text. -/
def applyRepl (t0 : Str) (s0 : MState) (ms : List Match) : Str × MState :=
  ms.foldl
    (fun acc m =>
      let r := getOrCreate acc.2 m.text m.category
      (acc.1.take m.start ++ r.1 ++ acc.1.drop m.stop, r.2))
    ((t0, s0) : Str × MState)

/-- The placeholders the application loop would create, paired with their
matches, in processing order, together with the final mapping state. -/
def repsDesc : MState → List Match → List (Match × Str) × MState
  | s, [] => ([], s)
  | s, m :: rest =>
      let r := getOrCreate s m.text m.category
      let rr := repsDesc r.2 rest
      ((m, r.1) :: rr.1, rr.2)

/-- Simultaneous splicing: replace each (ascending, non-overlapping) match's
span of `t` by its replacement string. -/
def sewGo (t : Str) : Nat → List (Match × Str) → Str
  | pos, [] => t.drop pos
  | pos, (m, r) :: rest => slice t pos m.start ++ r ++ sewGo t m.stop rest

/-- The spans the spliced replacements occupy in the output of `sewGo`:
`out` is the number of output characters already emitted. -/
def sewSpansGo (t : Str) : Nat → Nat → List (Match × Str) → List (Nat × Nat)
  | _, _, [] => []
  | pos, out, (m, r) :: rest =>
      let a := out + (m.start - pos)
      (a, a + r.length) :: sewSpansGo t m.stop (a + r.length) rest

/-- The raw concatenation of the thirteen detectors of `detect_all`, before
`_remove_overlaps` and the final sort. -/
def detectAllRaw (text : Str) : List Match :=
  detectEmails text ++ detectIbans text ++ detectPhones text ++ detectVehicles text ++
  detectRoads text ++ detectDatesOfBirth text ++ detectAddresses text ++
  detectAnyStreet text ++ detectContextPlaces text ++ detectPlaces text ++
  detectNationalIds text ++ detectNamesByContext text ++ detectNames text

/-- Spec-modelled: the encode pipeline in the order the spec's sentence lists
the steps — preprocess, detect (the raw detector outputs), drop
already-masked matches, then run the Conflict Resolver, then apply the
strategy in descending start order. This definition follows the spec's
words, not the code, and is compared against `encodePatterns`. -/
def encodeSpecOrder (created : Str) (text0 : Str) : Str × MState :=
  let text := preprocess text0
  let ms := detectAllRaw text
  let msF := ms.filter (fun m => !isMasked m.text)
  let resolved := sortByStart (removeOverlaps msF)
  applyRepl text (mappingInit created) (sortByStartDesc resolved)

/-- The category alternation of `PLACEHOLDER_PATTERN`. -/
def placeholderCats : List String :=
  ["PERSON", "PHONE", "EMAIL", "ADDRESS", "IBAN", "DOB", "ID", "ORG", "PLACE",
   "LOCATION", "STREET", "ROAD", "VEHICLE"]

/-- `PLACEHOLDER_PATTERN`: backslash-b, category alternation, `_`,
`\d{3,4}`, backslash-b. -/
def placeholderRE : RE :=
  rseq [.wordB, raltL (placeholderCats.map rstr), rchr '_', dRange 3 4, .wordB]

/-- The replacement callback of `decode`: `original if original else
placeholder` (Python truthiness: `None` and the empty string both fall
back to the placeholder). -/
def decodeSub (m : MState) (g : Str) : Str :=
  match getOriginal m g with
  | some orig => if orig.isEmpty then g else orig
  | none => g

/-- `decode`. -/
def decode (text : Str) (m : MState) : Str :=
  reSub placeholderRE (decodeSub m) text

/-! ## Analysis helpers used by the theorems -/

/-! ### Digit-shape analyses for the national-ID patterns -/

def digitRange : Char × Char → Bool := fun r => '0' ≤ r.1 && r.2 ≤ '9'

def noDigitRange : Char × Char → Bool := fun r => r.2 < '0' || '9' < r.1

/-- Every character this class matches is a digit. -/
def ccOnlyDigit (cc : CClass) : Bool := cc.all digitRange

/-- No character this class matches is a digit. -/
def ccNoDigit (cc : CClass) : Bool := cc.all noDigitRange

def optAdd : Option Nat → Option Nat → Option Nat
  | some a, some b => some (a + b)
  | _, _ => none

/-- The exact number of digit characters in any match of `re` (`none` when
it is not constant). -/
def digitCountRE : RE → Option Nat
  | .eps => some 0
  | .wordB => some 0
  | .nla _ => some 0
  | .cls cc =>
      if ccOnlyDigit cc then some 1 else if ccNoDigit cc then some 0 else none
  | .cat a b => optAdd (digitCountRE a) (digitCountRE b)
  | .alt a b =>
      match digitCountRE a, digitCountRE b with
      | some x, some y => if x = y then some x else none
      | _, _ => none
  | .star a => if digitCountRE a = some 0 then some 0 else none
  | .grp a => digitCountRE a

/-- Whether some match of `re` could consist solely of digit characters. -/
def canAllDigits : RE → Bool
  | .eps => true
  | .wordB => true
  | .nla _ => true
  | .cls cc => !(ccNoDigit cc)
  | .cat a b => canAllDigits a && canAllDigits b
  | .alt a b => canAllDigits a || canAllDigits b
  | .star _ => true
  | .grp a => canAllDigits a

def countDigits (t : Str) : Nat := (t.filter (fun c => isDigitC c)).length

/-- Two spans overlap under the half-open test. -/
def spanOverlap (a b : Nat × Nat) : Prop := a.1 < b.2 ∧ b.1 < a.2

/-- The facts recorded about a match kept by `detect_national_ids`: its text
is the span's slice and the `NL_BSN` / `US_SSN` guards did not fire. -/
def natIdKept (text : Str) (pr : RE × String) (sp : Nat × Nat) (m : Match) : Prop :=
  m.text = slice text sp.1 sp.2 ∧ m.start = sp.1 ∧
  ((decide (pr.2 = "NL_BSN") && !validateBsn (slice text sp.1 sp.2) &&
    !(idContext.any (fun c => subIn c (slice (pyLower text) (sp.1 - 50) sp.1)))) = false) ∧
  ((decide (pr.2 = "US_SSN") &&
    !([sl "ssn", sl "social security"].any
        (fun c => subIn c (slice (pyLower text) (sp.1 - 50) sp.1)))) = false)

/-! ### Character-shape analyses for capture groups (for the detector
invariants) -/

/-- `re` records no capture group. -/
def grpFree : RE → Bool
  | .eps => true
  | .cls _ => true
  | .cat a b => grpFree a && grpFree b
  | .alt a b => grpFree a && grpFree b
  | .star a => grpFree a
  | .wordB => true
  | .nla _ => true
  | .grp _ => false

/-- No character of the class is Python whitespace. -/
def ccNoWs (cc : CClass) : Bool :=
  cc.all (fun r => !([' ', '\t', '\n', '\x0b', '\x0c', '\x0d'].any
    (fun c => r.1 ≤ c && c ≤ r.2)))

/-- Every match of `re` consumes at least one character. -/
def neverEmpty : RE → Bool
  | .eps => false
  | .cls _ => true
  | .cat a b => neverEmpty a || neverEmpty b
  | .alt a b => neverEmpty a && neverEmpty b
  | .star _ => false
  | .wordB => false
  | .nla _ => false
  | .grp a => neverEmpty a

/-- Every match of `re` consumes at least one character and starts with a
non-whitespace character. -/
def firstNoWs : RE → Bool
  | .eps => false
  | .cls cc => ccNoWs cc
  | .cat a _ => firstNoWs a
  | .alt a b => firstNoWs a && firstNoWs b
  | .star _ => false
  | .wordB => false
  | .nla _ => false
  | .grp a => firstNoWs a

/-- Every match of `re` is empty or ends with a non-whitespace character. -/
def lastNoWsE : RE → Bool
  | .eps => true
  | .cls cc => ccNoWs cc
  | .cat a b => lastNoWsE b && (neverEmpty b || lastNoWsE a)
  | .alt a b => lastNoWsE a && lastNoWsE b
  | .star a => lastNoWsE a
  | .wordB => true
  | .nla _ => true
  | .grp a => lastNoWsE a

/-- The per-match invariant of the combined detector: a proper in-bounds span
whose recorded text is the corresponding slice of the input. -/
def SpanOk (text : Str) (m : Match) : Prop :=
  m.start < m.stop ∧ m.stop ≤ text.length ∧ m.text = slice text m.start m.stop

/-! ### Mapper call histories (for the consistent-identity and persistence
claims).  A reachable `Mapping` is abstracted as its list of created groups
in creation order. -/

/-- One `get_or_create_placeholder` call per list element `(value, category)`,
starting from a fresh `Mapping`; the pair is (returned placeholders, state). -/
def callsStep (acc : List Str × MState) (vc : Str × Str) : List Str × MState :=
  let r := getOrCreate acc.2 vc.1 vc.2
  (acc.1 ++ [r.1], r.2)

def runCallsP (created : Str) (calls : List (Str × Str)) : List Str × MState :=
  calls.foldl callsStep ([], mappingInit created)

/-- The mapping state after the calls. -/
def runCalls (created : Str) (calls : List (Str × Str)) : MState :=
  (runCallsP created calls).2

/-- The placeholder returned by each call, in call order. -/
def callResults (created : Str) (calls : List (Str × Str)) : List Str :=
  (runCallsP created calls).1

/-- One created group of a mapping: the category and counter number chosen
at creation, the first-seen raw form, the accumulated raw forms and the
occurrence count. -/
structure Grp where
  cat : Str
  num : Nat
  canonical : Str
  vars : List Str
  occ : Nat
deriving Repr, DecidableEq

def grpPh (g : Grp) : Str := g.cat ++ '_' :: pad3 g.num

def grpKey (g : Grp) : Str := normalize g.canonical g.cat

def grpEntry (g : Grp) : MEntry :=
  { placeholder := grpPh g, canonical := g.canonical,
    variations := g.vars, occurrences := g.occ }

/-- The per-category counter dictionary the groups give rise to, starting
from `d`. -/
def buildCountersD (grs : List Grp) (d : Dict Nat) : Dict Nat :=
  grs.foldl (fun d g => dictSet d g.cat g.num) d

def buildCounters (grs : List Grp) : Dict Nat := buildCountersD grs []

/-- Each group's number is one more than its category's counter at its
creation (`d` is the counter dictionary before the first listed group). -/
def incrOk : List Grp → Dict Nat → Prop
  | [], _ => True
  | g :: rest, d => g.num = dictGetD d g.cat 0 + 1 ∧ incrOk rest (dictSet d g.cat g.num)

/-- The state `m` is represented by the group list `grs` (creation order). -/
def GrpsOk (m : MState) (grs : List Grp) : Prop :=
  m.entries = grs.map (fun g => (grpPh g, grpEntry g)) ∧
  m.valueToPlaceholder = grs.map (fun g => (grpKey g, grpPh g)) ∧
  m.counters = buildCounters grs ∧
  (grs.map grpKey).Nodup ∧
  (grs.map grpPh).Nodup ∧
  (∀ g ∈ grs, g.vars.Nodup ∧ 1 ≤ g.num) ∧
  incrOk grs []

/-- The groups record the call history: occurrence counts, first-seen raw
forms (canonical and category) and accumulated variations. -/
def HistOk (calls : List (Str × Str)) (grs : List Grp) : Prop :=
  (∀ g ∈ grs,
    g.occ = calls.countP (fun vc => normalize vc.1 vc.2 = grpKey g) ∧
    calls.find? (fun vc => normalize vc.1 vc.2 = grpKey g) = some (g.canonical, g.cat) ∧
    ∀ vc ∈ calls, normalize vc.1 vc.2 = grpKey g → vc.1 ∈ g.vars) ∧
  (∀ vc ∈ calls, ∃ g ∈ grs, grpKey g = normalize vc.1 vc.2)

/-- The returned placeholder of each call is its group's placeholder. -/
def ResOk (calls : List (Str × Str)) (res : List Str) (grs : List Grp) : Prop :=
  res.length = calls.length ∧
  ∀ pr ∈ calls.zip res, ∃ g ∈ grs, grpKey g = normalize pr.1.1 pr.1.2 ∧ pr.2 = grpPh g

/-- All invariants of a call history together. -/
def FullInv (pre : List (Str × Str)) (acc : List Str × MState) : Prop :=
  ∃ grs, GrpsOk acc.2 grs ∧ HistOk pre grs ∧ ResOk pre acc.1 grs

/-- The entry update done on a repeated key. -/
def bumpEntry (e : MEntry) (v : Str) : MEntry :=
  { e with variations := setAdd e.variations v, occurrences := e.occurrences + 1 }

/-- The placeholder created for a fresh key of category `c`. -/
def freshPhOf (m : MState) (c : Str) : Str :=
  c ++ '_' :: pad3 (dictGetD m.counters c 0 + 1)

/-- The entry created for a fresh key. -/
def freshEntryOf (m : MState) (v c : Str) : MEntry :=
  { placeholder := freshPhOf m c, canonical := v, variations := [v], occurrences := 1 }

/-! ## Lemmas: regex engine soundness -/

theorem starEnds_bounds {body : Nat → List MRes} {n : Nat}
    (hbody : ∀ j, j ≤ n → ∀ p ∈ body j, j ≤ p.1 ∧ p.1 ≤ n) :
    ∀ fuel i, i ≤ n → ∀ p ∈ starEnds body fuel i, i ≤ p.1 ∧ p.1 ≤ n := by
  intro fuel
  induction fuel with
  | zero =>
      intro i hi p hp
      simp only [starEnds, List.mem_singleton] at hp
      subst hp
      exact ⟨Nat.le_refl _, hi⟩
  | succ fuel ih =>
      intro i hi p hp
      simp only [starEnds, List.mem_append, List.mem_flatMap] at hp
      rcases hp with ⟨q, hq, hp⟩ | hp
      · split at hp
        · rename_i hlt
          rcases List.mem_map.1 hp with ⟨r, hr, rfl⟩
          have hqb := hbody i hi q hq
          have := ih q.1 (by omega) r hr
          exact ⟨by omega, this.2⟩
        · simp at hp
      · simp only [List.mem_singleton] at hp
        subst hp
        exact ⟨Nat.le_refl _, hi⟩

theorem matchEnds_bounds (s : Str) (fuel : Nat) (re : RE) :
    ∀ i, i ≤ s.length → ∀ p ∈ matchEnds s fuel re i, i ≤ p.1 ∧ p.1 ≤ s.length := by
  induction re with
  | eps =>
      intro i hi p hp
      simp only [matchEnds, List.mem_singleton] at hp
      subst hp
      exact ⟨Nat.le_refl _, hi⟩
  | cls cc =>
      intro i hi p hp
      simp only [matchEnds] at hp
      cases hg : s.get? i with
      | none => rw [hg] at hp; simp at hp
      | some d =>
          rw [hg] at hp
          have hp2 : p ∈ (if ccMatch cc d = true then [(i + 1, (none : Option (Nat × Nat)))] else []) := hp
          by_cases hm : ccMatch cc d = true
          · rw [if_pos hm] at hp2
            simp only [List.mem_singleton] at hp2
            subst hp2
            have hlen : i < s.length := by
              rcases List.get?_eq_some.1 hg with ⟨h, _⟩
              exact h
            exact ⟨Nat.le_succ _, by omega⟩
          · rw [if_neg hm] at hp2
            simp at hp2
  | cat a b iha ihb =>
      intro i hi p hp
      simp only [matchEnds, List.mem_flatMap] at hp
      rcases hp with ⟨q, hq, hp⟩
      rcases List.mem_map.1 hp with ⟨r, hr, rfl⟩
      have h1 := iha i hi q hq
      have h2 := ihb q.1 h1.2 r hr
      exact ⟨by omega, h2.2⟩
  | alt a b iha ihb =>
      intro i hi p hp
      simp only [matchEnds, List.mem_append] at hp
      rcases hp with hp | hp
      · exact iha i hi p hp
      · exact ihb i hi p hp
  | star a iha =>
      intro i hi p hp
      exact starEnds_bounds (fun j hj q hq => iha j hj q hq) fuel i hi p hp
  | wordB =>
      intro i hi p hp
      simp only [matchEnds] at hp
      split at hp
      · simp only [List.mem_singleton] at hp
        subst hp
        exact ⟨Nat.le_refl _, hi⟩
      · simp at hp
  | nla a iha =>
      intro i hi p hp
      simp only [matchEnds] at hp
      split at hp
      · simp only [List.mem_singleton] at hp
        subst hp
        exact ⟨Nat.le_refl _, hi⟩
      · simp at hp
  | grp a iha =>
      intro i hi p hp
      simp only [matchEnds] at hp
      rcases List.mem_map.1 hp with ⟨r, hr, rfl⟩
      exact iha i hi r hr

theorem ccOnlyDigit_sound {cc : CClass} {d : Char} (h : ccOnlyDigit cc = true)
    (hm : ccMatch cc d = true) : isDigitC d = true := by
  rcases List.any_eq_true.1 hm with ⟨r, hr, hd⟩
  have hrange := List.all_eq_true.1 h r hr
  simp only [digitRange, Bool.and_eq_true, decide_eq_true_eq] at hrange
  simp only [Bool.and_eq_true, decide_eq_true_eq] at hd
  simp only [isDigitC, Bool.and_eq_true, decide_eq_true_eq]
  exact ⟨le_trans hrange.1 hd.1, le_trans hd.2 hrange.2⟩

theorem ccNoDigit_sound {cc : CClass} {d : Char} (h : ccNoDigit cc = true)
    (hm : ccMatch cc d = true) : isDigitC d = false := by
  rcases List.any_eq_true.1 hm with ⟨r, hr, hd⟩
  have hrange := List.all_eq_true.1 h r hr
  simp only [noDigitRange, Bool.or_eq_true, decide_eq_true_eq] at hrange
  simp only [Bool.and_eq_true, decide_eq_true_eq] at hd
  by_contra hc
  rw [Bool.not_eq_false] at hc
  simp only [isDigitC, Bool.and_eq_true, decide_eq_true_eq] at hc
  have h1 : r.1.toNat ≤ d.toNat := hd.1
  have h2 : d.toNat ≤ r.2.toNat := hd.2
  have h3 : ('0' : Char).toNat ≤ d.toNat := hc.1
  have h4 : d.toNat ≤ ('9' : Char).toNat := hc.2
  have h0 : ('0' : Char).toNat = 48 := rfl
  have h9 : ('9' : Char).toNat = 57 := rfl
  rcases hrange with h5 | h5
  · have h6 : r.2.toNat < ('0' : Char).toNat := h5
    omega
  · have h6 : ('9' : Char).toNat < r.1.toNat := h5
    omega

theorem slice_split (s : Str) (i k j : Nat) (h1 : i ≤ k) (h2 : k ≤ j) :
    slice s i j = slice s i k ++ slice s k j := by
  unfold slice
  rw [List.drop_take, List.drop_take, List.drop_take]
  rw [show j - i = (k - i) + (j - k) by omega]
  rw [List.take_add, List.drop_drop]
  rw [show i + (k - i) = k by omega]

theorem slice_refl (s : Str) (i : Nat) : slice s i i = [] := by
  simp [slice, List.drop_take]

theorem slice_single {s : Str} {i : Nat} {d : Char} (hg : s.get? i = some d) :
    slice s i (i + 1) = [d] := by
  unfold slice
  rw [List.drop_take, show i + 1 - i = 1 by omega]
  rcases List.get?_eq_some.1 hg with ⟨hlt, hget⟩
  rw [List.drop_eq_getElem_cons hlt]
  simp only [List.take_succ_cons, List.take_zero]
  rw [← hget]
  simp [List.get_eq_getElem]

theorem countDigits_append (x y : Str) :
    countDigits (x ++ y) = countDigits x + countDigits y := by
  simp [countDigits, List.filter_append]

theorem starEnds_digit0 {s : Str} {body : Nat → List MRes}
    (hbody : ∀ j, j ≤ s.length → ∀ p ∈ body j,
      j ≤ p.1 ∧ p.1 ≤ s.length ∧ countDigits (slice s j p.1) = 0) :
    ∀ fuel i, i ≤ s.length → ∀ p ∈ starEnds body fuel i,
      countDigits (slice s i p.1) = 0 := by
  intro fuel
  induction fuel with
  | zero =>
      intro i hi p hp
      simp only [starEnds, List.mem_singleton] at hp
      subst hp
      simp [slice_refl, countDigits]
  | succ fuel ih =>
      intro i hi p hp
      simp only [starEnds, List.mem_append, List.mem_flatMap] at hp
      rcases hp with ⟨q, hq, hp⟩ | hp
      · split at hp
        · rename_i hlt
          rcases List.mem_map.1 hp with ⟨r, hr, rfl⟩
          have hqb := hbody i hi q hq
          have hrb := starEnds_bounds (fun j hj p hp => ⟨(hbody j hj p hp).1, (hbody j hj p hp).2.1⟩)
            fuel q.1 hqb.2.1 r hr
          have := ih q.1 hqb.2.1 r hr
          rw [slice_split s i q.1 r.1 hqb.1 hrb.1, countDigits_append, hqb.2.2, this]
        · simp at hp
      · simp only [List.mem_singleton] at hp
        subst hp
        simp [slice_refl, countDigits]

theorem matchEnds_digitCount (s : Str) (fuel : Nat) :
    ∀ re n, digitCountRE re = some n → ∀ i, i ≤ s.length →
      ∀ p ∈ matchEnds s fuel re i, countDigits (slice s i p.1) = n := by
  intro re
  induction re with
  | eps =>
      intro n hn i hi p hp
      simp only [digitCountRE, Option.some_inj] at hn
      simp only [matchEnds, List.mem_singleton] at hp
      subst hp
      simp [slice_refl, countDigits, ← hn]
  | cls cc =>
      intro n hn i hi p hp
      simp only [matchEnds] at hp
      cases hg : s.get? i with
      | none => rw [hg] at hp; simp at hp
      | some d =>
          rw [hg] at hp
          have hp2 : p ∈ (if ccMatch cc d = true then [(i + 1, (none : Option (Nat × Nat)))] else []) := hp
          by_cases hm : ccMatch cc d = true
          · rw [if_pos hm] at hp2
            simp only [List.mem_singleton] at hp2
            subst hp2
            simp only [digitCountRE] at hn
            rw [slice_single hg]
            by_cases h1 : ccOnlyDigit cc = true
            · rw [if_pos h1] at hn
              simp only [Option.some_inj] at hn
              simp [countDigits, ccOnlyDigit_sound h1 hm, ← hn]
            · rw [if_neg h1] at hn
              by_cases h2 : ccNoDigit cc = true
              · rw [if_pos h2] at hn
                simp only [Option.some_inj] at hn
                simp [countDigits, ccNoDigit_sound h2 hm, ← hn]
              · rw [if_neg h2] at hn
                exact absurd hn (by simp)
          · rw [if_neg hm] at hp2
            simp at hp2
  | cat a b iha ihb =>
      intro n hn i hi p hp
      simp only [digitCountRE] at hn
      cases hna : digitCountRE a with
      | none => rw [hna] at hn; simp [optAdd] at hn
      | some na =>
          cases hnb : digitCountRE b with
          | none => rw [hna, hnb] at hn; simp [optAdd] at hn
          | some nb =>
              rw [hna, hnb] at hn
              simp only [optAdd, Option.some_inj] at hn
              simp only [matchEnds, List.mem_flatMap] at hp
              rcases hp with ⟨q, hq, hp⟩
              rcases List.mem_map.1 hp with ⟨r, hr, rfl⟩
              have hqb := matchEnds_bounds s fuel a i hi q hq
              have hrb := matchEnds_bounds s fuel b q.1 hqb.2 r hr
              rw [slice_split s i q.1 r.1 hqb.1 hrb.1, countDigits_append,
                iha na hna i hi q hq, ihb nb hnb q.1 hqb.2 r hr, hn]
  | alt a b iha ihb =>
      intro n hn i hi p hp
      simp only [digitCountRE] at hn
      cases hna : digitCountRE a with
      | none => rw [hna] at hn; simp at hn
      | some na =>
          cases hnb : digitCountRE b with
          | none => rw [hna, hnb] at hn; simp at hn
          | some nb =>
              rw [hna, hnb] at hn
              have hn2 : (if na = nb then some na else none) = some n := hn
              by_cases he : na = nb
              · rw [if_pos he] at hn2
                simp only [Option.some_inj] at hn2
                simp only [matchEnds, List.mem_append] at hp
                rcases hp with hp | hp
                · rw [← hn2]; exact iha na hna i hi p hp
                · rw [← hn2, he]; exact ihb nb hnb i hi p hp
              · rw [if_neg he] at hn2
                exact absurd hn2 (by simp)
  | star a iha =>
      intro n hn i hi p hp
      simp only [digitCountRE] at hn
      by_cases h0 : digitCountRE a = some 0
      · rw [if_pos h0] at hn
        simp only [Option.some_inj] at hn
        simp only [matchEnds] at hp
        rw [← hn]
        refine starEnds_digit0 (fun j hj q hq => ?_) fuel i hi p hp
        have hb := matchEnds_bounds s fuel a j hj q hq
        exact ⟨hb.1, hb.2, iha 0 h0 j hj q hq⟩
      · rw [if_neg h0] at hn
        exact absurd hn (by simp)
  | wordB =>
      intro n hn i hi p hp
      simp only [digitCountRE, Option.some_inj] at hn
      simp only [matchEnds] at hp
      split at hp
      · simp only [List.mem_singleton] at hp
        subst hp
        simp [slice_refl, countDigits, ← hn]
      · simp at hp
  | nla a iha =>
      intro n hn i hi p hp
      simp only [digitCountRE, Option.some_inj] at hn
      simp only [matchEnds] at hp
      split at hp
      · simp only [List.mem_singleton] at hp
        subst hp
        simp [slice_refl, countDigits, ← hn]
      · simp at hp
  | grp a iha =>
      intro n hn i hi p hp
      simp only [digitCountRE] at hn
      simp only [matchEnds] at hp
      rcases List.mem_map.1 hp with ⟨r, hr, rfl⟩
      exact iha n hn i hi r hr

theorem matchEnds_allDigits (s : Str) (fuel : Nat) :
    ∀ re i, i ≤ s.length → ∀ p ∈ matchEnds s fuel re i,
      (slice s i p.1).all (fun c => isDigitC c) = true → canAllDigits re = true := by
  intro re
  induction re with
  | eps => intro i hi p hp hall; rfl
  | cls cc =>
      intro i hi p hp hall
      simp only [matchEnds] at hp
      cases hg : s.get? i with
      | none => rw [hg] at hp; simp at hp
      | some d =>
          rw [hg] at hp
          have hp2 : p ∈ (if ccMatch cc d = true then [(i + 1, (none : Option (Nat × Nat)))] else []) := hp
          by_cases hm : ccMatch cc d = true
          · rw [if_pos hm] at hp2
            simp only [List.mem_singleton] at hp2
            subst hp2
            rw [slice_single hg] at hall
            simp only [List.all_cons, List.all_nil, Bool.and_true] at hall
            simp only [canAllDigits, Bool.not_eq_true']
            by_contra hc
            rw [Bool.not_eq_false] at hc
            exact absurd (ccNoDigit_sound hc hm) (by simp [hall])
          · rw [if_neg hm] at hp2
            simp at hp2
  | cat a b iha ihb =>
      intro i hi p hp hall
      simp only [matchEnds, List.mem_flatMap] at hp
      rcases hp with ⟨q, hq, hp⟩
      rcases List.mem_map.1 hp with ⟨r, hr, rfl⟩
      have hqb := matchEnds_bounds s fuel a i hi q hq
      have hrb := matchEnds_bounds s fuel b q.1 hqb.2 r hr
      rw [slice_split s i q.1 r.1 hqb.1 hrb.1, List.all_append, Bool.and_eq_true] at hall
      simp only [canAllDigits, Bool.and_eq_true]
      exact ⟨iha i hi q hq hall.1, ihb q.1 hqb.2 r hr hall.2⟩
  | alt a b iha ihb =>
      intro i hi p hp hall
      simp only [matchEnds, List.mem_append] at hp
      simp only [canAllDigits, Bool.or_eq_true]
      rcases hp with hp | hp
      · exact Or.inl (iha i hi p hp hall)
      · exact Or.inr (ihb i hi p hp hall)
  | star a iha => intro i hi p hp hall; rfl
  | wordB => intro i hi p hp hall; rfl
  | nla a iha => intro i hi p hp hall; rfl
  | grp a iha =>
      intro i hi p hp hall
      simp only [matchEnds] at hp
      rcases List.mem_map.1 hp with ⟨r, hr, rfl⟩
      exact iha i hi r hr hall

theorem finditerGo_sound (re : RE) (s : Str) :
    ∀ fuel i, ∀ t ∈ finditerGo re s fuel i,
      i ≤ t.1 ∧ t.1 < t.2.1 ∧ t.2.1 ≤ s.length ∧
      (t.2.1, t.2.2) ∈ matchEnds s (s.length + 1) re t.1 := by
  intro fuel
  induction fuel with
  | zero => intro i t ht; simp [finditerGo] at ht
  | succ fuel ih =>
      intro i t ht
      simp only [finditerGo] at ht
      split at ht
      · rename_i hil
        cases hf : reFirst re s i with
        | none =>
            rw [hf] at ht
            have ht2 : t ∈ (if i < s.length then finditerGo re s fuel (i + 1) else []) := ht
            split at ht2
            · have := ih (i + 1) t ht2
              exact ⟨by omega, this.2.1, this.2.2⟩
            · simp at ht2
        | some jc =>
            rw [hf] at ht
            have ht2 : t ∈ (if i < jc.1 ∧ jc.1 ≤ s.length then
                (i, jc.1, jc.2) :: finditerGo re s fuel jc.1
              else if i < s.length then finditerGo re s fuel (i + 1) else []) := ht
            split at ht2
            · rename_i hj
              rcases List.mem_cons.1 ht2 with h | h
              · subst h
                refine ⟨Nat.le_refl _, hj.1, hj.2, ?_⟩
                unfold reFirst at hf
                cases hme : matchEnds s (s.length + 1) re i with
                | nil => rw [hme] at hf; simp at hf
                | cons x xs =>
                    rw [hme] at hf
                    simp only [List.head?_cons, Option.some_inj] at hf
                    subst hf
                    exact List.mem_cons_self _ _
              · have := ih jc.1 t h
                exact ⟨by omega, this.2.1, this.2.2⟩
            · split at ht2
              · have := ih (i + 1) t ht2
                exact ⟨by omega, this.2.1, this.2.2⟩
              · simp at ht2
      · simp at ht

theorem fspans_sound (re : RE) (s : Str) :
    ∀ sp ∈ fspans re s, sp.1 < sp.2 ∧ sp.2 ≤ s.length ∧
      ∃ cap, (sp.2, cap) ∈ matchEnds s (s.length + 1) re sp.1 := by
  intro sp hsp
  rcases List.mem_map.1 hsp with ⟨t, ht, rfl⟩
  have := finditerGo_sound re s (s.length + 1) 0 t ht
  exact ⟨this.2.1, this.2.2.1, t.2.2, this.2.2.2⟩

/-- Generic extraction through an accumulating `foldl`: if each step either
keeps a match or contributes one satisfying `S`, so does the fold. -/
theorem foldl_mem_extract {β γ : Type} (f : γ → β → γ) (proj : γ → List Match)
    (S : β → Match → Prop)
    (hf : ∀ acc x m, m ∈ proj (f acc x) → m ∈ proj acc ∨ S x m) :
    ∀ (l : List β) (acc : γ) m, m ∈ proj (l.foldl f acc) → m ∈ proj acc ∨ ∃ x ∈ l, S x m := by
  intro l
  induction l with
  | nil => intro acc m hm; exact Or.inl hm
  | cons x rest ih =>
      intro acc m hm
      rcases ih (f acc x) m hm with h | ⟨y, hy, hS⟩
      · rcases hf acc x m h with h' | h'
        · exact Or.inl h'
        · exact Or.inr ⟨x, List.mem_cons_self _ _, h'⟩
      · exact Or.inr ⟨y, List.mem_cons_of_mem _ hy, hS⟩

/-! ## Lemmas: BSN validation and the national-ID detector -/

theorem foldl_zip_sum (l : List Char) :
    ∀ (ws : List Int) (acc : Int),
      (l.zip ws).foldl (fun acc p => acc + ((p.1.toNat : Int) - 48) * p.2) acc
        = acc + (List.zipWith (fun c w => ((c.toNat : Int) - 48) * w) l ws).sum := by
  induction l with
  | nil => intro ws acc; simp
  | cons c rest ih =>
      intro ws acc
      cases ws with
      | nil => simp
      | cons w ws' =>
          simp only [List.zip_cons_cons, List.foldl_cons, List.zipWith_cons_cons,
            List.sum_cons]
          rw [ih ws']
          ring

theorem validateBsn_spec (s : Str) :
    validateBsn s = true ↔
      ((s.filter (fun c => isDigitC c)).length = 9 ∧
       (11 : Int) ∣ (List.zipWith (fun c w => ((c.toNat : Int) - 48) * w)
          (s.filter (fun c => isDigitC c)) ([9, 8, 7, 6, 5, 4, 3, 2, -1] : List Int)).sum) := by
  have hmain : validateBsn s =
      (if (s.filter (fun c => isDigitC c)).length ≠ 9 then false
       else decide ((List.foldl (fun acc p => acc + ((p.1.toNat : Int) - 48) * p.2) 0
          ((s.filter (fun c => isDigitC c)).zip ([9, 8, 7, 6, 5, 4, 3, 2, -1] : List Int)))
            % 11 = 0)) := rfl
  rw [hmain]
  by_cases hlen : (s.filter (fun c => isDigitC c)).length ≠ 9
  · rw [if_pos hlen]
    constructor
    · intro h
      exact absurd h (by decide)
    · intro hc
      exact absurd hc.1 hlen
  · rw [if_neg hlen]
    push_neg at hlen
    rw [decide_eq_true_eq, foldl_zip_sum, zero_add]
    constructor
    · intro h
      exact ⟨hlen, Int.dvd_of_emod_eq_zero h⟩
    · intro h
      exact Int.emod_eq_zero_of_dvd h.2

/-- Extraction through `detectNationalIds`: every returned match comes from
a pattern's span, its `text` is that span's slice, and the subtype guards
did not fire. -/
theorem detectNationalIds_mem (text : Str) (m : Match) (hm : m ∈ detectNationalIds text) :
    ∃ pr ∈ nationalIdPats, ∃ sp ∈ fspans pr.1 text, natIdKept text pr sp m := by
  unfold detectNationalIds at hm
  have hext := foldl_mem_extract _ Prod.fst
    (fun pr m => ∃ sp ∈ fspans pr.1 text, natIdKept text pr sp m)
    ?_ nationalIdPats ([], []) m hm
  · rcases hext with h | h
    · simp at h
    · exact h
  · intro acc pr m hm2
    have hext2 := foldl_mem_extract _ Prod.fst (fun sp m => natIdKept text pr sp m)
      ?_ (fspans pr.1 text) acc m hm2
    · rcases hext2 with h | ⟨sp, hsp, h⟩
      · exact Or.inl h
      · exact Or.inr ⟨sp, hsp, h⟩
    · intro acc2 sp m hm3
      dsimp only at hm3
      split at hm3
      · exact Or.inl hm3
      · split at hm3
        · exact Or.inl hm3
        · rename_i hc1
          split at hm3
          · exact Or.inl hm3
          · rename_i hc2
            split at hm3
            · exact Or.inl hm3
            · split at hm3
              · exact Or.inl hm3
              · rcases List.mem_append.1 hm3 with h | h
                · exact Or.inl h
                · simp only [List.mem_singleton] at h
                  subst h
                  refine Or.inr ⟨rfl, rfl, ?_, ?_⟩
                  · rw [Bool.not_eq_true] at hc1
                    exact hc1
                  · rw [Bool.not_eq_true] at hc2
                    exact hc2

/-- Shape facts about the national-ID patterns, computed by evaluation. -/
theorem nationalIdPats_shape :
    ∀ pr ∈ nationalIdPats,
      (pr.2 = "BE_NATIONAL" → digitCountRE pr.1 = some 11) ∧
      (pr.2 = "FR_INSEE" → digitCountRE pr.1 = some 15) ∧
      ((pr.2 = "UK_NI" ∨ pr.2 = "DE_SOZVERS" ∨ pr.2 = "DE_PERSO" ∨ pr.2 = "ES_DNI" ∨
        pr.2 = "ES_NIE" ∨ pr.2 = "IT_CF" ∨ pr.2 = "PASSPORT") → canAllDigits pr.1 = false) ∧
      (pr.2 = "NL_BSN" ∨ pr.2 = "BE_NATIONAL" ∨ pr.2 = "US_SSN" ∨ pr.2 = "FR_INSEE" ∨
       pr.2 = "UK_NI" ∨ pr.2 = "DE_SOZVERS" ∨ pr.2 = "DE_PERSO" ∨ pr.2 = "ES_DNI" ∨
       pr.2 = "ES_NIE" ∨ pr.2 = "IT_CF" ∨ pr.2 = "PASSPORT") := by
  decide

/-! ## Lemmas: the Conflict Resolver -/

theorem remOvGo_sublist (ms : List Match) (used : List (Nat × Nat)) :
    (remOvGo ms used).Sublist ms := by
  induction ms generalizing used with
  | nil => simp [remOvGo]
  | cons m rest ih =>
      simp only [remOvGo]
      split
      · exact (ih used).trans (List.sublist_cons_self m rest)
      · exact (ih _).cons₂ m

theorem remOvGo_avoids (ms : List Match) (used : List (Nat × Nat)) :
    ∀ m ∈ remOvGo ms used, ∀ r ∈ used, m.stop ≤ r.1 ∨ r.2 ≤ m.start := by
  induction ms generalizing used with
  | nil => simp [remOvGo]
  | cons m rest ih =>
      intro x hx r hr
      simp only [remOvGo] at hx
      split at hx
      · exact ih used x hx r hr
      · rename_i hany
        rcases List.mem_cons.1 hx with h | h
        · subst h
          by_contra hcon
          push_neg at hcon
          apply hany
          refine List.any_eq_true.2 ⟨r, hr, ?_⟩
          simp only [Bool.not_eq_true', Bool.or_eq_false_iff, decide_eq_false_iff_not]
          constructor <;> omega
        · exact ih _ x h r (List.mem_cons_of_mem _ hr)

theorem remOvGo_pairwise (ms : List Match) (used : List (Nat × Nat)) :
    (remOvGo ms used).Pairwise
      (fun a b => ¬ spanOverlap (a.start, a.stop) (b.start, b.stop)) := by
  induction ms generalizing used with
  | nil => simp [remOvGo]
  | cons m rest ih =>
      simp only [remOvGo]
      split
      · exact ih used
      · refine List.Pairwise.cons ?_ (ih _)
        intro b hb
        have hav := remOvGo_avoids rest ((m.start, m.stop) :: used) b hb
          (m.start, m.stop) (List.mem_cons_self _ _)
        intro hc
        rcases hc with ⟨h1, h2⟩
        simp only at hav h1 h2
        rcases hav with h | h <;> omega

/-! ## Lemmas: characters and normalization -/

theorem charOfNat_toNat {n : Nat} (h : n < 55296) : (Char.ofNat n).toNat = n := by
  unfold Char.ofNat
  rw [dif_pos (Or.inl (by exact_mod_cast h))]
  simp [Char.ofNatAux, Char.toNat, UInt32.toNat, BitVec.toNat_ofNatLt]

theorem charEq_of_toNat {c d : Char} (h : c.toNat = d.toNat) : c = d := by
  apply Char.eq_of_val_eq
  apply UInt32.eq_of_toBitVec_eq
  exact BitVec.eq_of_toNat_eq h

theorem isLowerAZ_iff (c : Char) : isLowerAZ c = true ↔ 97 ≤ c.toNat ∧ c.toNat ≤ 122 := by
  unfold isLowerAZ
  rw [Bool.and_eq_true, decide_eq_true_eq, decide_eq_true_eq]
  exact Iff.rfl

theorem isUpperAZ_iff (c : Char) : isUpperAZ c = true ↔ 65 ≤ c.toNat ∧ c.toNat ≤ 90 := by
  unfold isUpperAZ
  rw [Bool.and_eq_true, decide_eq_true_eq, decide_eq_true_eq]
  exact Iff.rfl

theorem pyUpperChar_toNat_of_lower {c : Char} (h : isLowerAZ c = true) :
    (pyUpperChar c).toNat = c.toNat - 32 := by
  unfold pyUpperChar
  rw [if_pos h]
  have := (isLowerAZ_iff c).1 h
  exact charOfNat_toNat (by omega)

theorem pyUpperChar_fixed {c : Char} (h : isLowerAZ c = false) : pyUpperChar c = c := by
  unfold pyUpperChar
  rw [h]
  simp

theorem pyUpperChar_not_lower (c : Char) : isLowerAZ (pyUpperChar c) = false := by
  by_cases h : isLowerAZ c = true
  · have h1 := pyUpperChar_toNat_of_lower h
    have h2 := (isLowerAZ_iff c).1 h
    rw [← Bool.not_eq_true, isLowerAZ_iff, h1]
    omega
  · rw [Bool.not_eq_true] at h
    rw [pyUpperChar_fixed h]
    exact h

theorem pyUpperChar_idem (c : Char) : pyUpperChar (pyUpperChar c) = pyUpperChar c :=
  pyUpperChar_fixed (pyUpperChar_not_lower c)

theorem isPyWs_iff (c : Char) : isPyWs c = true ↔
    (c.toNat = 32 ∨ c.toNat = 9 ∨ c.toNat = 10 ∨ c.toNat = 13 ∨ c.toNat = 12 ∨ c.toNat = 11) := by
  unfold isPyWs
  simp only [Bool.or_eq_true, decide_eq_true_eq]
  constructor
  · rintro (((((rfl | rfl) | rfl) | rfl) | rfl) | rfl) <;> decide
  · rintro (h | h | h | h | h | h)
    · exact Or.inl (Or.inl (Or.inl (Or.inl (Or.inl
        (charEq_of_toNat (show c.toNat = (' ' : Char).toNat from h))))))
    · exact Or.inl (Or.inl (Or.inl (Or.inl (Or.inr
        (charEq_of_toNat (show c.toNat = ('\t' : Char).toNat from h))))))
    · exact Or.inl (Or.inl (Or.inl (Or.inr
        (charEq_of_toNat (show c.toNat = ('\n' : Char).toNat from h)))))
    · exact Or.inl (Or.inl (Or.inr
        (charEq_of_toNat (show c.toNat = ('\x0d' : Char).toNat from h))))
    · exact Or.inl (Or.inr
        (charEq_of_toNat (show c.toNat = ('\x0c' : Char).toNat from h)))
    · exact Or.inr (charEq_of_toNat (show c.toNat = ('\x0b' : Char).toNat from h))

theorem isPyWs_pyUpperChar (c : Char) : isPyWs (pyUpperChar c) = isPyWs c := by
  by_cases h : isLowerAZ c = true
  · have h1 := pyUpperChar_toNat_of_lower h
    have h2 := (isLowerAZ_iff c).1 h
    have hl : isPyWs (pyUpperChar c) = false := by
      rw [← Bool.not_eq_true, isPyWs_iff, h1]
      omega
    have hr : isPyWs c = false := by
      rw [← Bool.not_eq_true, isPyWs_iff]
      omega
    rw [hl, hr]
  · rw [Bool.not_eq_true] at h
    rw [pyUpperChar_fixed h]

theorem noLower_pyUpper (s : Str) : ∀ c ∈ pyUpper s, isLowerAZ c = false := by
  intro c hc
  rcases List.mem_map.1 hc with ⟨d, _, rfl⟩
  exact pyUpperChar_not_lower d

theorem pyUpper_fixed {s : Str} (h : ∀ c ∈ s, isLowerAZ c = false) : pyUpper s = s := by
  unfold pyUpper
  rw [List.map_congr_left (fun c hc => pyUpperChar_fixed (h c hc))]
  exact List.map_id _

theorem pyUpper_idem (s : Str) : pyUpper (pyUpper s) = pyUpper s :=
  pyUpper_fixed (noLower_pyUpper s)

theorem dw_head {p : Char → Bool} : ∀ (l : Str) (c : Char),
    (l.dropWhile p).head? = some c → p c = false := by
  intro l
  induction l with
  | nil => intro c h; simp [List.dropWhile] at h
  | cons x xs ih =>
      intro c h
      rw [List.dropWhile_cons] at h
      split at h
      · exact ih c h
      · rename_i hx
        simp only [List.head?_cons, Option.some_inj] at h
        subst h
        exact Bool.not_eq_true _ ▸ hx

theorem dw_fix {p : Char → Bool} {l : Str}
    (h : ∀ c, l.head? = some c → p c = false) : l.dropWhile p = l := by
  cases l with
  | nil => rfl
  | cons x xs =>
      rw [List.dropWhile_cons, if_neg]
      rw [h x (by rfl)]
      simp

theorem dw_idem (p : Char → Bool) (l : Str) :
    (l.dropWhile p).dropWhile p = l.dropWhile p :=
  dw_fix (fun c hc => dw_head l c hc)

theorem dw_map {p : Char → Bool} {f : Char → Char}
    (hf : ∀ c, p (f c) = p c) : ∀ l : Str, (l.map f).dropWhile p = (l.dropWhile p).map f := by
  intro l
  induction l with
  | nil => rfl
  | cons x xs ih =>
      simp only [List.map_cons, List.dropWhile_cons, hf x]
      split
      · exact ih
      · rfl

theorem dw_last {p : Char → Bool} : ∀ (l : Str) (c : Char),
    (l.dropWhile p).getLast? = some c → l.getLast? = some c := by
  intro l
  induction l with
  | nil => intro c h; simp [List.dropWhile] at h
  | cons x xs ih =>
      intro c h
      rw [List.dropWhile_cons] at h
      split at h
      · have hxs := ih c h
        cases xs with
        | nil => simp at hxs
        | cons y ys =>
            rw [List.getLast?_cons_cons]
            exact hxs
      · exact h

theorem pyUpper_pyStrip_comm (s : Str) : pyUpper (pyStrip s) = pyStrip (pyUpper s) := by
  unfold pyStrip dropWhileWs pyUpper
  rw [← List.map_reverse, dw_map isPyWs_pyUpperChar, ← List.map_reverse,
    dw_map isPyWs_pyUpperChar]

theorem pyStrip_head {s : Str} : ∀ c, (pyStrip s).head? = some c → isPyWs c = false := by
  intro c hc
  exact dw_head _ c hc

theorem pyStrip_last {s : Str} : ∀ c, (pyStrip s).getLast? = some c → isPyWs c = false := by
  intro c hc
  unfold pyStrip dropWhileWs at hc
  have h1 := dw_last _ c hc
  rw [List.getLast?_reverse] at h1
  exact dw_head _ c h1

theorem pyStrip_idem (s : Str) : pyStrip (pyStrip s) = pyStrip s := by
  have h2 : (pyStrip s).reverse.dropWhile (fun c => isPyWs c) = (pyStrip s).reverse := by
    apply dw_fix
    intro c hc
    rw [List.head?_reverse] at hc
    exact pyStrip_last c hc
  show dropWhileWs ((dropWhileWs (pyStrip s).reverse).reverse) = pyStrip s
  unfold dropWhileWs
  rw [h2, List.reverse_reverse]
  apply dw_fix
  intro c hc
  exact pyStrip_head c hc

/-- Idempotence of the default normalization (`value.upper().strip()`). -/
theorem upperStrip_idem (s : Str) :
    pyStrip (pyUpper (pyStrip (pyUpper s))) = pyStrip (pyUpper s) := by
  rw [pyUpper_pyStrip_comm, pyUpper_idem, pyStrip_idem]

theorem normalizeIban_idem (x : Str) : normalizeIban (normalizeIban x) = normalizeIban x := by
  unfold normalizeIban
  rw [pyUpper_fixed (fun c hc => noLower_pyUpper _ c (List.mem_of_mem_filter hc))]
  apply List.filter_eq_self.2
  intro c hc
  have h3 := List.of_mem_filter hc
  exact h3

theorem normalizePhone_unfold (x : Str) :
    normalizePhone x =
      (if listStarts (sl "00") (x.filter (fun c => isDigitC c || c = '+')) then
        '+' :: (x.filter (fun c => isDigitC c || c = '+')).drop 2
      else if listStarts (sl "0") (x.filter (fun c => isDigitC c || c = '+')) &&
          (x.filter (fun c => isDigitC c || c = '+')).length = 10 then
        sl "+32" ++ (x.filter (fun c => isDigitC c || c = '+')).drop 1
      else x.filter (fun c => isDigitC c || c = '+')) := rfl

theorem starts00_plus (t : Str) : listStarts (sl "00") ('+' :: t) = false := by
  simp [listStarts, sl, List.isPrefixOf]

theorem starts0_plus (t : Str) : listStarts (sl "0") ('+' :: t) = false := by
  simp [listStarts, sl, List.isPrefixOf]

theorem normalizePhone_chars (x : Str) :
    ∀ c ∈ normalizePhone x, (isDigitC c || c = '+') = true := by
  intro c hc
  rw [normalizePhone_unfold] at hc
  split at hc
  · rcases List.mem_cons.1 hc with rfl | hc2
    · simp
    · have hcm := List.mem_of_mem_drop hc2
      have h3 := List.of_mem_filter hcm
      exact h3
  · split at hc
    · rcases List.mem_append.1 hc with hc2 | hc2
      · rw [show sl "+32" = ['+', '3', '2'] from rfl] at hc2
        rcases List.mem_cons.1 hc2 with rfl | hc3
        · decide
        · rcases List.mem_cons.1 hc3 with rfl | hc4
          · decide
          · rcases List.mem_cons.1 hc4 with rfl | hc5
            · decide
            · simp at hc5
      · have hcm := List.mem_of_mem_drop hc2
        have h3 := List.of_mem_filter hcm
        exact h3
    · have h3 := List.of_mem_filter hc
      exact h3

theorem normalizePhone_filter_fix (x : Str) :
    (normalizePhone x).filter (fun c => isDigitC c || c = '+') = normalizePhone x := by
  apply List.filter_eq_self.2
  intro c hc
  exact normalizePhone_chars x c hc


theorem normalizePhone_idem (x : Str) :
    normalizePhone (normalizePhone x) = normalizePhone x := by
  rw [normalizePhone_unfold (normalizePhone x), normalizePhone_filter_fix]
  by_cases h1 : listStarts (sl "00") (x.filter (fun c => isDigitC c || c = '+')) = true
  · have hnp : normalizePhone x =
        '+' :: (x.filter (fun c => isDigitC c || c = '+')).drop 2 := by
      rw [normalizePhone_unfold x, if_pos h1]
    rw [hnp, starts00_plus, starts0_plus]
    simp
  · rw [Bool.not_eq_true] at h1
    by_cases h2 : (listStarts (sl "0") (x.filter (fun c => isDigitC c || c = '+')) &&
        (x.filter (fun c => isDigitC c || c = '+')).length = 10) = true
    · have hnp : normalizePhone x =
          sl "+32" ++ (x.filter (fun c => isDigitC c || c = '+')).drop 1 := by
        rw [normalizePhone_unfold x, if_neg (by simp [h1]), if_pos h2]
      rw [hnp,
        show sl "+32" ++ (x.filter (fun c => isDigitC c || c = '+')).drop 1 =
          '+' :: '3' :: '2' :: (x.filter (fun c => isDigitC c || c = '+')).drop 1 from rfl,
        starts00_plus, starts0_plus]
      simp
    · rw [Bool.not_eq_true] at h2
      have hnp : normalizePhone x = x.filter (fun c => isDigitC c || c = '+') := by
        rw [normalizePhone_unfold x, if_neg (by simp [h1]), if_neg (by simp [h2])]
      rw [hnp, h1, h2]
      simp

theorem splitWsAux_pred {P : Char → Prop} : ∀ (s cur : Str),
    (∀ c ∈ s, P c) → (∀ c ∈ cur, P c) →
    ∀ t ∈ splitWsAux s cur, ∀ c ∈ t, P c := by
  intro s
  induction s with
  | nil =>
      intro cur _ hcur t ht c hct
      simp only [splitWsAux] at ht
      split at ht
      · simp at ht
      · simp only [List.mem_singleton] at ht
        subst ht
        exact hcur c (List.mem_reverse.1 hct)
  | cons a rest ih =>
      intro cur hs hcur t ht c hct
      simp only [splitWsAux] at ht
      split at ht
      · split at ht
        · exact ih [] (fun d hd => hs d (List.mem_cons_of_mem _ hd)) (by simp) t ht c hct
        · rcases List.mem_cons.1 ht with rfl | ht2
          · exact hcur c (List.mem_reverse.1 hct)
          · exact ih [] (fun d hd => hs d (List.mem_cons_of_mem _ hd)) (by simp) t ht2 c hct
      · refine ih (a :: cur) (fun d hd => hs d (List.mem_cons_of_mem _ hd)) ?_ t ht c hct
        intro d hd
        rcases List.mem_cons.1 hd with rfl | hd2
        · exact hs d (List.mem_cons_self _ _)
        · exact hcur d hd2

theorem splitWsAux_nonempty : ∀ (s cur : Str), ∀ t ∈ splitWsAux s cur, t ≠ [] := by
  intro s
  induction s with
  | nil =>
      intro cur t ht
      simp only [splitWsAux] at ht
      split at ht
      · simp at ht
      · rename_i hne
        simp only [List.mem_singleton] at ht
        subst ht
        simp only [ne_eq, List.reverse_eq_nil_iff]
        intro he
        rw [he] at hne
        exact hne rfl
  | cons a rest ih =>
      intro cur t ht
      simp only [splitWsAux] at ht
      split at ht
      · split at ht
        · exact ih [] t ht
        · rename_i hne
          rcases List.mem_cons.1 ht with rfl | ht2
          · simp only [ne_eq, List.reverse_eq_nil_iff]
            intro he
            rw [he] at hne
            exact hne rfl
          · exact ih [] t ht2
      · exact ih (a :: cur) t ht

theorem splitWsAux_wsFree : ∀ (s cur : Str), (∀ c ∈ cur, isPyWs c = false) →
    ∀ t ∈ splitWsAux s cur, ∀ c ∈ t, isPyWs c = false := by
  intro s
  induction s with
  | nil =>
      intro cur hcur t ht c hct
      simp only [splitWsAux] at ht
      split at ht
      · simp at ht
      · simp only [List.mem_singleton] at ht
        subst ht
        exact hcur c (List.mem_reverse.1 hct)
  | cons a rest ih =>
      intro cur hcur t ht c hct
      simp only [splitWsAux] at ht
      split at ht
      · split at ht
        · exact ih [] (by simp) t ht c hct
        · rcases List.mem_cons.1 ht with rfl | ht2
          · exact hcur c (List.mem_reverse.1 hct)
          · exact ih [] (by simp) t ht2 c hct
      · rename_i hws
        refine ih (a :: cur) ?_ t ht c hct
        intro d hd
        rcases List.mem_cons.1 hd with rfl | hd2
        · exact Bool.not_eq_true _ ▸ hws
        · exact hcur d hd2

theorem splitWsAux_single : ∀ (s cur : Str), (∀ c ∈ s, isPyWs c = false) →
    (s = [] → cur ≠ []) → splitWsAux s cur = [cur.reverse ++ s] := by
  intro s
  induction s with
  | nil =>
      intro cur _ hcur
      simp only [splitWsAux]
      rw [if_neg (by simpa [List.isEmpty_iff] using hcur rfl)]
      simp
  | cons a rest ih =>
      intro cur hs _
      simp only [splitWsAux]
      rw [if_neg (by simp [hs a (List.mem_cons_self _ _)])]
      rw [ih (a :: cur) (fun d hd => hs d (List.mem_cons_of_mem _ hd)) (by simp)]
      simp

theorem pySplitWs_pred {P : Char → Prop} {s : Str} (hs : ∀ c ∈ s, P c) :
    ∀ t ∈ pySplitWs s, ∀ c ∈ t, P c :=
  splitWsAux_pred s [] hs (by simp)

theorem pySplitWs_nonempty {s : Str} : ∀ t ∈ pySplitWs s, t ≠ [] :=
  splitWsAux_nonempty s []

theorem pySplitWs_wsFree {s : Str} : ∀ t ∈ pySplitWs s, ∀ c ∈ t, isPyWs c = false :=
  splitWsAux_wsFree s [] (by simp)

theorem pySplitWs_single {s : Str} (hne : s ≠ []) (hws : ∀ c ∈ s, isPyWs c = false) :
    pySplitWs s = [s] := by
  unfold pySplitWs
  rw [splitWsAux_single s [] hws (fun h => absurd h hne)]
  simp

theorem sinsert_mem {α : Type} {le : α → α → Bool} {x y : α} :
    ∀ l, y ∈ sinsert le x l → y = x ∨ y ∈ l := by
  intro l
  induction l with
  | nil => intro h; simp [sinsert] at h; exact Or.inl h
  | cons a rest ih =>
      intro h
      simp only [sinsert] at h
      split at h
      · rcases List.mem_cons.1 h with rfl | h2
        · exact Or.inr (List.mem_cons_self _ _)
        · rcases ih h2 with h3 | h3
          · exact Or.inl h3
          · exact Or.inr (List.mem_cons_of_mem _ h3)
      · rcases List.mem_cons.1 h with rfl | h2
        · exact Or.inl rfl
        · exact Or.inr h2

theorem pySort_mem {α : Type} {le : α → α → Bool} {y : α} :
    ∀ (l : List α), y ∈ pySort le l → y ∈ l := by
  have haux : ∀ (l acc : List α), y ∈ l.foldl (fun a x => sinsert le x a) acc →
      y ∈ acc ∨ y ∈ l := by
    intro l
    induction l with
    | nil => intro acc h; exact Or.inl h
    | cons a rest ih =>
        intro acc h
        rcases ih (sinsert le a acc) h with h2 | h2
        · rcases sinsert_mem acc h2 with rfl | h3
          · exact Or.inr (List.mem_cons_self _ _)
          · exact Or.inl h3
        · exact Or.inr (List.mem_cons_of_mem _ h2)
  intro l h
  rcases haux l [] h with h2 | h2
  · simp at h2
  · exact h2

theorem joinBar_chars : ∀ (l : List Str) (c : Char), c ∈ joinBar l →
    c = '|' ∨ ∃ t ∈ l, c ∈ t := by
  intro l
  induction l with
  | nil => intro c hc; simp [joinBar] at hc
  | cons a rest ih =>
      intro c hc
      cases rest with
      | nil =>
          exact Or.inr ⟨a, List.mem_cons_self _ _, hc⟩
      | cons b r =>
          rw [show joinBar (a :: b :: r) = a ++ '|' :: joinBar (b :: r) from rfl] at hc
          rcases List.mem_append.1 hc with hc2 | hc2
          · exact Or.inr ⟨a, List.mem_cons_self _ _, hc2⟩
          · rcases List.mem_cons.1 hc2 with rfl | hc3
            · exact Or.inl rfl
            · rcases ih c hc3 with h | ⟨t, ht, hct⟩
              · exact Or.inl h
              · exact Or.inr ⟨t, List.mem_cons_of_mem _ ht, hct⟩

theorem bar_mem_joinBar (a b : Str) (r : List Str) : '|' ∈ joinBar (a :: b :: r) := by
  rw [show joinBar (a :: b :: r) = a ++ '|' :: joinBar (b :: r) from rfl]
  exact List.mem_append.2 (Or.inr (List.mem_cons_self _ _))

theorem joinBar_not_particle : ∀ (l : List Str),
    (∀ t ∈ l, particles.contains t = false) → particles.contains (joinBar l) = false := by
  intro l hl
  cases l with
  | nil => decide
  | cons a rest =>
      cases rest with
      | nil => exact hl a (List.mem_cons_self _ _)
      | cons b r =>
          by_contra hc
          rw [Bool.not_eq_false] at hc
          have hmem : joinBar (a :: b :: r) ∈ particles := List.elem_iff.1 hc
          have hbar := bar_mem_joinBar a b r
          have hnobar : ∀ p ∈ particles, ¬ ('|' ∈ p) := by decide
          exact hnobar _ hmem hbar

/-- `normalizeName` is the identity on uppercase, whitespace-free,
non-particle strings. -/
theorem normalizeName_fix {J : Str} (hJ1 : ∀ c ∈ J, isLowerAZ c = false)
    (hJ2 : ∀ c ∈ J, isPyWs c = false) (hJ3 : particles.contains J = false) :
    normalizeName J = J := by
  unfold normalizeName
  rw [pyUpper_fixed hJ1]
  cases J with
  | nil => rfl
  | cons a t =>
      show joinBar (pySort strLe
        (List.filter (fun p => !particles.contains p) (pySplitWs (a :: t)))) = a :: t
      rw [pySplitWs_single (by simp) hJ2]
      rw [List.filter_cons, if_pos (by rw [hJ3]; rfl)]
      rfl

theorem normalizeName_idem (x : Str) :
    normalizeName (normalizeName x) = normalizeName x := by
  have hchars : ∀ c ∈ normalizeName x, c = '|' ∨
      ∃ t ∈ pySplitWs (pyUpper x), c ∈ t := by
    intro c hc
    rcases joinBar_chars _ c hc with h | ⟨t, ht, hct⟩
    · exact Or.inl h
    · exact Or.inr ⟨t, List.mem_of_mem_filter (pySort_mem _ ht), hct⟩
  apply normalizeName_fix
  · intro c hc
    rcases hchars c hc with rfl | ⟨t, ht, hct⟩
    · decide
    · exact pySplitWs_pred (noLower_pyUpper x) t ht c hct
  · intro c hc
    rcases hchars c hc with rfl | ⟨t, ht, hct⟩
    · decide
    · exact pySplitWs_wsFree t ht c hct
  · apply joinBar_not_particle
    intro t ht
    have h2 := List.of_mem_filter (pySort_mem _ ht)
    simpa using h2

/-! ## Lemmas: dictionaries, sets and decimal digits -/

theorem dictGet_eq_none_iff {α : Type} (d : Dict α) (k : Str) :
    dictGet d k = none ↔ k ∉ d.map Prod.fst := by
  unfold dictGet
  constructor
  · intro h hk
    rcases List.mem_map.1 hk with ⟨p, hp, hpk⟩
    rcases List.find?_eq_none.1 (by cases hf : d.find? (fun p => p.1 = k) with
      | none => rfl
      | some q => rw [hf] at h; exact absurd h (by simp)) p hp with hne
    exact hne (by simp [hpk])
  · intro hk
    cases hf : d.find? (fun p => p.1 = k) with
    | none => rfl
    | some q =>
        have hq := List.find?_some hf
        have hqm := List.mem_of_find?_eq_some hf
        simp at hq
        exact absurd (List.mem_map.2 ⟨q, hqm, hq⟩) hk

theorem dictGet_mem_nodup {α : Type} {d : Dict α} {k : Str} {v : α}
    (hnd : (d.map Prod.fst).Nodup) (hm : (k, v) ∈ d) :
    dictGet d k = some v := by
  induction d with
  | nil => cases hm
  | cons p rest ih =>
      rcases List.mem_cons.1 hm with rfl | hm2
      · unfold dictGet
        simp [List.find?]
      · have hk : p.1 ≠ k := by
          intro hke
          have : k ∈ rest.map Prod.fst := List.mem_map.2 ⟨(k, v), hm2, rfl⟩
          rw [List.map_cons, List.nodup_cons, hke] at hnd
          exact hnd.1 this
        unfold dictGet
        rw [List.find?_cons_of_neg _ (by simp [hk])]
        have := ih (by rw [List.map_cons, List.nodup_cons] at hnd; exact hnd.2) hm2
        unfold dictGet at this
        exact this

theorem dictSet_of_not_mem {α : Type} {d : Dict α} {k : Str} (v : α)
    (h : k ∉ d.map Prod.fst) : dictSet d k v = d ++ [(k, v)] := by
  induction d with
  | nil => rfl
  | cons p rest ih =>
      have hk : p.1 ≠ k := by
        intro hke
        exact h (List.mem_map.2 ⟨p, List.mem_cons_self _ _, hke⟩)
      unfold dictSet
      rw [if_neg hk, ih (fun hm => h (List.mem_map.2 (by
        rcases List.mem_map.1 hm with ⟨q, hq, hqk⟩
        exact ⟨q, List.mem_cons_of_mem _ hq, hqk⟩)))]
      rfl

theorem dictSet_mid {α : Type} {A : Dict α} {k : Str} (B : Dict α) (x v : α)
    (h : k ∉ A.map Prod.fst) :
    dictSet (A ++ (k, x) :: B) k v = A ++ (k, v) :: B := by
  induction A with
  | nil => simp [dictSet]
  | cons p rest ih =>
      have hk : p.1 ≠ k := by
        intro hke
        exact h (List.mem_map.2 ⟨p, List.mem_cons_self _ _, hke⟩)
      show dictSet (p :: (rest ++ (k, x) :: B)) k v = p :: (rest ++ (k, v) :: B)
      unfold dictSet
      rw [if_neg hk, ih (fun hm => h (List.mem_map.2 (by
        rcases List.mem_map.1 hm with ⟨q, hq, hqk⟩
        exact ⟨q, List.mem_cons_of_mem _ hq, hqk⟩)))]

theorem dictGetD_dictSet_self {α : Type} (d : Dict α) (k : Str) (v dflt : α) :
    dictGetD (dictSet d k v) k dflt = v := by
  induction d with
  | nil => simp [dictSet, dictGetD, dictGet, List.find?]
  | cons p rest ih =>
      unfold dictSet
      by_cases hk : p.1 = k
      · rw [if_pos hk]
        simp [dictGetD, dictGet, List.find?]
      · rw [if_neg hk]
        unfold dictGetD dictGet at ih ⊢
        rw [List.find?_cons_of_neg _ (by simp [hk])]
        exact ih

theorem dictGetD_dictSet_other {α : Type} (d : Dict α) {k k' : Str} (v : α) (dflt : α)
    (h : k' ≠ k) : dictGetD (dictSet d k v) k' dflt = dictGetD d k' dflt := by
  induction d with
  | nil =>
      unfold dictSet dictGetD dictGet
      rw [List.find?_cons_of_neg _ (by simp; intro h2; exact h h2.symm)]
  | cons p rest ih =>
      unfold dictSet
      by_cases hk : p.1 = k
      · rw [if_pos hk]
        unfold dictGetD dictGet
        rw [List.find?_cons_of_neg _ (by simp; intro h2; exact h h2.symm),
          List.find?_cons_of_neg _ (by rw [hk]; simp; intro h2; exact h h2.symm)]
      · rw [if_neg hk]
        unfold dictGetD dictGet at ih ⊢
        by_cases hp : p.1 = k'
        · rw [List.find?_cons_of_pos _ (by simp [hp]), List.find?_cons_of_pos _ (by simp [hp])]
        · rw [List.find?_cons_of_neg _ (by simp [hp]), List.find?_cons_of_neg _ (by simp [hp])]
          exact ih

theorem strContains_iff (s : List Str) (v : Str) : s.contains v = true ↔ v ∈ s := by
  simp [List.elem_iff]

theorem mem_setAdd_self (s : List Str) (v : Str) : v ∈ setAdd s v := by
  unfold setAdd
  by_cases h : s.contains v
  · rw [if_pos h]
    exact (strContains_iff s v).1 h
  · rw [if_neg h]
    exact List.mem_append.2 (Or.inr (List.mem_singleton.2 rfl))

theorem mem_setAdd_of_mem {s : List Str} {x : Str} (v : Str) (h : x ∈ s) :
    x ∈ setAdd s v := by
  unfold setAdd
  by_cases hc : s.contains v
  · rw [if_pos hc]; exact h
  · rw [if_neg hc]; exact List.mem_append.2 (Or.inl h)

theorem setAdd_nodup {s : List Str} (v : Str) (h : s.Nodup) : (setAdd s v).Nodup := by
  unfold setAdd
  by_cases hc : s.contains v
  · rw [if_pos hc]; exact h
  · rw [if_neg hc]
    refine List.Nodup.append h (List.nodup_singleton v) ?_
    intro x hx hxv
    rw [List.mem_singleton.1 hxv] at hx
    exact hc ((strContains_iff s v).2 hx)

theorem setOfList_fix_aux : ∀ (l acc : List Str), (∀ x ∈ l, x ∉ acc) → l.Nodup →
    l.foldl setAdd acc = acc ++ l := by
  intro l
  induction l with
  | nil => intro acc _ _; simp
  | cons a rest ih =>
      intro acc hdisj hnd
      rw [List.foldl_cons]
      have ha : setAdd acc a = acc ++ [a] := by
        unfold setAdd
        rw [if_neg (by
          intro hc
          exact hdisj a (List.mem_cons_self _ _) ((strContains_iff acc a).1 hc))]
      rw [ha, ih (acc ++ [a]) (by
          intro x hx hm
          rcases List.mem_append.1 hm with hm1 | hm1
          · exact hdisj x (List.mem_cons_of_mem _ hx) hm1
          · rw [List.mem_singleton.1 hm1] at hx
            exact (List.nodup_cons.1 hnd).1 hx)
        (List.nodup_cons.1 hnd).2]
      simp

theorem setOfList_fix {l : List Str} (h : l.Nodup) : setOfList l = l := by
  unfold setOfList
  rw [setOfList_fix_aux l [] (by intro x _ hx; cases hx) h]
  simp

theorem isDigitC_iff (c : Char) : isDigitC c = true ↔ 48 ≤ c.toNat ∧ c.toNat ≤ 57 := by
  unfold isDigitC
  rw [Bool.and_eq_true, decide_eq_true_eq, decide_eq_true_eq]
  exact Iff.rfl

theorem digitChar_isDigit {n : Nat} (h : n < 10) : isDigitC (digitChar n) = true := by
  rw [isDigitC_iff]
  unfold digitChar
  rw [charOfNat_toNat (by omega)]
  omega

theorem natDigitsF_digits : ∀ (fuel n : Nat), ∀ c ∈ natDigitsF fuel n, isDigitC c = true := by
  intro fuel
  induction fuel with
  | zero => intro n c hc; cases hc
  | succ fuel ih =>
      intro n c hc
      unfold natDigitsF at hc
      by_cases h : n < 10
      · rw [if_pos h] at hc
        rw [List.mem_singleton.1 hc]
        exact digitChar_isDigit h
      · rw [if_neg h] at hc
        rcases List.mem_append.1 hc with hc1 | hc1
        · exact ih _ c hc1
        · rw [List.mem_singleton.1 hc1]
          exact digitChar_isDigit (Nat.mod_lt _ (by omega))

theorem pad3_digits (n : Nat) : ∀ c ∈ pad3 n, isDigitC c = true := by
  intro c hc
  unfold pad3 at hc
  rcases List.mem_append.1 hc with hc1 | hc1
  · rw [List.eq_of_mem_replicate hc1]
    decide
  · exact natDigitsF_digits _ _ c hc1

theorem und_not_mem_pad3 (n : Nat) : '_' ∉ pad3 n := by
  intro h
  have := pad3_digits n '_' h
  simp [isDigitC] at this

theorem natDigitsF_foldl : ∀ (fuel n : Nat), n < fuel → ∀ acc,
    (natDigitsF fuel n).foldl (fun a c => a * 10 + (c.toNat - '0'.toNat)) acc
      = acc * 10 ^ (natDigitsF fuel n).length + n := by
  intro fuel
  induction fuel with
  | zero => intro n h; omega
  | succ fuel ih =>
      intro n h acc
      unfold natDigitsF
      by_cases h10 : n < 10
      · rw [if_pos h10]
        have h48 : (digitChar n).toNat = 48 + n := charOfNat_toNat (by omega)
        show acc * 10 + ((digitChar n).toNat - '0'.toNat) = acc * 10 ^ 1 + n
        rw [h48, show ('0' : Char).toNat = 48 from rfl, pow_one]
        omega
      · rw [if_neg h10]
        have hrec : n / 10 < fuel := by omega
        rw [List.foldl_append, ih (n / 10) hrec acc]
        have h48 : (digitChar (n % 10)).toNat = 48 + n % 10 :=
          charOfNat_toNat (by have := Nat.mod_lt n (show 0 < 10 by omega); omega)
        show (acc * 10 ^ (natDigitsF fuel (n / 10)).length + n / 10) * 10 +
            ((digitChar (n % 10)).toNat - '0'.toNat)
          = acc * 10 ^ (natDigitsF fuel (n / 10) ++ [digitChar (n % 10)]).length + n
        rw [h48, show ('0' : Char).toNat = 48 from rfl, List.length_append,
          List.length_singleton, pow_succ]
        have hx : acc * (10 ^ (natDigitsF fuel (n / 10)).length * 10)
            = acc * 10 ^ (natDigitsF fuel (n / 10)).length * 10 := by ring
        rw [hx]
        omega

theorem pyInt_natDigits (n : Nat) : pyInt (natDigits n) = n := by
  unfold pyInt natDigits
  rw [natDigitsF_foldl (n + 1) n (by omega) 0]
  simp

theorem pyInt_pad3 (n : Nat) : pyInt (pad3 n) = n := by
  unfold pyInt pad3
  rw [List.foldl_append]
  have hz : ∀ (cnt : Nat),
      (List.replicate cnt '0').foldl (fun a c => a * 10 + (c.toNat - '0'.toNat)) 0 = 0 := by
    intro cnt
    induction cnt with
    | zero => rfl
    | succ cnt ih => rw [List.replicate_succ, List.foldl_cons]; simpa using ih
  rw [hz]
  exact pyInt_natDigits n

theorem pad3_inj {a b : Nat} (h : pad3 a = pad3 b) : a = b := by
  have := congrArg pyInt h
  rwa [pyInt_pad3, pyInt_pad3] at this

theorem pad3_len (n : Nat) : 3 ≤ (pad3 n).length := by
  unfold pad3
  rw [List.length_append, List.length_replicate]
  omega

theorem breakAtUnd_append {x : Str} (y : Str) (h : '_' ∉ x) :
    breakAtUnd (x ++ '_' :: y) = some (x, y) := by
  induction x with
  | nil => simp [breakAtUnd]
  | cons c rest ih =>
      have hc : c ≠ '_' := fun hce => h (hce ▸ List.mem_cons_self _ _)
      show breakAtUnd (c :: (rest ++ '_' :: y)) = some (c :: rest, y)
      unfold breakAtUnd
      rw [if_neg hc, ih (fun hm => h (List.mem_cons_of_mem _ hm))]

theorem rsplitHead_eq (cat t : Str) (h : '_' ∉ t) :
    rsplitHead (cat ++ '_' :: t) = cat := by
  unfold rsplitHead
  rw [show (cat ++ '_' :: t).reverse = t.reverse ++ '_' :: cat.reverse by
    simp [List.reverse_append]]
  rw [breakAtUnd_append _ (by simpa using h)]
  simp

theorem rsplitTail_eq (cat t : Str) (h : '_' ∉ t) :
    rsplitTail (cat ++ '_' :: t) = t := by
  unfold rsplitTail
  rw [show (cat ++ '_' :: t).reverse = t.reverse ++ '_' :: cat.reverse by
    simp [List.reverse_append]]
  rw [breakAtUnd_append _ (by simpa using h)]
  simp

theorem grpPh_head (g : Grp) : rsplitHead (grpPh g) = g.cat :=
  rsplitHead_eq _ _ (und_not_mem_pad3 _)

theorem grpPh_tail (g : Grp) : rsplitTail (grpPh g) = pad3 g.num :=
  rsplitTail_eq _ _ (und_not_mem_pad3 _)

theorem grpPh_inj {g g' : Grp} (h : grpPh g = grpPh g') :
    g.cat = g'.cat ∧ g.num = g'.num := by
  have h1 := (grpPh_head g).symm.trans ((congrArg rsplitHead h).trans (grpPh_head g'))
  have h2 := (grpPh_tail g).symm.trans ((congrArg rsplitTail h).trans (grpPh_tail g'))
  exact ⟨h1, pad3_inj h2⟩

theorem buildCountersD_cons (g : Grp) (grs : List Grp) (d : Dict Nat) :
    buildCountersD (g :: grs) d = buildCountersD grs (dictSet d g.cat g.num) := rfl

theorem buildCountersD_append (grs : List Grp) (g : Grp) (d : Dict Nat) :
    buildCountersD (grs ++ [g]) d = dictSet (buildCountersD grs d) g.cat g.num := by
  unfold buildCountersD
  rw [List.foldl_append]
  rfl

theorem incrOk_mono : ∀ (grs : List Grp) (d : Dict Nat), incrOk grs d →
    ∀ cat, dictGetD d cat 0 ≤ dictGetD (buildCountersD grs d) cat 0 := by
  intro grs
  induction grs with
  | nil => intro d _ cat; exact Nat.le_refl _
  | cons g rest ih =>
      intro d hok cat
      rcases hok with ⟨hg, hrest⟩
      have h2 := ih (dictSet d g.cat g.num) hrest cat
      rw [buildCountersD_cons]
      refine Nat.le_trans ?_ h2
      by_cases hc : cat = g.cat
      · subst hc
        rw [dictGetD_dictSet_self]
        omega
      · rw [dictGetD_dictSet_other _ _ _ hc]

theorem incrOk_num_le : ∀ (grs : List Grp) (d : Dict Nat), incrOk grs d →
    ∀ g ∈ grs, g.num ≤ dictGetD (buildCountersD grs d) g.cat 0 := by
  intro grs
  induction grs with
  | nil => intro d _ g hg; cases hg
  | cons g0 rest ih =>
      intro d hok g hg
      rcases hok with ⟨hg0, hrest⟩
      rw [buildCountersD_cons]
      rcases List.mem_cons.1 hg with rfl | hg2
      · have := incrOk_mono rest (dictSet d g.cat g.num) hrest g.cat
        rw [dictGetD_dictSet_self] at this
        exact this
      · exact ih (dictSet d g0.cat g0.num) hrest g hg2

theorem incrOk_append_one : ∀ (grs : List Grp) (d : Dict Nat) (g : Grp), incrOk grs d →
    g.num = dictGetD (buildCountersD grs d) g.cat 0 + 1 → incrOk (grs ++ [g]) d := by
  intro grs
  induction grs with
  | nil => intro d g _ hnum; exact ⟨hnum, trivial⟩
  | cons g0 rest ih =>
      intro d g hok hnum
      rcases hok with ⟨hg0, hrest⟩
      exact ⟨hg0, ih _ g hrest (by rw [← buildCountersD_cons]; exact hnum)⟩

theorem incrOk_update : ∀ (l1 : List Grp) (g0 g0' : Grp) (l2 : List Grp) (d : Dict Nat),
    g0'.cat = g0.cat → g0'.num = g0.num →
    incrOk (l1 ++ g0 :: l2) d → incrOk (l1 ++ g0' :: l2) d := by
  intro l1
  induction l1 with
  | nil =>
      intro g0 g0' l2 d hc hn hok
      rcases hok with ⟨h1, h2⟩
      constructor
      · rw [hc, hn]; exact h1
      · rw [hc, hn]; exact h2
  | cons a rest ih =>
      intro g0 g0' l2 d hc hn hok
      rcases hok with ⟨h1, h2⟩
      exact ⟨h1, ih g0 g0' l2 _ hc hn h2⟩

theorem buildCountersD_update : ∀ (l1 : List Grp) (g0 g0' : Grp) (l2 : List Grp) (d : Dict Nat),
    g0'.cat = g0.cat → g0'.num = g0.num →
    buildCountersD (l1 ++ g0' :: l2) d = buildCountersD (l1 ++ g0 :: l2) d := by
  intro l1
  induction l1 with
  | nil =>
      intro g0 g0' l2 d hc hn
      show buildCountersD l2 (dictSet d g0'.cat g0'.num) = buildCountersD l2 (dictSet d g0.cat g0.num)
      rw [hc, hn]
  | cons a rest ih =>
      intro g0 g0' l2 d hc hn
      exact ih g0 g0' l2 _ hc hn

theorem mapped_fst {β : Type} (key : Grp → Str) (val : Grp → β) (grs : List Grp) :
    (grs.map (fun g => (key g, val g))).map Prod.fst = grs.map key := by
  induction grs with
  | nil => rfl
  | cons g rest ih => simp [ih]

theorem nodup_mid {α : Type} {A B : List α} {b : α} (h : (A ++ b :: B).Nodup) :
    b ∉ A ∧ b ∉ B := by
  rcases List.nodup_append.1 h with ⟨_, hB, hdisj⟩
  constructor
  · intro hbA
    exact hdisj hbA (List.mem_cons_self _ _)
  · exact (List.nodup_cons.1 hB).1

theorem nodup_snoc {α : Type} {A : List α} {b : α} (h : A.Nodup) (hb : b ∉ A) :
    (A ++ [b]).Nodup := by
  rw [List.nodup_append]
  exact ⟨h, List.nodup_singleton b, fun a ha hab => hb ((List.mem_singleton.1 hab) ▸ ha)⟩

theorem dictGet_mapped_split {β : Type} (key : Grp → Str) (val : Grp → β) :
    ∀ (grs : List Grp) (k : Str) (v : β),
    dictGet (grs.map (fun g => (key g, val g))) k = some v →
    ∃ l1 g0 l2, grs = l1 ++ g0 :: l2 ∧ key g0 = k ∧ val g0 = v ∧ ∀ g ∈ l1, key g ≠ k := by
  intro grs
  induction grs with
  | nil => intro k v h; exact Option.noConfusion h
  | cons g rest ih =>
      intro k v h
      unfold dictGet at h
      rw [List.map_cons] at h
      by_cases hg : key g = k
      · rw [List.find?_cons_of_pos _ (by simp [hg])] at h
        have h2 : some (val g) = some v := h
        have h3 : val g = v := by injection h2
        exact ⟨[], g, rest, rfl, hg, h3, by intro g' hg'; cases hg'⟩
      · rw [List.find?_cons_of_neg _ (by simp [hg])] at h
        obtain ⟨l1, g0, l2, hsplit, hkey, hval, hl1⟩ := ih k v (by unfold dictGet; exact h)
        refine ⟨g :: l1, g0, l2, by rw [hsplit]; rfl, hkey, hval, ?_⟩
        intro g' hg'
        rcases List.mem_cons.1 hg' with rfl | hg2
        · exact hg
        · exact hl1 g' hg2

theorem getOrCreate_existing {m : MState} {v c ph : Str} {e : MEntry}
    (h1 : dictGet m.valueToPlaceholder (normalize v c) = some ph)
    (h2 : dictGet m.entries ph = some e) :
    getOrCreate m v c =
      (ph, { m with entries := dictSet m.entries ph (bumpEntry e v) }) := by
  unfold getOrCreate bumpEntry
  simp only [h1, h2]

theorem getOrCreate_new {m : MState} {v c : Str}
    (h1 : dictGet m.valueToPlaceholder (normalize v c) = none) :
    getOrCreate m v c =
      (freshPhOf m c,
       { m with
          entries := dictSet m.entries (freshPhOf m c) (freshEntryOf m v c),
          valueToPlaceholder := dictSet m.valueToPlaceholder (normalize v c) (freshPhOf m c),
          counters := dictSet m.counters c (dictGetD m.counters c 0 + 1) }) := by
  unfold getOrCreate freshPhOf freshEntryOf
  simp only [h1]
  rfl

theorem countP_single_true {α : Type} (p : α → Bool) (x : α) (h : p x = true) :
    List.countP p [x] = 1 := by
  rw [List.countP_cons]
  simp [h]

theorem countP_single_false {α : Type} (p : α → Bool) (x : α) (h : p x = false) :
    List.countP p [x] = 0 := by
  rw [List.countP_cons]
  simp [h]

/-- A group whose key is not the new call's key keeps all its history facts
when the call is appended. -/
theorem histEntry_extend {pre : List (Str × Str)} {vc : Str × Str} {g : Grp}
    (hne : grpKey g ≠ normalize vc.1 vc.2)
    (hocc : g.occ = pre.countP (fun p => normalize p.1 p.2 = grpKey g))
    (hfindp : pre.find? (fun p => normalize p.1 p.2 = grpKey g) = some (g.canonical, g.cat))
    (hvs : ∀ p ∈ pre, normalize p.1 p.2 = grpKey g → p.1 ∈ g.vars) :
    g.occ = (pre ++ [vc]).countP (fun p => normalize p.1 p.2 = grpKey g) ∧
    (pre ++ [vc]).find? (fun p => normalize p.1 p.2 = grpKey g) = some (g.canonical, g.cat) ∧
    ∀ p ∈ pre ++ [vc], normalize p.1 p.2 = grpKey g → p.1 ∈ g.vars := by
  refine ⟨?_, ?_, ?_⟩
  · rw [List.countP_append,
      countP_single_false _ _ (by simp only [decide_eq_false_iff_not]; exact fun h => hne h.symm)]
    omega
  · rw [List.find?_append, hfindp]
    rfl
  · intro p hp hk
    rcases List.mem_append.1 hp with hp1 | hp1
    · exact hvs p hp1 hk
    · rw [List.mem_singleton.1 hp1] at hk
      exact absurd hk.symm hne

/-- The one-step invariant: one more `get_or_create_placeholder` call keeps
all invariants, extending the history by the call. -/
theorem callsStep_inv {pre : List (Str × Str)} {acc : List Str × MState}
    (h : FullInv pre acc) (vc : Str × Str) :
    FullInv (pre ++ [vc]) (callsStep acc vc) := by
  obtain ⟨grs, ⟨hE, hV, hC, hKnd, hPnd, hvars, hinc⟩, ⟨hH1, hH2⟩, ⟨hRlen, hRz⟩⟩ := h
  cases hfind : dictGet acc.2.valueToPlaceholder (normalize vc.1 vc.2) with
  | some ph =>
      obtain ⟨l1, g0, l2, hsplit, hl1⟩ : ∃ l1 g0 l2,
          (grs = l1 ++ g0 :: l2 ∧ grpKey g0 = normalize vc.1 vc.2 ∧ grpPh g0 = ph) ∧
          ∀ g ∈ l1, grpKey g ≠ normalize vc.1 vc.2 := by
        obtain ⟨l1, g0, l2, h1, h2, h3, h4⟩ :=
          dictGet_mapped_split grpKey grpPh grs (normalize vc.1 vc.2) ph (by rw [← hV]; exact hfind)
        exact ⟨l1, g0, l2, ⟨h1, h2, h3⟩, h4⟩
      obtain ⟨hsplit, hkey, hph⟩ := hsplit
      subst hsplit
      subst hph
      have hg0mem : g0 ∈ l1 ++ g0 :: l2 := List.mem_append.2 (Or.inr (List.mem_cons_self _ _))
      have hent : dictGet acc.2.entries (grpPh g0) = some (grpEntry g0) := by
        rw [hE]
        exact dictGet_mem_nodup (by rw [mapped_fst]; exact hPnd)
          (List.mem_map.2 ⟨g0, hg0mem, rfl⟩)
      have hgoc := getOrCreate_existing (m := acc.2) hfind hent
      have hstep : callsStep acc vc =
          (acc.1 ++ [grpPh g0],
           { acc.2 with entries := dictSet acc.2.entries (grpPh g0) (bumpEntry (grpEntry g0) vc.1) }) := by
        unfold callsStep
        rw [hgoc]
      rw [hstep]
      set g0' : Grp :=
        ⟨g0.cat, g0.num, g0.canonical, setAdd g0.vars vc.1, g0.occ + 1⟩ with hg0'
      have hkg : grpKey g0' = grpKey g0 := rfl
      have hpg : grpPh g0' = grpPh g0 := rfl
      have hmidP := nodup_mid (show ((l1.map grpPh) ++ grpPh g0 :: (l2.map grpPh)).Nodup by
        rw [← List.map_cons, ← List.map_append]; exact hPnd)
      have hmidK := nodup_mid (show ((l1.map grpKey) ++ grpKey g0 :: (l2.map grpKey)).Nodup by
        rw [← List.map_cons, ← List.map_append]; exact hKnd)
      have hl2ne : ∀ g ∈ l2, grpKey g ≠ normalize vc.1 vc.2 := by
        intro g hg he
        exact hmidK.2 (List.mem_map.2 ⟨g, hg, by rw [he, ← hkey]⟩)
      refine ⟨l1 ++ g0' :: l2, ⟨?_, ?_, ?_, ?_, ?_, ?_, ?_⟩, ⟨?_, ?_⟩, ⟨?_, ?_⟩⟩
      · show dictSet acc.2.entries (grpPh g0) (bumpEntry (grpEntry g0) vc.1)
            = (l1 ++ g0' :: l2).map (fun g => (grpPh g, grpEntry g))
        rw [hE]
        simp only [List.map_append, List.map_cons]
        rw [dictSet_mid _ _ _ (by rw [mapped_fst]; exact hmidP.1)]
        rfl
      · show acc.2.valueToPlaceholder = (l1 ++ g0' :: l2).map (fun g => (grpKey g, grpPh g))
        rw [hV]
        simp only [List.map_append, List.map_cons, hkg, hpg]
      · show acc.2.counters = buildCounters (l1 ++ g0' :: l2)
        rw [hC]
        exact (buildCountersD_update l1 g0 g0' l2 [] rfl rfl).symm
      · show ((l1 ++ g0' :: l2).map grpKey).Nodup
        simp only [List.map_append, List.map_cons, hkg]
        rw [← List.map_cons, ← List.map_append]
        exact hKnd
      · show ((l1 ++ g0' :: l2).map grpPh).Nodup
        simp only [List.map_append, List.map_cons, hpg]
        rw [← List.map_cons, ← List.map_append]
        exact hPnd
      · intro g hg
        rcases List.mem_append.1 hg with hg1 | hg1
        · exact hvars g (List.mem_append.2 (Or.inl hg1))
        · rcases List.mem_cons.1 hg1 with rfl | hg2
          · exact ⟨setAdd_nodup _ (hvars g0 hg0mem).1, (hvars g0 hg0mem).2⟩
          · exact hvars g (List.mem_append.2 (Or.inr (List.mem_cons_of_mem _ hg2)))
      · exact incrOk_update l1 g0 g0' l2 [] rfl rfl hinc
      · intro g hg
        rcases List.mem_append.1 hg with hg1 | hg1
        · have hne := hl1 g hg1
          have hold := hH1 g (List.mem_append.2 (Or.inl hg1))
          exact histEntry_extend hne hold.1 hold.2.1 hold.2.2
        · rcases List.mem_cons.1 hg1 with rfl | hg2
          · have hold := hH1 g0 hg0mem
            have hpvc : (fun p => decide (normalize p.1 p.2 = grpKey g0)) vc = true := by
              simp only [decide_eq_true_eq]
              exact hkey.symm
            refine ⟨?_, ?_, ?_⟩
            · show g0.occ + 1 =
                (pre ++ [vc]).countP (fun p => normalize p.1 p.2 = grpKey g0')
              simp only [hkg]
              rw [List.countP_append, countP_single_true _ _ (by exact hpvc), ← hold.1]
            · show (pre ++ [vc]).find? (fun p => normalize p.1 p.2 = grpKey g0')
                = some (g0'.canonical, g0'.cat)
              simp only [hkg]
              rw [List.find?_append, hold.2.1]
              rfl
            · intro p hp hk
              rcases List.mem_append.1 hp with hp1 | hp1
              · exact mem_setAdd_of_mem _ (hold.2.2 p hp1 hk)
              · rw [List.mem_singleton.1 hp1]
                exact mem_setAdd_self _ _
          · have hne := hl2ne g hg2
            have hold := hH1 g (List.mem_append.2 (Or.inr (List.mem_cons_of_mem _ hg2)))
            exact histEntry_extend hne hold.1 hold.2.1 hold.2.2
      · intro p hp
        rcases List.mem_append.1 hp with hp1 | hp1
        · obtain ⟨g, hgmem, hgk⟩ := hH2 p hp1
          rcases List.mem_append.1 hgmem with hg1 | hg1
          · exact ⟨g, List.mem_append.2 (Or.inl hg1), hgk⟩
          · rcases List.mem_cons.1 hg1 with rfl | hg2
            · exact ⟨g0', List.mem_append.2 (Or.inr (List.mem_cons_self _ _)), by rw [hkg]; exact hgk⟩
            · exact ⟨g, List.mem_append.2 (Or.inr (List.mem_cons_of_mem _ hg2)), hgk⟩
        · rw [List.mem_singleton.1 hp1]
          exact ⟨g0', List.mem_append.2 (Or.inr (List.mem_cons_self _ _)), by rw [hkg]; exact hkey⟩
      · show (acc.1 ++ [grpPh g0]).length = (pre ++ [vc]).length
        simp [hRlen]
      · intro pr hpr
        rw [List.zip_append hRlen.symm] at hpr
        rcases List.mem_append.1 hpr with hp1 | hp1
        · obtain ⟨g, hgmem, hgk, hgp⟩ := hRz pr hp1
          rcases List.mem_append.1 hgmem with hg1 | hg1
          · exact ⟨g, List.mem_append.2 (Or.inl hg1), hgk, hgp⟩
          · rcases List.mem_cons.1 hg1 with rfl | hg2
            · exact ⟨g0', List.mem_append.2 (Or.inr (List.mem_cons_self _ _)),
                by rw [hkg]; exact hgk, by rw [hpg]; exact hgp⟩
            · exact ⟨g, List.mem_append.2 (Or.inr (List.mem_cons_of_mem _ hg2)), hgk, hgp⟩
        · rw [List.mem_singleton.1 hp1]
          exact ⟨g0', List.mem_append.2 (Or.inr (List.mem_cons_self _ _)),
            by rw [hkg]; exact hkey, hpg.symm⟩
  | none =>
      have hgoc := getOrCreate_new (m := acc.2) hfind
      set gN : Grp :=
        ⟨vc.2, dictGetD acc.2.counters vc.2 0 + 1, vc.1, [vc.1], 1⟩ with hgN
      have hkn : grpKey gN = normalize vc.1 vc.2 := rfl
      have hphn : freshPhOf acc.2 vc.2 = grpPh gN := rfl
      have hknotin : normalize vc.1 vc.2 ∉ grs.map grpKey := by
        rw [hV] at hfind
        have h2 := (dictGet_eq_none_iff _ _).1 hfind
        rw [mapped_fst] at h2
        exact h2
      have hpnotin : grpPh gN ∉ grs.map grpPh := by
        intro hmem
        rcases List.mem_map.1 hmem with ⟨g, hgmem, hgeq⟩
        rcases grpPh_inj hgeq with ⟨hcat, hnum⟩
        have hle := incrOk_num_le grs [] hinc g hgmem
        rw [hcat, hnum] at hle
        have hle2 : dictGetD acc.2.counters vc.2 0 + 1
            ≤ dictGetD (buildCounters grs) vc.2 0 := hle
        rw [← hC] at hle2
        omega
      have hnocall : ∀ p ∈ pre, ¬ (normalize p.1 p.2 = grpKey gN) := by
        intro p hp he
        obtain ⟨g, hgmem, hgk⟩ := hH2 p hp
        exact hknotin (by rw [← hkn, ← he, ← hgk]; exact List.mem_map.2 ⟨g, hgmem, rfl⟩)
      have hstep : callsStep acc vc =
          (acc.1 ++ [grpPh gN],
           { acc.2 with
              entries := dictSet acc.2.entries (grpPh gN) (grpEntry gN),
              valueToPlaceholder :=
                dictSet acc.2.valueToPlaceholder (normalize vc.1 vc.2) (grpPh gN),
              counters := dictSet acc.2.counters vc.2 (dictGetD acc.2.counters vc.2 0 + 1) }) := by
        unfold callsStep
        rw [hgoc]
        rfl
      rw [hstep]
      refine ⟨grs ++ [gN], ⟨?_, ?_, ?_, ?_, ?_, ?_, ?_⟩, ⟨?_, ?_⟩, ⟨?_, ?_⟩⟩
      · show dictSet acc.2.entries (grpPh gN) (grpEntry gN)
            = (grs ++ [gN]).map (fun g => (grpPh g, grpEntry g))
        rw [hE, dictSet_of_not_mem _ (by rw [mapped_fst]; exact hpnotin), List.map_append]
        rfl
      · show dictSet acc.2.valueToPlaceholder (normalize vc.1 vc.2) (grpPh gN)
            = (grs ++ [gN]).map (fun g => (grpKey g, grpPh g))
        rw [hV, dictSet_of_not_mem _ (by rw [mapped_fst]; exact hknotin), List.map_append]
        rfl
      · show dictSet acc.2.counters vc.2 (dictGetD acc.2.counters vc.2 0 + 1)
            = buildCounters (grs ++ [gN])
        have h2 : buildCounters (grs ++ [gN]) = dictSet (buildCounters grs) gN.cat gN.num :=
          buildCountersD_append grs gN []
        rw [h2, ← hC]
      · rw [List.map_append]
        exact nodup_snoc hKnd (fun hm => hknotin (hkn ▸ hm))
      · rw [List.map_append]
        exact nodup_snoc hPnd (fun hm => hpnotin hm)
      · intro g hg
        rcases List.mem_append.1 hg with hg1 | hg1
        · exact hvars g hg1
        · rw [List.mem_singleton.1 hg1]
          exact ⟨List.nodup_singleton _, by show 1 ≤ dictGetD acc.2.counters vc.2 0 + 1; omega⟩
      · refine incrOk_append_one grs [] gN hinc ?_
        show dictGetD acc.2.counters vc.2 0 + 1 = dictGetD (buildCounters grs) vc.2 0 + 1
        rw [← hC]
      · intro g hg
        rcases List.mem_append.1 hg with hg1 | hg1
        · have hne : grpKey g ≠ normalize vc.1 vc.2 := by
            intro he
            exact hknotin (he ▸ List.mem_map.2 ⟨g, hg1, rfl⟩)
          have hold := hH1 g hg1
          exact histEntry_extend hne hold.1 hold.2.1 hold.2.2
        · rw [List.mem_singleton.1 hg1]
          have hpvc : (fun p => decide (normalize p.1 p.2 = grpKey gN)) vc = true := by
            simp only [decide_eq_true_eq]
            exact hkn.symm
          refine ⟨?_, ?_, ?_⟩
          · show 1 = (pre ++ [vc]).countP (fun p => normalize p.1 p.2 = grpKey gN)
            rw [List.countP_append, countP_single_true _ _ (by exact hpvc),
              List.countP_eq_zero.2 (by
                intro p hp
                simp only [decide_eq_true_eq]
                exact hnocall p hp)]
          · show (pre ++ [vc]).find? (fun p => normalize p.1 p.2 = grpKey gN)
              = some (gN.canonical, gN.cat)
            rw [List.find?_append, List.find?_eq_none.2 (by
                intro p hp
                simp only [decide_eq_true_eq]
                exact hnocall p hp),
              List.find?_cons_of_pos _ (by exact hpvc)]
            rfl
          · intro p hp hk
            rcases List.mem_append.1 hp with hp1 | hp1
            · exact absurd hk (hnocall p hp1)
            · rw [List.mem_singleton.1 hp1]
              show vc.1 ∈ [vc.1]
              exact List.mem_singleton.2 rfl
      · intro p hp
        rcases List.mem_append.1 hp with hp1 | hp1
        · obtain ⟨g, hgmem, hgk⟩ := hH2 p hp1
          exact ⟨g, List.mem_append.2 (Or.inl hgmem), hgk⟩
        · rw [List.mem_singleton.1 hp1]
          exact ⟨gN, List.mem_append.2 (Or.inr (List.mem_singleton.2 rfl)), hkn⟩
      · show (acc.1 ++ [grpPh gN]).length = (pre ++ [vc]).length
        simp [hRlen]
      · intro pr hpr
        rw [List.zip_append hRlen.symm] at hpr
        rcases List.mem_append.1 hpr with hp1 | hp1
        · obtain ⟨g, hgmem, hgk, hgp⟩ := hRz pr hp1
          exact ⟨g, List.mem_append.2 (Or.inl hgmem), hgk, hgp⟩
        · rw [List.mem_singleton.1 hp1]
          exact ⟨gN, List.mem_append.2 (Or.inr (List.mem_singleton.2 rfl)), hkn, rfl⟩

theorem runCallsP_inv : ∀ (calls pre : List (Str × Str)) (acc : List Str × MState),
    FullInv pre acc → FullInv (pre ++ calls) (calls.foldl callsStep acc) := by
  intro calls
  induction calls with
  | nil =>
      intro pre acc h
      simpa using h
  | cons vc rest ih =>
      intro pre acc h
      rw [List.foldl_cons]
      have h3 := ih (pre ++ [vc]) (callsStep acc vc) (callsStep_inv h vc)
      rw [List.append_assoc] at h3
      exact h3

theorem fullInv_init (created : Str) : FullInv [] ([], mappingInit created) := by
  refine ⟨[], ⟨rfl, rfl, rfl, List.nodup_nil, List.nodup_nil, ?_, trivial⟩,
    ⟨?_, ?_⟩, ⟨rfl, ?_⟩⟩
  · intro g hg; cases hg
  · intro g hg; cases hg
  · intro vc h2; cases h2
  · intro pr h2; cases h2

theorem runCalls_inv (created : Str) (calls : List (Str × Str)) :
    FullInv calls (runCallsP created calls) := by
  have h := runCallsP_inv calls [] ([], mappingInit created) (fullInv_init created)
  simpa using h

/-- The `Mapping.load` loop rebuilds the represented state, group by group. -/
theorem loadDict_fold : ∀ (grs pre : List Grp) (s : MState),
    s.entries = pre.map (fun g => (grpPh g, grpEntry g)) →
    s.valueToPlaceholder = pre.map (fun g => (grpKey g, grpPh g)) →
    s.counters = buildCounters pre →
    ((pre ++ grs).map grpKey).Nodup →
    ((pre ++ grs).map grpPh).Nodup →
    (∀ g ∈ grs, g.vars.Nodup) →
    incrOk grs (buildCounters pre) →
    (grs.map (fun g => (grpPh g,
        ({ canonical := g.canonical, variations := g.vars,
           occurrences := g.occ } : EntryDict)))).foldl loadStep s
      = { entries := (pre ++ grs).map (fun g => (grpPh g, grpEntry g)),
          valueToPlaceholder := (pre ++ grs).map (fun g => (grpKey g, grpPh g)),
          counters := buildCounters (pre ++ grs),
          created := s.created, version := s.version } := by
  intro grs
  induction grs with
  | nil =>
      intro pre s hE hV hC _ _ _ _
      simp only [List.map_nil, List.foldl_nil, List.append_nil]
      cases s with
      | mk e vtp cnt cr ver =>
          have hE2 : e = pre.map (fun g => (grpPh g, grpEntry g)) := hE
          have hV2 : vtp = pre.map (fun g => (grpKey g, grpPh g)) := hV
          have hC2 : cnt = buildCounters pre := hC
          rw [hE2, hV2, hC2]
  | cons g rest ih =>
      intro pre s hE hV hC hKnd hPnd hvars hinc
      rw [List.map_cons, List.foldl_cons]
      have hKnd2 : ((pre.map grpKey) ++ grpKey g :: (rest.map grpKey)).Nodup := by
        rw [← List.map_cons, ← List.map_append]; exact hKnd
      have hPnd2 : ((pre.map grpPh) ++ grpPh g :: (rest.map grpPh)).Nodup := by
        rw [← List.map_cons, ← List.map_append]; exact hPnd
      have hmidK := nodup_mid hKnd2
      have hmidP := nodup_mid hPnd2
      have hstep1 : loadStep s (grpPh g,
          ({ canonical := g.canonical, variations := g.vars,
             occurrences := g.occ } : EntryDict))
          = { s with
              entries := dictSet s.entries (grpPh g) (grpEntry g),
              valueToPlaceholder := dictSet s.valueToPlaceholder (grpKey g) (grpPh g),
              counters := dictSet s.counters g.cat (Nat.max (dictGetD s.counters g.cat 0) g.num) } := by
        simp only [loadStep, grpPh_head, grpPh_tail, pyInt_pad3,
          setOfList_fix (hvars g (List.mem_cons_self _ _))]
        rfl
      rw [hstep1]
      have hE1 : dictSet s.entries (grpPh g) (grpEntry g)
          = (pre ++ [g]).map (fun g => (grpPh g, grpEntry g)) := by
        rw [hE, dictSet_of_not_mem _ (by rw [mapped_fst]; exact hmidP.1), List.map_append]
        rfl
      have hV1 : dictSet s.valueToPlaceholder (grpKey g) (grpPh g)
          = (pre ++ [g]).map (fun g => (grpKey g, grpPh g)) := by
        rw [hV, dictSet_of_not_mem _ (by rw [mapped_fst]; exact hmidK.1), List.map_append]
        rfl
      have hbc : buildCounters (pre ++ [g]) = dictSet (buildCounters pre) g.cat g.num :=
        buildCountersD_append pre g []
      have hC1 : dictSet s.counters g.cat (Nat.max (dictGetD s.counters g.cat 0) g.num)
          = buildCounters (pre ++ [g]) := by
        rw [hC]
        have hmx : Nat.max (dictGetD (buildCounters pre) g.cat 0) g.num = g.num := by
          have h2 := hinc.1
          show max (dictGetD (buildCounters pre) g.cat 0) g.num = g.num
          omega
        rw [hmx, hbc]
      have hres := ih (pre ++ [g])
        ({ s with
            entries := dictSet s.entries (grpPh g) (grpEntry g),
            valueToPlaceholder := dictSet s.valueToPlaceholder (grpKey g) (grpPh g),
            counters := dictSet s.counters g.cat (Nat.max (dictGetD s.counters g.cat 0) g.num) })
        hE1 hV1 hC1
        (by rw [List.append_assoc]; exact hKnd)
        (by rw [List.append_assoc]; exact hPnd)
        (fun g' hg' => hvars g' (List.mem_cons_of_mem _ hg'))
        (by rw [hbc]; exact hinc.2)
      rw [hres, List.append_assoc]
      rfl

/-- `Mapping.load` of `Mapping.to_dict` is the identity on reachable states. -/
theorem loadDict_toDict {m : MState} {grs : List Grp} (h : GrpsOk m grs) :
    loadDict (toDict m) = m := by
  obtain ⟨hE, hV, hC, hKnd, hPnd, hvars, hinc⟩ := h
  have hmap : (toDict m).mappings
      = grs.map (fun g => (grpPh g,
          ({ canonical := g.canonical, variations := g.vars,
             occurrences := g.occ } : EntryDict))) := by
    show m.entries.map _ = _
    rw [hE, List.map_map]
    rfl
  unfold loadDict
  rw [hmap]
  have h0 := loadDict_fold grs []
    { entries := [], valueToPlaceholder := [], counters := [],
      created := (toDict m).created, version := (toDict m).version }
    rfl rfl rfl (by simpa using hKnd) (by simpa using hPnd)
    (fun g hg => (hvars g hg).1) hinc
  rw [h0]
  simp only [List.nil_append]
  rw [← hE, ← hV, ← hC]
  rfl

/-! ## Lemmas: capture spans and character shapes -/

theorem ccNoWs_sound {cc : CClass} {c : Char} (h : ccNoWs cc = true)
    (hm : ccMatch cc c = true) : isPyWs c = false := by
  rw [← Bool.not_eq_true]
  intro hws
  rcases List.any_eq_true.1 hm with ⟨r, hr, hrc⟩
  have h2 := List.all_eq_true.1 h r hr
  rw [Bool.not_eq_true'] at h2
  have hcontra : ([' ', '\t', '\n', '\x0b', '\x0c', '\x0d'].any
      (fun w => r.1 ≤ w && w ≤ r.2)) = true := by
    rcases (isPyWs_iff c).1 hws with h3 | h3 | h3 | h3 | h3 | h3
    · have hc : c = ' ' := charEq_of_toNat h3
      subst hc
      exact List.any_eq_true.2 ⟨' ', by decide, hrc⟩
    · have hc : c = '\t' := charEq_of_toNat h3
      subst hc
      exact List.any_eq_true.2 ⟨'\t', by decide, hrc⟩
    · have hc : c = '\n' := charEq_of_toNat h3
      subst hc
      exact List.any_eq_true.2 ⟨'\n', by decide, hrc⟩
    · have hc : c = '\x0d' := charEq_of_toNat h3
      subst hc
      exact List.any_eq_true.2 ⟨'\x0d', by decide, hrc⟩
    · have hc : c = '\x0c' := charEq_of_toNat h3
      subst hc
      exact List.any_eq_true.2 ⟨'\x0c', by decide, hrc⟩
    · have hc : c = '\x0b' := charEq_of_toNat h3
      subst hc
      exact List.any_eq_true.2 ⟨'\x0b', by decide, hrc⟩
  rw [h2] at hcontra
  exact Bool.noConfusion hcontra

theorem neverEmpty_sound (s : Str) (fuel : Nat) : ∀ re, neverEmpty re = true →
    ∀ i, i ≤ s.length → ∀ p ∈ matchEnds s fuel re i, i < p.1 := by
  intro re
  induction re with
  | eps =>
      intro h i hi p hp
      simp only [neverEmpty] at h
      exact Bool.noConfusion h
  | cls cc =>
      intro _ i _ p hp
      simp only [matchEnds] at hp
      cases hg : s.get? i with
      | none => rw [hg] at hp; cases hp
      | some d =>
          rw [hg] at hp
          have hp2 : p ∈ (if ccMatch cc d = true
              then [((i + 1 : Nat), (none : Option (Nat × Nat)))]
              else ([] : List MRes)) := hp
          by_cases hcm : ccMatch cc d = true
          · rw [if_pos hcm] at hp2
            rw [List.mem_singleton.1 hp2]
            exact Nat.lt_succ_self i
          · rw [if_neg hcm] at hp2; cases hp2
  | cat a b iha ihb =>
      intro h i hi p hp
      simp only [neverEmpty, Bool.or_eq_true] at h
      simp only [matchEnds] at hp
      rcases List.mem_flatMap.1 hp with ⟨q, hq, hp2⟩
      rcases List.mem_map.1 hp2 with ⟨r, hr, rfl⟩
      have hqb := matchEnds_bounds s fuel a i hi q hq
      have hrb := matchEnds_bounds s fuel b q.1 hqb.2 r hr
      show i < r.1
      rcases h with ha | hb
      · have h2 := iha ha i hi q hq
        omega
      · have h2 := ihb hb q.1 hqb.2 r hr
        omega
  | alt a b iha ihb =>
      intro h i hi p hp
      simp only [neverEmpty, Bool.and_eq_true] at h
      simp only [matchEnds, List.mem_append] at hp
      rcases hp with hp | hp
      · exact iha h.1 i hi p hp
      · exact ihb h.2 i hi p hp
  | star a iha =>
      intro h i hi p hp
      simp only [neverEmpty] at h
      exact Bool.noConfusion h
  | wordB =>
      intro h i hi p hp
      simp only [neverEmpty] at h
      exact Bool.noConfusion h
  | nla a iha =>
      intro h i hi p hp
      simp only [neverEmpty] at h
      exact Bool.noConfusion h
  | grp a iha =>
      intro h i hi p hp
      simp only [neverEmpty] at h
      simp only [matchEnds] at hp
      rcases List.mem_map.1 hp with ⟨r, hr, rfl⟩
      exact iha h i hi r hr

theorem firstNoWs_sound (s : Str) (fuel : Nat) : ∀ re, firstNoWs re = true →
    ∀ i, i ≤ s.length → ∀ p ∈ matchEnds s fuel re i,
      i < p.1 ∧ ∃ c, s.get? i = some c ∧ isPyWs c = false := by
  intro re
  induction re with
  | eps =>
      intro h i hi p hp
      simp only [firstNoWs] at h
      exact Bool.noConfusion h
  | cls cc =>
      intro h i _ p hp
      simp only [firstNoWs] at h
      simp only [matchEnds] at hp
      cases hg : s.get? i with
      | none => rw [hg] at hp; cases hp
      | some d =>
          rw [hg] at hp
          have hp2 : p ∈ (if ccMatch cc d = true
              then [((i + 1 : Nat), (none : Option (Nat × Nat)))]
              else ([] : List MRes)) := hp
          by_cases hcm : ccMatch cc d = true
          · rw [if_pos hcm] at hp2
            rw [List.mem_singleton.1 hp2]
            exact ⟨Nat.lt_succ_self i, d, rfl, ccNoWs_sound h hcm⟩
          · rw [if_neg hcm] at hp2; cases hp2
  | cat a b iha ihb =>
      intro h i hi p hp
      simp only [firstNoWs] at h
      simp only [matchEnds] at hp
      rcases List.mem_flatMap.1 hp with ⟨q, hq, hp2⟩
      rcases List.mem_map.1 hp2 with ⟨r, hr, rfl⟩
      have hqb := matchEnds_bounds s fuel a i hi q hq
      have hrb := matchEnds_bounds s fuel b q.1 hqb.2 r hr
      have h2 := iha h i hi q hq
      exact ⟨by show i < r.1; omega, h2.2⟩
  | alt a b iha ihb =>
      intro h i hi p hp
      simp only [firstNoWs, Bool.and_eq_true] at h
      simp only [matchEnds, List.mem_append] at hp
      rcases hp with hp | hp
      · exact iha h.1 i hi p hp
      · exact ihb h.2 i hi p hp
  | star a iha =>
      intro h i hi p hp
      simp only [firstNoWs] at h
      exact Bool.noConfusion h
  | wordB =>
      intro h i hi p hp
      simp only [firstNoWs] at h
      exact Bool.noConfusion h
  | nla a iha =>
      intro h i hi p hp
      simp only [firstNoWs] at h
      exact Bool.noConfusion h
  | grp a iha =>
      intro h i hi p hp
      simp only [firstNoWs] at h
      simp only [matchEnds] at hp
      rcases List.mem_map.1 hp with ⟨r, hr, rfl⟩
      have h2 := iha h i hi r hr
      exact ⟨h2.1, h2.2⟩

theorem starEnds_lastChar {s : Str} {body : Nat → List MRes}
    (hb : ∀ j, j ≤ s.length → ∀ q ∈ body j, j ≤ q.1 ∧ q.1 ≤ s.length ∧
      (q.1 = j ∨ ∃ c, s.get? (q.1 - 1) = some c ∧ isPyWs c = false)) :
    ∀ fuel i, i ≤ s.length → ∀ p ∈ starEnds body fuel i,
      p.1 = i ∨ ∃ c, s.get? (p.1 - 1) = some c ∧ isPyWs c = false := by
  intro fuel
  induction fuel with
  | zero =>
      intro i hi p hp
      simp only [starEnds] at hp
      rw [List.mem_singleton.1 hp]
      exact Or.inl rfl
  | succ fuel ih =>
      intro i hi p hp
      simp only [starEnds] at hp
      rcases List.mem_append.1 hp with hp1 | hp1
      · rcases List.mem_flatMap.1 hp1 with ⟨q, hq, hp2⟩
        have hp3 : p ∈ (if i < q.1 then
            (starEnds body fuel q.1).map (fun r => (r.1, mergeCap r.2 q.2)) else []) := hp2
        split at hp3
        · rename_i hiq
          rcases List.mem_map.1 hp3 with ⟨r, hr, rfl⟩
          have hqb := hb i hi q hq
          have h2 := ih q.1 hqb.2.1 r hr
          rcases h2 with h2 | h2
          · rcases hqb.2.2 with h3 | h3
            · exact absurd h3 (by omega)
            · refine Or.inr ?_
              show ∃ c, s.get? (r.1 - 1) = some c ∧ isPyWs c = false
              rw [h2]
              exact h3
          · refine Or.inr ?_
            show ∃ c, s.get? (r.1 - 1) = some c ∧ isPyWs c = false
            exact h2
        · cases hp3
      · rw [List.mem_singleton.1 hp1]
        exact Or.inl rfl

theorem lastNoWsE_sound (s : Str) (fuel : Nat) : ∀ re, lastNoWsE re = true →
    ∀ i, i ≤ s.length → ∀ p ∈ matchEnds s fuel re i,
      p.1 = i ∨ ∃ c, s.get? (p.1 - 1) = some c ∧ isPyWs c = false := by
  intro re
  induction re with
  | eps =>
      intro _ i hi p hp
      simp only [matchEnds] at hp
      rw [List.mem_singleton.1 hp]
      exact Or.inl rfl
  | cls cc =>
      intro h i _ p hp
      simp only [lastNoWsE] at h
      simp only [matchEnds] at hp
      cases hg : s.get? i with
      | none => rw [hg] at hp; cases hp
      | some d =>
          rw [hg] at hp
          have hp2 : p ∈ (if ccMatch cc d = true
              then [((i + 1 : Nat), (none : Option (Nat × Nat)))]
              else ([] : List MRes)) := hp
          by_cases hcm : ccMatch cc d = true
          · rw [if_pos hcm] at hp2
            rw [List.mem_singleton.1 hp2]
            refine Or.inr ⟨d, ?_, ccNoWs_sound h hcm⟩
            show s.get? (i + 1 - 1) = some d
            rw [Nat.add_sub_cancel]
            exact hg
          · rw [if_neg hcm] at hp2; cases hp2
  | cat a b iha ihb =>
      intro h i hi p hp
      simp only [lastNoWsE, Bool.and_eq_true, Bool.or_eq_true] at h
      simp only [matchEnds] at hp
      rcases List.mem_flatMap.1 hp with ⟨q, hq, hp2⟩
      rcases List.mem_map.1 hp2 with ⟨r, hr, rfl⟩
      have hqb := matchEnds_bounds s fuel a i hi q hq
      have h2 := ihb h.1 q.1 hqb.2 r hr
      rcases h2 with h2 | h2
      · rcases h.2 with hne | hla
        · exact absurd (neverEmpty_sound s fuel b hne q.1 hqb.2 r hr) (by omega)
        · have h3 := iha hla i hi q hq
          rcases h3 with h3 | h3
          · exact Or.inl (by show r.1 = i; omega)
          · refine Or.inr ?_
            show ∃ c, s.get? (r.1 - 1) = some c ∧ isPyWs c = false
            rw [h2]
            exact h3
      · refine Or.inr ?_
        show ∃ c, s.get? (r.1 - 1) = some c ∧ isPyWs c = false
        exact h2
  | alt a b iha ihb =>
      intro h i hi p hp
      simp only [lastNoWsE, Bool.and_eq_true] at h
      simp only [matchEnds, List.mem_append] at hp
      rcases hp with hp | hp
      · exact iha h.1 i hi p hp
      · exact ihb h.2 i hi p hp
  | star a iha =>
      intro h i hi p hp
      simp only [lastNoWsE] at h
      simp only [matchEnds] at hp
      refine starEnds_lastChar (fun j hj q hq => ?_) fuel i hi p hp
      have hb := matchEnds_bounds s fuel a j hj q hq
      exact ⟨hb.1, hb.2, iha h j hj q hq⟩
  | wordB =>
      intro _ i hi p hp
      simp only [matchEnds] at hp
      split at hp
      · rw [List.mem_singleton.1 hp]
        exact Or.inl rfl
      · cases hp
  | nla a iha =>
      intro _ i hi p hp
      simp only [matchEnds] at hp
      split at hp
      · rw [List.mem_singleton.1 hp]
        exact Or.inl rfl
      · cases hp
  | grp a iha =>
      intro h i hi p hp
      simp only [lastNoWsE] at h
      simp only [matchEnds] at hp
      rcases List.mem_map.1 hp with ⟨r, hr, rfl⟩
      rcases iha h i hi r hr with h2 | h2
      · exact Or.inl h2
      · exact Or.inr h2

theorem starEnds_cap_bounds {s : Str} {body : Nat → List MRes}
    (hb1 : ∀ j, j ≤ s.length → ∀ q ∈ body j, j ≤ q.1 ∧ q.1 ≤ s.length)
    (hb2 : ∀ j, j ≤ s.length → ∀ q ∈ body j, ∀ cap, q.2 = some cap →
      j ≤ cap.1 ∧ cap.1 ≤ cap.2 ∧ cap.2 ≤ q.1) :
    ∀ fuel i, i ≤ s.length → ∀ p ∈ starEnds body fuel i, ∀ cap, p.2 = some cap →
      i ≤ cap.1 ∧ cap.1 ≤ cap.2 ∧ cap.2 ≤ p.1 := by
  intro fuel
  induction fuel with
  | zero =>
      intro i hi p hp cap hcap
      simp only [starEnds] at hp
      rw [List.mem_singleton.1 hp] at hcap
      exact Option.noConfusion hcap
  | succ fuel ih =>
      intro i hi p hp cap hcap
      simp only [starEnds] at hp
      rcases List.mem_append.1 hp with hp1 | hp1
      · rcases List.mem_flatMap.1 hp1 with ⟨q, hq, hp2⟩
        have hp3 : p ∈ (if i < q.1 then
            (starEnds body fuel q.1).map (fun r => (r.1, mergeCap r.2 q.2)) else []) := hp2
        split at hp3
        · rename_i hiq
          rcases List.mem_map.1 hp3 with ⟨r, hr, rfl⟩
          have hqb := hb1 i hi q hq
          have hrb := starEnds_bounds hb1 fuel q.1 hqb.2 r hr
          have hcap2 : mergeCap r.2 q.2 = some cap := hcap
          cases hr2 : r.2 with
          | some v =>
              rw [hr2] at hcap2
              have hcap3 : some v = some cap := hcap2
              have hv : v = cap := by injection hcap3
              subst hv
              have h2 := ih q.1 hqb.2 r hr v hr2
              exact ⟨by omega, h2.2.1, by show v.2 ≤ r.1; omega⟩
          | none =>
              rw [hr2] at hcap2
              have hcap3 : q.2 = some cap := hcap2
              have h2 := hb2 i hi q hq cap hcap3
              exact ⟨h2.1, h2.2.1, by show cap.2 ≤ r.1; omega⟩
        · cases hp3
      · rw [List.mem_singleton.1 hp1] at hcap
        exact Option.noConfusion hcap

theorem matchEnds_cap_bounds (s : Str) (fuel : Nat) : ∀ re, ∀ i, i ≤ s.length →
    ∀ p ∈ matchEnds s fuel re i, ∀ cap, p.2 = some cap →
      i ≤ cap.1 ∧ cap.1 ≤ cap.2 ∧ cap.2 ≤ p.1 := by
  intro re
  induction re with
  | eps =>
      intro i hi p hp cap hcap
      simp only [matchEnds] at hp
      rw [List.mem_singleton.1 hp] at hcap
      exact Option.noConfusion hcap
  | cls cc =>
      intro i _ p hp cap hcap
      simp only [matchEnds] at hp
      cases hg : s.get? i with
      | none => rw [hg] at hp; cases hp
      | some d =>
          rw [hg] at hp
          have hp2 : p ∈ (if ccMatch cc d = true
              then [((i + 1 : Nat), (none : Option (Nat × Nat)))]
              else ([] : List MRes)) := hp
          by_cases hcm : ccMatch cc d = true
          · rw [if_pos hcm] at hp2
            rw [List.mem_singleton.1 hp2] at hcap
            exact Option.noConfusion hcap
          · rw [if_neg hcm] at hp2; cases hp2
  | cat a b iha ihb =>
      intro i hi p hp cap hcap
      simp only [matchEnds] at hp
      rcases List.mem_flatMap.1 hp with ⟨q, hq, hp2⟩
      rcases List.mem_map.1 hp2 with ⟨r, hr, rfl⟩
      have hqb := matchEnds_bounds s fuel a i hi q hq
      have hrb := matchEnds_bounds s fuel b q.1 hqb.2 r hr
      have hcap2 : mergeCap q.2 r.2 = some cap := hcap
      cases hq2 : q.2 with
      | some v =>
          rw [hq2] at hcap2
          have hcap3 : some v = some cap := hcap2
          have hv : v = cap := by injection hcap3
          subst hv
          have h2 := iha i hi q hq v hq2
          exact ⟨h2.1, h2.2.1, by show v.2 ≤ r.1; omega⟩
      | none =>
          rw [hq2] at hcap2
          have hcap3 : r.2 = some cap := hcap2
          have h2 := ihb q.1 hqb.2 r hr cap hcap3
          exact ⟨by omega, h2.2.1, h2.2.2⟩
  | alt a b iha ihb =>
      intro i hi p hp cap hcap
      simp only [matchEnds, List.mem_append] at hp
      rcases hp with hp | hp
      · exact iha i hi p hp cap hcap
      · exact ihb i hi p hp cap hcap
  | star a iha =>
      intro i hi p hp cap hcap
      simp only [matchEnds] at hp
      exact starEnds_cap_bounds (fun j hj => matchEnds_bounds s fuel a j hj)
        (fun j hj => iha j hj) fuel i hi p hp cap hcap
  | wordB =>
      intro i hi p hp cap hcap
      simp only [matchEnds] at hp
      split at hp
      · rw [List.mem_singleton.1 hp] at hcap
        exact Option.noConfusion hcap
      · cases hp
  | nla a iha =>
      intro i hi p hp cap hcap
      simp only [matchEnds] at hp
      split at hp
      · rw [List.mem_singleton.1 hp] at hcap
        exact Option.noConfusion hcap
      · cases hp
  | grp a iha =>
      intro i hi p hp cap hcap
      simp only [matchEnds] at hp
      rcases List.mem_map.1 hp with ⟨r, hr, rfl⟩
      have hcap3 : some ((i, r.1) : Nat × Nat) = some cap := hcap
      have hv : (i, r.1) = cap := by injection hcap3
      have hb := matchEnds_bounds s fuel a i hi r hr
      rw [← hv]
      exact ⟨Nat.le_refl i, hb.1, Nat.le_refl _⟩

/-- In `cat (grp A) B` every recorded capture is the span of `A` starting at
the match start. -/
theorem cap_head_cat_grp (s : Str) (fuel : Nat) (A B : RE) :
    ∀ i, i ≤ s.length → ∀ p ∈ matchEnds s fuel (.cat (.grp A) B) i,
    ∀ cap, p.2 = some cap →
      cap.1 = i ∧ ∃ q ∈ matchEnds s fuel A i, cap.2 = q.1 ∧ q.1 ≤ p.1 := by
  intro i hi p hp cap hcap
  simp only [matchEnds] at hp
  rcases List.mem_flatMap.1 hp with ⟨q, hq, hp2⟩
  rcases List.mem_map.1 hp2 with ⟨r, hr, rfl⟩
  rcases List.mem_map.1 hq with ⟨q0, hq0, rfl⟩
  have hcap2 : mergeCap (some (i, q0.1)) r.2 = some cap := hcap
  have hcap3 : some ((i, q0.1) : Nat × Nat) = some cap := hcap2
  have hv : (i, q0.1) = cap := by injection hcap3
  have hq0b := matchEnds_bounds s fuel A i hi q0 hq0
  have hrb := matchEnds_bounds s fuel B q0.1 hq0b.2 r hr
  rw [← hv]
  exact ⟨rfl, q0, hq0, rfl, by show q0.1 ≤ r.1; omega⟩

/-- A leading zero-width word boundary does not change the matches. -/
theorem matchEnds_cat_wordB (s : Str) (fuel : Nat) (X : RE) :
    ∀ i p, p ∈ matchEnds s fuel (.cat .wordB X) i → p ∈ matchEnds s fuel X i := by
  intro i p hp
  simp only [matchEnds] at hp
  rcases List.mem_flatMap.1 hp with ⟨q, hq, hp2⟩
  have hq2 : q ∈ (if isBoundary s i then [((i, none) : MRes)] else []) := hq
  split at hq2
  · rw [List.mem_singleton.1 hq2] at hp2
    rcases List.mem_map.1 hp2 with ⟨r, hr, rfl⟩
    exact (show ((r.1, mergeCap (none : Option (Nat × Nat)) r.2) : MRes) = r from rfl) ▸ hr
  · cases hq2

/-- The full capture-shape fact used by the name detectors. -/
theorem capShape_cat_grp (s : Str) (fuel : Nat) (A B : RE)
    (hf : firstNoWs A = true) (hl : lastNoWsE A = true) :
    ∀ i, i ≤ s.length → ∀ p ∈ matchEnds s fuel (.cat (.grp A) B) i,
    ∀ cap, p.2 = some cap →
      cap.1 = i ∧ i < cap.2 ∧ cap.2 ≤ p.1 ∧
      (∃ c, s.get? i = some c ∧ isPyWs c = false) ∧
      (∃ c, s.get? (cap.2 - 1) = some c ∧ isPyWs c = false) := by
  intro i hi p hp cap hcap
  obtain ⟨hc1, q, hq, hc2, hqp⟩ := cap_head_cat_grp s fuel A B i hi p hp cap hcap
  have hfst := firstNoWs_sound s fuel A hf i hi q hq
  have hlst := lastNoWsE_sound s fuel A hl i hi q hq
  rcases hlst with hlst | hlst
  · exact absurd hlst (by omega)
  · exact ⟨hc1, by omega, by omega, hfst.2, by rw [hc2]; exact hlst⟩

theorem slice_length {s : Str} {a b : Nat} (h : b ≤ s.length) :
    (slice s a b).length = b - a := by
  unfold slice
  rw [List.length_drop, List.length_take]
  omega

theorem slice_get {s : Str} {a b k : Nat} (h : a + k < b) :
    (slice s a b).get? k = s.get? (a + k) := by
  unfold slice
  rw [List.get?_drop, List.get?_take (by omega)]

theorem slice_head {s : Str} {a b : Nat} (h1 : a < b) (h2 : b ≤ s.length) :
    (slice s a b).head? = s.get? a := by
  have h3 : (slice s a b).head? = (slice s a b).get? 0 := by
    cases hs : slice s a b <;> rfl
  rw [h3, slice_get (show a + 0 < b by omega), Nat.add_zero]

theorem slice_getLast {s : Str} {a b : Nat} (h1 : a < b) (h2 : b ≤ s.length) :
    (slice s a b).getLast? = s.get? (b - 1) := by
  have hl : (slice s a b).length = b - a := slice_length h2
  rw [List.getLast?_eq_getElem?, ← List.get?_eq_getElem?, hl,
    slice_get (show a + (b - a - 1) < b by omega)]
  congr 1
  omega

theorem pyStrip_noop {g : Str}
    (h1 : ∀ c, g.head? = some c → isPyWs c = false)
    (h2 : ∀ c, g.getLast? = some c → isPyWs c = false) :
    pyStrip g = g := by
  unfold pyStrip dropWhileWs
  have hinner : List.dropWhile (fun c => isPyWs c) g.reverse = g.reverse :=
    dw_fix (fun c hc => h2 c (by rwa [List.head?_reverse] at hc))
  rw [hinner, List.reverse_reverse, dw_fix h1]

theorem slice_slice {s : Str} {a b x y : Nat} (hay : a + y ≤ b) :
    slice (slice s a b) x y = slice s (a + x) (a + y) := by
  unfold slice
  have h1 : List.drop a (List.take (a + y) (List.take b s))
      = List.take y (List.drop a (List.take b s)) := by
    rw [List.drop_take]
    congr 1
    omega
  rw [← h1, List.take_take, Nat.min_eq_left hay, List.drop_drop]

theorem pyIndex_found {needle haystack : Str} {k : Nat}
    (hkle : k + needle.length ≤ haystack.length)
    (hocc : slice haystack k (k + needle.length) = needle) :
    pyIndex needle haystack + needle.length ≤ haystack.length ∧
    slice haystack (pyIndex needle haystack)
      (pyIndex needle haystack + needle.length) = needle := by
  have hpk : listStarts needle (haystack.drop k) = true := by
    unfold listStarts
    rw [List.isPrefixOf_iff_prefix]
    refine ⟨haystack.drop (k + needle.length), ?_⟩
    have hsplit : haystack.drop k
        = slice haystack k (k + needle.length) ++ haystack.drop (k + needle.length) := by
      show _ = (haystack.take (k + needle.length)).drop k ++ _
      conv_lhs => rw [← List.take_append_drop (k + needle.length) haystack]
      rw [List.drop_append_of_le_length (by rw [List.length_take]; omega)]
    rw [hsplit, hocc]
  cases hf : (List.range (haystack.length + 1)).find?
      (fun i => listStarts needle (haystack.drop i)) with
  | none =>
      exact absurd hpk (List.find?_eq_none.1 hf k (List.mem_range.2 (by omega)))
  | some i0 =>
      have hp0 : listStarts needle (haystack.drop i0) = true := by
        have h2 := List.find?_some hf
        simpa using h2
      have hi0 : i0 < haystack.length + 1 := List.mem_range.1 (List.mem_of_find?_eq_some hf)
      rw [listStarts, List.isPrefixOf_iff_prefix] at hp0
      obtain ⟨t, ht⟩ := hp0
      have hlen : needle.length + t.length = haystack.length - i0 := by
        have h3 := congrArg List.length ht
        rw [List.length_append, List.length_drop] at h3
        omega
      have hslice : slice haystack i0 (i0 + needle.length) = needle := by
        show (haystack.take (i0 + needle.length)).drop i0 = needle
        rw [List.drop_take]
        have h4 : i0 + needle.length - i0 = needle.length := by omega
        rw [h4, ← ht, List.take_left]
      unfold pyIndex
      rw [hf]
      show i0 + needle.length ≤ haystack.length ∧
        slice haystack i0 (i0 + needle.length) = needle
      exact ⟨by omega, hslice⟩

/-! ## Lemmas: insertion sort (permutation and sortedness) -/

theorem sinsert_perm {α : Type} (le : α → α → Bool) (x : α) :
    ∀ l : List α, List.Perm (sinsert le x l) (x :: l) := by
  intro l
  induction l with
  | nil => exact List.Perm.refl _
  | cons y ys ih =>
      unfold sinsert
      by_cases h : le y x = true
      · rw [if_pos h]
        exact (ih.cons y).trans (List.Perm.swap x y ys)
      · rw [if_neg h]

theorem pySort_perm {α : Type} (le : α → α → Bool) (l : List α) :
    List.Perm (pySort le l) l := by
  have haux : ∀ (l acc : List α),
      List.Perm (l.foldl (fun a x => sinsert le x a) acc) (acc ++ l) := by
    intro l
    induction l with
    | nil => intro acc; simp
    | cons x xs ih =>
        intro acc
        rw [List.foldl_cons]
        refine (ih (sinsert le x acc)).trans ?_
        refine (((sinsert_perm le x acc).append_right xs)).trans ?_
        exact List.perm_middle.symm
  have h := haux l []
  simpa using h

theorem sinsert_pairwise {α : Type} {le : α → α → Bool}
    (htot : ∀ a b, le a b = true ∨ le b a = true)
    (htrans : ∀ a b c, le a b = true → le b c = true → le a c = true)
    {x : α} : ∀ {l : List α}, l.Pairwise (fun a b => le a b = true) →
      (sinsert le x l).Pairwise (fun a b => le a b = true) := by
  intro l
  induction l with
  | nil => intro _; exact List.pairwise_singleton _ _
  | cons y ys ih =>
      intro hp
      rcases List.pairwise_cons.1 hp with ⟨hy, hys⟩
      unfold sinsert
      by_cases h : le y x = true
      · rw [if_pos h]
        refine List.pairwise_cons.2 ⟨?_, ih hys⟩
        intro b hb
        rcases sinsert_mem _ hb with rfl | hb2
        · exact h
        · exact hy b hb2
      · rw [if_neg h]
        have hxy : le x y = true := by
          rcases htot x y with h2 | h2
          · exact h2
          · exact absurd h2 h
        refine List.pairwise_cons.2 ⟨?_, hp⟩
        intro b hb
        rcases List.mem_cons.1 hb with rfl | hb2
        · exact hxy
        · exact htrans x y b hxy (hy b hb2)

theorem pySort_pairwise {α : Type} {le : α → α → Bool}
    (htot : ∀ a b, le a b = true ∨ le b a = true)
    (htrans : ∀ a b c, le a b = true → le b c = true → le a c = true)
    (l : List α) : (pySort le l).Pairwise (fun a b => le a b = true) := by
  have haux : ∀ (l acc : List α), acc.Pairwise (fun a b => le a b = true) →
      (l.foldl (fun a x => sinsert le x a) acc).Pairwise (fun a b => le a b = true) := by
    intro l
    induction l with
    | nil => intro acc h; exact h
    | cons x xs ih => intro acc h; exact ih _ (sinsert_pairwise htot htrans h)
  exact haux l [] List.Pairwise.nil

/-! ## Lemmas: detector span invariants -/

theorem spanOk_of {text : Str} {p : RE} {sp : Nat × Nat} {m : Match}
    (hsp : sp ∈ fspans p text)
    (h1 : m.text = slice text sp.1 sp.2) (h2 : m.start = sp.1) (h3 : m.stop = sp.2) :
    SpanOk text m := by
  obtain ⟨hlt, hle, _⟩ := fspans_sound p text sp hsp
  refine ⟨?_, ?_, ?_⟩
  · rw [h2, h3]; exact hlt
  · rw [h3]; exact hle
  · rw [h1, h2, h3]

theorem detectEmails_spanOk (text : Str) : ∀ m ∈ detectEmails text, SpanOk text m := by
  intro m hm
  unfold detectEmails at hm
  rcases List.mem_map.1 hm with ⟨sp, hsp, rfl⟩
  exact spanOk_of hsp rfl rfl rfl

theorem detectRoads_spanOk (text : Str) : ∀ m ∈ detectRoads text, SpanOk text m := by
  intro m hm
  unfold detectRoads at hm
  have hext := foldl_mem_extract _ Prod.fst
    (fun sp m => m.text = slice text sp.1 sp.2 ∧ m.start = sp.1 ∧ m.stop = sp.2)
    ?_ (fspans roadRE text) ([], []) m hm
  · rcases hext with h | ⟨sp, hsp, h⟩
    · simp at h
    · exact spanOk_of hsp h.1 h.2.1 h.2.2
  · intro acc sp m hm2
    split at hm2
    · exact Or.inl hm2
    · rcases List.mem_append.1 hm2 with h | h
      · exact Or.inl h
      · simp only [List.mem_singleton] at h
        subst h
        exact Or.inr ⟨rfl, rfl, rfl⟩

theorem detectAnyStreet_spanOk (text : Str) : ∀ m ∈ detectAnyStreet text, SpanOk text m := by
  intro m hm
  unfold detectAnyStreet at hm
  have hext := foldl_mem_extract _ Prod.fst
    (fun sp m => m.text = slice text sp.1 sp.2 ∧ m.start = sp.1 ∧ m.stop = sp.2)
    ?_ (fspans anyStreetRE text) ([], []) m hm
  · rcases hext with h | ⟨sp, hsp, h⟩
    · simp at h
    · exact spanOk_of hsp h.1 h.2.1 h.2.2
  · intro acc sp m hm2
    dsimp only at hm2
    split at hm2
    · exact Or.inl hm2
    · split at hm2
      · exact Or.inl hm2
      · split at hm2
        · exact Or.inl hm2
        · split at hm2
          · exact Or.inl hm2
          · split at hm2
            · exact Or.inl hm2
            · rcases List.mem_append.1 hm2 with h | h
              · exact Or.inl h
              · simp only [List.mem_singleton] at h
                subst h
                exact Or.inr ⟨rfl, rfl, rfl⟩

theorem detectDatesOfBirth_spanOk (text : Str) :
    ∀ m ∈ detectDatesOfBirth text, SpanOk text m := by
  intro m hm
  unfold detectDatesOfBirth at hm
  have hext := foldl_mem_extract _ (fun x : List Match => x)
    (fun sp m => m.text = slice text sp.1 sp.2 ∧ m.start = sp.1 ∧ m.stop = sp.2)
    ?_ (fspans dateRE text) [] m hm
  · rcases hext with h | ⟨sp, hsp, h⟩
    · simp at h
    · exact spanOk_of hsp h.1 h.2.1 h.2.2
  · intro acc sp m hm2
    dsimp only at hm2
    split at hm2
    · rcases List.mem_append.1 hm2 with h | h
      · exact Or.inl h
      · simp only [List.mem_singleton] at h
        subst h
        exact Or.inr ⟨rfl, rfl, rfl⟩
    · exact Or.inl hm2

theorem detectPhones_spanOk (text : Str) : ∀ m ∈ detectPhones text, SpanOk text m := by
  intro m hm
  unfold detectPhones at hm
  have hext := foldl_mem_extract _ Prod.fst
    (fun p m => ∃ sp ∈ fspans p text,
      m.text = slice text sp.1 sp.2 ∧ m.start = sp.1 ∧ m.stop = sp.2)
    ?_ phonePats ([], []) m hm
  · rcases hext with h | ⟨p, _, sp, hsp, h⟩
    · simp at h
    · exact spanOk_of hsp h.1 h.2.1 h.2.2
  · intro acc p m hm2
    have hext2 := foldl_mem_extract _ Prod.fst
      (fun sp m => m.text = slice text sp.1 sp.2 ∧ m.start = sp.1 ∧ m.stop = sp.2)
      ?_ (fspans p text) acc m hm2
    · rcases hext2 with h | ⟨sp, hsp, h⟩
      · exact Or.inl h
      · exact Or.inr ⟨sp, hsp, h⟩
    · intro acc2 sp m hm3
      split at hm3
      · exact Or.inl hm3
      · rcases List.mem_append.1 hm3 with h | h
        · exact Or.inl h
        · simp only [List.mem_singleton] at h
          subst h
          exact Or.inr ⟨rfl, rfl, rfl⟩

theorem detectIbans_spanOk (text : Str) : ∀ m ∈ detectIbans text, SpanOk text m := by
  intro m hm
  unfold detectIbans at hm
  have hext := foldl_mem_extract _ Prod.fst
    (fun p m => ∃ sp ∈ fspans p text,
      m.text = slice text sp.1 sp.2 ∧ m.start = sp.1 ∧ m.stop = sp.2)
    ?_ ibanPats ([], []) m hm
  · rcases hext with h | ⟨p, _, sp, hsp, h⟩
    · simp at h
    · exact spanOk_of hsp h.1 h.2.1 h.2.2
  · intro acc p m hm2
    have hext2 := foldl_mem_extract _ Prod.fst
      (fun sp m => m.text = slice text sp.1 sp.2 ∧ m.start = sp.1 ∧ m.stop = sp.2)
      ?_ (fspans p text) acc m hm2
    · rcases hext2 with h | ⟨sp, hsp, h⟩
      · exact Or.inl h
      · exact Or.inr ⟨sp, hsp, h⟩
    · intro acc2 sp m hm3
      dsimp only at hm3
      split at hm3
      · exact Or.inl hm3
      · split at hm3
        · exact Or.inl hm3
        · rcases List.mem_append.1 hm3 with h | h
          · exact Or.inl h
          · simp only [List.mem_singleton] at h
            subst h
            exact Or.inr ⟨rfl, rfl, rfl⟩

theorem detectAddresses_spanOk (text : Str) : ∀ m ∈ detectAddresses text, SpanOk text m := by
  intro m hm
  unfold detectAddresses at hm
  have hext := foldl_mem_extract _ Prod.fst
    (fun p m => ∃ sp ∈ fspans p text,
      m.text = slice text sp.1 sp.2 ∧ m.start = sp.1 ∧ m.stop = sp.2)
    ?_ addressPats ([], []) m hm
  · rcases hext with h | ⟨p, _, sp, hsp, h⟩
    · simp at h
    · exact spanOk_of hsp h.1 h.2.1 h.2.2
  · intro acc p m hm2
    have hext2 := foldl_mem_extract _ Prod.fst
      (fun sp m => m.text = slice text sp.1 sp.2 ∧ m.start = sp.1 ∧ m.stop = sp.2)
      ?_ (fspans p text) acc m hm2
    · rcases hext2 with h | ⟨sp, hsp, h⟩
      · exact Or.inl h
      · exact Or.inr ⟨sp, hsp, h⟩
    · intro acc2 sp m hm3
      dsimp only at hm3
      split at hm3
      · exact Or.inl hm3
      · split at hm3
        · exact Or.inl hm3
        · rcases List.mem_append.1 hm3 with h | h
          · exact Or.inl h
          · simp only [List.mem_singleton] at h
            subst h
            exact Or.inr ⟨rfl, rfl, rfl⟩

theorem detectNationalIds_spanOk (text : Str) :
    ∀ m ∈ detectNationalIds text, SpanOk text m := by
  intro m hm
  unfold detectNationalIds at hm
  have hext := foldl_mem_extract _ Prod.fst
    (fun pr m => ∃ sp ∈ fspans pr.1 text,
      m.text = slice text sp.1 sp.2 ∧ m.start = sp.1 ∧ m.stop = sp.2)
    ?_ nationalIdPats ([], []) m hm
  · rcases hext with h | ⟨pr, _, sp, hsp, h⟩
    · simp at h
    · exact spanOk_of hsp h.1 h.2.1 h.2.2
  · intro acc pr m hm2
    have hext2 := foldl_mem_extract _ Prod.fst
      (fun sp m => m.text = slice text sp.1 sp.2 ∧ m.start = sp.1 ∧ m.stop = sp.2)
      ?_ (fspans pr.1 text) acc m hm2
    · rcases hext2 with h | ⟨sp, hsp, h⟩
      · exact Or.inl h
      · exact Or.inr ⟨sp, hsp, h⟩
    · intro acc2 sp m hm3
      dsimp only at hm3
      split at hm3
      · exact Or.inl hm3
      · split at hm3
        · exact Or.inl hm3
        · split at hm3
          · exact Or.inl hm3
          · split at hm3
            · exact Or.inl hm3
            · split at hm3
              · exact Or.inl hm3
              · rcases List.mem_append.1 hm3 with h | h
                · exact Or.inl h
                · simp only [List.mem_singleton] at h
                  subst h
                  exact Or.inr ⟨rfl, rfl, rfl⟩

theorem detectNames_spanOk (text : Str) : ∀ m ∈ detectNames text, SpanOk text m := by
  intro m hm
  unfold detectNames at hm
  have hext := foldl_mem_extract _ Prod.fst
    (fun p m => ∃ sp ∈ fspans p text,
      m.text = slice text sp.1 sp.2 ∧ m.start = sp.1 ∧ m.stop = sp.2)
    ?_ namePats ([], []) m hm
  · rcases hext with h | ⟨p, _, sp, hsp, h⟩
    · simp at h
    · exact spanOk_of hsp h.1 h.2.1 h.2.2
  · intro acc p m hm2
    have hext2 := foldl_mem_extract _ Prod.fst
      (fun sp m => m.text = slice text sp.1 sp.2 ∧ m.start = sp.1 ∧ m.stop = sp.2)
      ?_ (fspans p text) acc m hm2
    · rcases hext2 with h | ⟨sp, hsp, h⟩
      · exact Or.inl h
      · exact Or.inr ⟨sp, hsp, h⟩
    · intro acc2 sp m hm3
      dsimp only at hm3
      split at hm3
      · exact Or.inl hm3
      · split at hm3
        · exact Or.inl hm3
        · split at hm3
          · exact Or.inl hm3
          · split at hm3
            · exact Or.inl hm3
            · split at hm3
              · exact Or.inl hm3
              · split at hm3
                · exact Or.inl hm3
                · rcases List.mem_append.1 hm3 with h | h
                  · exact Or.inl h
                  · simp only [List.mem_singleton] at h
                    subst h
                    exact Or.inr ⟨rfl, rfl, rfl⟩

theorem detectVehicles_spanOk (text : Str) : ∀ m ∈ detectVehicles text, SpanOk text m := by
  intro m hm
  unfold detectVehicles at hm
  have hext := foldl_mem_extract _ Prod.fst
    (fun model m => ∃ sp ∈ fspans (modelRE model) text,
      m.text = slice text sp.1 sp.2 ∧ m.start = sp.1 ∧ m.stop = sp.2)
    ?_ vehicleModels _ m hm
  · rcases hext with h | ⟨model, _, sp, hsp, h⟩
    · -- m came from the brands step
      have hext3 := foldl_mem_extract _ Prod.fst
        (fun brand m => ∃ sp ∈ fspans (brandRE brand) text,
          m.text = slice text sp.1 sp.2 ∧ m.start = sp.1 ∧ m.stop = sp.2)
        ?_ vehicleBrands ([], []) m h
      · rcases hext3 with h2 | ⟨brand, _, sp, hsp, h2⟩
        · simp at h2
        · exact spanOk_of hsp h2.1 h2.2.1 h2.2.2
      · intro acc brand m hm2
        have hext4 := foldl_mem_extract _ Prod.fst
          (fun sp m => m.text = slice text sp.1 sp.2 ∧ m.start = sp.1 ∧ m.stop = sp.2)
          ?_ (fspans (brandRE brand) text) acc m hm2
        · rcases hext4 with h2 | ⟨sp, hsp, h2⟩
          · exact Or.inl h2
          · exact Or.inr ⟨sp, hsp, h2⟩
        · intro acc2 sp m hm3
          dsimp only at hm3
          split at hm3
          · exact Or.inl hm3
          · split at hm3
            · exact Or.inl hm3
            · rcases List.mem_append.1 hm3 with h2 | h2
              · exact Or.inl h2
              · simp only [List.mem_singleton] at h2
                subst h2
                exact Or.inr ⟨rfl, rfl, rfl⟩
    · exact spanOk_of hsp h.1 h.2.1 h.2.2
  · intro acc model m hm2
    have hext2 := foldl_mem_extract _ Prod.fst
      (fun sp m => m.text = slice text sp.1 sp.2 ∧ m.start = sp.1 ∧ m.stop = sp.2)
      ?_ (fspans (modelRE model) text) acc m hm2
    · rcases hext2 with h | ⟨sp, hsp, h⟩
      · exact Or.inl h
      · exact Or.inr ⟨sp, hsp, h⟩
    · intro acc2 sp m hm3
      split at hm3
      · exact Or.inl hm3
      · split at hm3
        · exact Or.inl hm3
        · rcases List.mem_append.1 hm3 with h | h
          · exact Or.inl h
          · simp only [List.mem_singleton] at h
            subst h
            exact Or.inr ⟨rfl, rfl, rfl⟩

/-- A match recorded from a stripped capture whose slice starts and ends with
non-whitespace characters satisfies the span invariant. -/
theorem spanOk_strippedCap {text : Str} {i k : Nat} {m : Match}
    (hik : i < k) (hkle : k ≤ text.length)
    (hfc : ∃ c, text.get? i = some c ∧ isPyWs c = false)
    (hlc : ∃ c, text.get? (k - 1) = some c ∧ isPyWs c = false)
    (h1 : m.text = pyStrip (slice text i k))
    (h2 : m.start = i) (h3 : m.stop = i + (pyStrip (slice text i k)).length) :
    SpanOk text m := by
  have hnoop : pyStrip (slice text i k) = slice text i k := by
    apply pyStrip_noop
    · intro c hc
      rw [slice_head hik hkle] at hc
      obtain ⟨c0, hc0, hw⟩ := hfc
      rw [hc0] at hc
      injection hc with he
      rw [← he]
      exact hw
    · intro c hc
      rw [slice_getLast hik hkle] at hc
      obtain ⟨c0, hc0, hw⟩ := hlc
      rw [hc0] at hc
      injection hc with he
      rw [← he]
      exact hw
  have hlen : (slice text i k).length = k - i := slice_length hkle
  refine ⟨?_, ?_, ?_⟩
  · rw [h2, h3, hnoop, hlen]
    omega
  · rw [h3, hnoop, hlen]
    omega
  · rw [h1, h2, h3, hnoop, hlen]
    congr 1
    omega

theorem detectPlaces_spanOk (text : Str) : ∀ m ∈ detectPlaces text, SpanOk text m := by
  intro m hm
  unfold detectPlaces at hm
  have hext := foldl_mem_extract _ Prod.fst
    (fun t m => ∃ cap, t.2.2 = some cap ∧ m.text = slice text cap.1 cap.2 ∧
      m.start = cap.1 ∧ m.stop = cap.2 ∧ 3 ≤ (slice text cap.1 cap.2).length)
    ?_ (finditer placeContextRE text) _ m hm
  · rcases hext with h | ⟨t, ht, cap, hcap, h1, h2, h3, h4⟩
    · have hext3 := foldl_mem_extract _ Prod.fst
        (fun place m => ∃ sp ∈ fspans (rseq [.wordB, rstrCI place, .wordB]) text,
          m.text = slice text sp.1 sp.2 ∧ m.start = sp.1 ∧ m.stop = sp.2)
        ?_ knownPlaces ([], []) m h
      · rcases hext3 with h2 | ⟨place, _, sp, hsp, h2⟩
        · simp at h2
        · exact spanOk_of hsp h2.1 h2.2.1 h2.2.2
      · intro acc place m hm2
        have hext4 := foldl_mem_extract _ Prod.fst
          (fun sp m => m.text = slice text sp.1 sp.2 ∧ m.start = sp.1 ∧ m.stop = sp.2)
          ?_ (fspans (rseq [.wordB, rstrCI place, .wordB]) text) acc m hm2
        · rcases hext4 with h2 | ⟨sp, hsp, h2⟩
          · exact Or.inl h2
          · exact Or.inr ⟨sp, hsp, h2⟩
        · intro acc2 sp m hm3
          split at hm3
          · exact Or.inl hm3
          · rcases List.mem_append.1 hm3 with h2 | h2
            · exact Or.inl h2
            · simp only [List.mem_singleton] at h2
              subst h2
              exact Or.inr ⟨rfl, rfl, rfl⟩
    · have hfs := finditerGo_sound placeContextRE text (text.length + 1) 0 t ht
      have hcb := matchEnds_cap_bounds text (text.length + 1) placeContextRE t.1
        (by omega) (t.2.1, t.2.2) hfs.2.2.2 cap hcap
      have hlen := slice_length (s := text) (a := cap.1) (b := cap.2) (by omega)
      refine ⟨?_, ?_, ?_⟩
      · rw [h2, h3]
        omega
      · rw [h3]
        omega
      · rw [h1, h2, h3]
  · intro acc t m hm2
    dsimp only at hm2
    split at hm2
    · exact Or.inl hm2
    · rename_i cap hcap
      split at hm2
      · exact Or.inl hm2
      · split at hm2
        · exact Or.inl hm2
        · split at hm2
          · exact Or.inl hm2
          · split at hm2
            · exact Or.inl hm2
            · rename_i hlen3
              rcases List.mem_append.1 hm2 with h | h
              · exact Or.inl h
              · simp only [List.mem_singleton] at h
                subst h
                exact Or.inr ⟨cap, hcap, rfl, rfl, rfl, by omega⟩

theorem detectContextPlaces_spanOk (text : Str) :
    ∀ m ∈ detectContextPlaces text, SpanOk text m := by
  intro m hm
  unfold detectContextPlaces at hm
  have hext := foldl_mem_extract _ Prod.fst
    (fun p m => ∃ t ∈ finditer p text, ∃ cap, t.2.2 = some cap ∧
      m.text = slice text cap.1 cap.2 ∧
      m.start = t.1 + pyIndex (slice text cap.1 cap.2) (slice text t.1 t.2.1) ∧
      m.stop = t.1 + pyIndex (slice text cap.1 cap.2) (slice text t.1 t.2.1)
        + (slice text cap.1 cap.2).length ∧
      3 ≤ (slice text cap.1 cap.2).length)
    ?_ locationMarkers ([], []) m hm
  · rcases hext with h | ⟨p, _, t, ht, cap, hcap, h1, h2, h3, h4⟩
    · simp at h
    · have hfs := finditerGo_sound p text (text.length + 1) 0 t ht
      have hcb := matchEnds_cap_bounds text (text.length + 1) p t.1
        (by omega) (t.2.1, t.2.2) hfs.2.2.2 cap hcap
      have hlenC := slice_length (s := text) (a := cap.1) (b := cap.2) (by omega)
      have hlenG := slice_length (s := text) (a := t.1) (b := t.2.1) (by omega)
      have e1 : t.1 + (cap.1 - t.1) = cap.1 := by omega
      have e2 : t.1 + (cap.1 - t.1 + (slice text cap.1 cap.2).length) = cap.2 := by omega
      have hocc : slice (slice text t.1 t.2.1) (cap.1 - t.1)
          (cap.1 - t.1 + (slice text cap.1 cap.2).length) = slice text cap.1 cap.2 := by
        rw [slice_slice (by omega), e1, e2]
      obtain ⟨hidx, hidxslice⟩ := pyIndex_found (by omega) hocc
      have e3 : t.1 + (pyIndex (slice text cap.1 cap.2) (slice text t.1 t.2.1)
          + (slice text cap.1 cap.2).length) ≤ t.2.1 := by omega
      refine ⟨?_, ?_, ?_⟩
      · rw [h2, h3]
        omega
      · rw [h3]
        omega
      · have key : slice text cap.1 cap.2 =
            slice text (t.1 + pyIndex (slice text cap.1 cap.2) (slice text t.1 t.2.1))
              (t.1 + pyIndex (slice text cap.1 cap.2) (slice text t.1 t.2.1)
                + (slice text cap.1 cap.2).length) := by
          conv_lhs => rw [← hidxslice]
          rw [slice_slice (by omega), Nat.add_assoc]
        rw [h1, h2, h3]
        exact key
  · intro acc p m hm2
    have hext2 := foldl_mem_extract _ Prod.fst
      (fun t m => ∃ cap, t.2.2 = some cap ∧
        m.text = slice text cap.1 cap.2 ∧
        m.start = t.1 + pyIndex (slice text cap.1 cap.2) (slice text t.1 t.2.1) ∧
        m.stop = t.1 + pyIndex (slice text cap.1 cap.2) (slice text t.1 t.2.1)
          + (slice text cap.1 cap.2).length ∧
        3 ≤ (slice text cap.1 cap.2).length)
      ?_ (finditer p text) acc m hm2
    · rcases hext2 with h | ⟨t, ht, h⟩
      · exact Or.inl h
      · exact Or.inr ⟨t, ht, h⟩
    · intro acc2 t m hm3
      dsimp only at hm3
      split at hm3
      · exact Or.inl hm3
      · rename_i cap hcap
        split at hm3
        · exact Or.inl hm3
        · split at hm3
          · exact Or.inl hm3
          · rename_i hlen3
            split at hm3
            · exact Or.inl hm3
            · rcases List.mem_append.1 hm3 with h | h
              · exact Or.inl h
              · simp only [List.mem_singleton] at h
                subst h
                exact Or.inr ⟨cap, hcap, rfl, rfl, rfl, by omega⟩

theorem detectNamesByContext_spanOk (text : Str) :
    ∀ m ∈ detectNamesByContext text, SpanOk text m := by
  intro m hm
  unfold detectNamesByContext at hm
  have hS : ∀ (re : RE) (t : Nat × Nat × Option (Nat × Nat)) (cap : Nat × Nat)
      (hmem : t ∈ finditer re text) (hcap : t.2.2 = some cap)
      (hshape : cap.1 = t.1 ∧ t.1 < cap.2 ∧ cap.2 ≤ t.2.1 ∧
        (∃ c, text.get? t.1 = some c ∧ isPyWs c = false) ∧
        (∃ c, text.get? (cap.2 - 1) = some c ∧ isPyWs c = false))
      (h1 : m.text = pyStrip (slice text cap.1 cap.2))
      (h2 : m.start = t.1)
      (h3 : m.stop = t.1 + (pyStrip (slice text cap.1 cap.2)).length),
      SpanOk text m := by
    intro re t cap hmem hcap hshape h1 h2 h3
    have hfs := finditerGo_sound re text (text.length + 1) 0 t hmem
    obtain ⟨hc1, hc2, hc3, hfc, hlc⟩ := hshape
    rw [hc1] at h1 h3
    exact spanOk_strippedCap hc2 (by omega) hfc hlc h1 h2 h3
  have hext := foldl_mem_extract _ Prod.fst
    (fun t m => ∃ cap, t.2.2 = some cap ∧
      m.text = pyStrip (slice text cap.1 cap.2) ∧ m.start = t.1 ∧
      m.stop = t.1 + (pyStrip (slice text cap.1 cap.2)).length)
    ?_ (finditer partialNameRE text) _ m hm
  · rcases hext with h | ⟨t, ht, cap, hcap, h1, h2, h3⟩
    · -- fall back to the allcaps fold
      have hext2 := foldl_mem_extract _ Prod.fst
        (fun t m => ∃ cap, t.2.2 = some cap ∧
          m.text = pyStrip (slice text cap.1 cap.2) ∧ m.start = t.1 ∧
          m.stop = t.1 + (pyStrip (slice text cap.1 cap.2)).length)
        ?_ (finditer allcapsNameRE text) _ m h
      · rcases hext2 with h | ⟨t, ht, cap, hcap, h1, h2, h3⟩
        · -- fall back to the name-before-date fold
          have hext3 := foldl_mem_extract _ Prod.fst
            (fun t m => ∃ cap, t.2.2 = some cap ∧
              m.text = pyStrip (slice text cap.1 cap.2) ∧ m.start = t.1 ∧
              m.stop = t.1 + (pyStrip (slice text cap.1 cap.2)).length)
            ?_ (finditer nameBeforeDateRE text) ([], []) m h
          · rcases hext3 with h | ⟨t, ht, cap, hcap, h1, h2, h3⟩
            · simp at h
            · have hfs := finditerGo_sound nameBeforeDateRE text (text.length + 1) 0 t ht
              have hsh := capShape_cat_grp text (text.length + 1) _ _
                (by decide) (by decide) t.1 (by omega) (t.2.1, t.2.2) hfs.2.2.2 cap hcap
              exact hS nameBeforeDateRE t cap ht hcap
                ⟨hsh.1, hsh.2.1, hsh.2.2.1, hsh.2.2.2.1, hsh.2.2.2.2⟩ h1 h2 h3
          · intro acc2 t m hm3
            dsimp only at hm3
            split at hm3
            · exact Or.inl hm3
            · rename_i cap hcap
              split at hm3
              · exact Or.inl hm3
              · split at hm3
                · exact Or.inl hm3
                · split at hm3
                  · exact Or.inl hm3
                  · rcases List.mem_append.1 hm3 with h2 | h2
                    · exact Or.inl h2
                    · simp only [List.mem_singleton] at h2
                      subst h2
                      exact Or.inr ⟨cap, hcap, rfl, rfl, rfl⟩
        · have hfs := finditerGo_sound allcapsNameRE text (text.length + 1) 0 t ht
          have hme := matchEnds_cat_wordB text (text.length + 1) _ t.1
            (t.2.1, t.2.2) hfs.2.2.2
          have hsh := capShape_cat_grp text (text.length + 1) _ _
            (by decide) (by decide) t.1 (by omega) (t.2.1, t.2.2) hme cap hcap
          exact hS allcapsNameRE t cap ht hcap
            ⟨hsh.1, hsh.2.1, hsh.2.2.1, hsh.2.2.2.1, hsh.2.2.2.2⟩ h1 h2 h3
      · intro acc2 t m hm3
        dsimp only at hm3
        split at hm3
        · exact Or.inl hm3
        · rename_i cap hcap
          split at hm3
          · exact Or.inl hm3
          · split at hm3
            · exact Or.inl hm3
            · split at hm3
              · exact Or.inl hm3
              · rcases List.mem_append.1 hm3 with h2 | h2
                · exact Or.inl h2
                · simp only [List.mem_singleton] at h2
                  subst h2
                  exact Or.inr ⟨cap, hcap, rfl, rfl, rfl⟩
    · have hfs := finditerGo_sound partialNameRE text (text.length + 1) 0 t ht
      have hsh := capShape_cat_grp text (text.length + 1) _ _
        (by decide) (by decide) t.1 (by omega) (t.2.1, t.2.2) hfs.2.2.2 cap hcap
      exact hS partialNameRE t cap ht hcap
        ⟨hsh.1, hsh.2.1, hsh.2.2.1, hsh.2.2.2.1, hsh.2.2.2.2⟩ h1 h2 h3
  · intro acc2 t m hm3
    dsimp only at hm3
    split at hm3
    · exact Or.inl hm3
    · rename_i cap hcap
      split at hm3
      · exact Or.inl hm3
      · split at hm3
        · exact Or.inl hm3
        · rcases List.mem_append.1 hm3 with h2 | h2
          · exact Or.inl h2
          · simp only [List.mem_singleton] at h2
            subst h2
            exact Or.inr ⟨cap, hcap, rfl, rfl, rfl⟩

theorem detectAll_spanOk (text : Str) : ∀ m ∈ detectAll text, SpanOk text m := by
  intro m hm
  simp only [detectAll, sortByStart, removeOverlaps] at hm
  have hm2 := pySort_mem _ hm
  have hm3 := pySort_mem _ ((remOvGo_sublist _ []).subset hm2)
  simp only [List.mem_append] at hm3
  rcases hm3 with
    ((((((((((((h | h) | h) | h) | h) | h) | h) | h) | h) | h) | h) | h) | h)
  · exact detectEmails_spanOk text m h
  · exact detectIbans_spanOk text m h
  · exact detectPhones_spanOk text m h
  · exact detectVehicles_spanOk text m h
  · exact detectRoads_spanOk text m h
  · exact detectDatesOfBirth_spanOk text m h
  · exact detectAddresses_spanOk text m h
  · exact detectAnyStreet_spanOk text m h
  · exact detectContextPlaces_spanOk text m h
  · exact detectPlaces_spanOk text m h
  · exact detectNationalIds_spanOk text m h
  · exact detectNamesByContext_spanOk text m h
  · exact detectNames_spanOk text m h

theorem detectAll_nonoverlap (text : Str) :
    (detectAll text).Pairwise
      (fun a b => ¬ spanOverlap (a.start, a.stop) (b.start, b.stop)) := by
  have hsym : ∀ {a b : Match},
      ¬ spanOverlap (a.start, a.stop) (b.start, b.stop) →
      ¬ spanOverlap (b.start, b.stop) (a.start, a.stop) := by
    intro a b hab hc
    exact hab ⟨hc.2, hc.1⟩
  simp only [detectAll, sortByStart, removeOverlaps]
  exact (List.Perm.pairwise_iff hsym (pySort_perm _ _)).2 (remOvGo_pairwise _ _)

theorem detectAll_sorted (text : Str) :
    (detectAll text).Pairwise (fun a b => a.start ≤ b.start) := by
  simp only [detectAll, sortByStart]
  refine List.Pairwise.imp ?_ (pySort_pairwise ?_ ?_ _)
  · intro a b h
    exact of_decide_eq_true h
  · intro a b
    rcases Nat.le_total a.start b.start with h | h
    · exact Or.inl (decide_eq_true h)
    · exact Or.inr (decide_eq_true h)
  · intro a b c h1 h2
    exact decide_eq_true (Nat.le_trans (of_decide_eq_true h1) (of_decide_eq_true h2))

/-! ## Lemmas: descending-order splicing -/

theorem slice_take {t : Str} {k a b : Nat} (h : b ≤ k) :
    slice (t.take k) a b = slice t a b := by
  unfold slice
  rw [List.take_take, Nat.min_eq_left h]

theorem repsDesc_matches : ∀ (ms : List Match) (s : MState),
    ((repsDesc s ms).1.map Prod.fst) = ms := by
  intro ms
  induction ms with
  | nil => intro s; rfl
  | cons m rest ih =>
      intro s
      simp only [repsDesc, List.map_cons]
      rw [ih]

theorem sewGo_snoc (t : Str) (m : Match) (r : Str) :
    ∀ (L : List (Match × Str)) (pos : Nat), pos ≤ m.start →
    (∀ p ∈ L, p.1.start ≤ m.start ∧ p.1.stop ≤ m.start) →
    sewGo t pos (L ++ [(m, r)]) =
      sewGo (t.take m.start) pos L ++ (r ++ t.drop m.stop) := by
  intro L
  induction L with
  | nil =>
      intro pos hpos _
      simp only [sewGo, List.nil_append]
      rw [List.append_assoc]
      rfl
  | cons p L' ih =>
      intro pos hpos hmem
      obtain ⟨hp1, hp2⟩ := hmem p (List.mem_cons_self _ _)
      rcases p with ⟨q, rq⟩
      simp only [sewGo, List.cons_append, List.append_eq]
      rw [ih q.stop hp2 (fun p hp => hmem p (List.mem_cons_of_mem _ hp))]
      rw [slice_take hp1]
      simp [List.append_assoc]

theorem applyRepl_append (y : Str) :
    ∀ (ms : List Match) (x : Str) (s : MState),
    (∀ m ∈ ms, m.start < m.stop ∧ m.stop ≤ x.length) →
    ms.Pairwise (fun a b => b.stop ≤ a.start) →
    applyRepl (x ++ y) s ms = ((applyRepl x s ms).1 ++ y, (applyRepl x s ms).2) := by
  intro ms
  induction ms with
  | nil =>
      intro x s _ _
      rfl
  | cons m rest ih =>
      intro x s hval hdesc
      obtain ⟨hms, hstop⟩ := hval m (List.mem_cons_self _ _)
      rcases List.pairwise_cons.1 hdesc with ⟨hhead, htail⟩
      have e1 : (x ++ y).take m.start = x.take m.start :=
        List.take_append_of_le_length (by omega)
      have e2 : (x ++ y).drop m.stop = x.drop m.stop ++ y :=
        List.drop_append_of_le_length hstop
      have hv : ∀ m2 ∈ rest, m2.start < m2.stop ∧
          m2.stop ≤ (x.take m.start ++ (getOrCreate s m.text m.category).1 ++
            x.drop m.stop).length := by
        intro m2 hm2
        have h1 := (hval m2 (List.mem_cons_of_mem _ hm2)).1
        have h2 := hhead m2 hm2
        simp only [List.length_append, List.length_take]
        exact ⟨h1, by omega⟩
      have key := ih (x.take m.start ++ (getOrCreate s m.text m.category).1 ++
        x.drop m.stop) (getOrCreate s m.text m.category).2 hv htail
      simp only [applyRepl, List.foldl_cons] at key ⊢
      rw [e1, e2, ← List.append_assoc]
      exact key

theorem applyRepl_sew :
    ∀ (ms : List Match) (t : Str) (s : MState),
    (∀ m ∈ ms, m.start < m.stop ∧ m.stop ≤ t.length) →
    ms.Pairwise (fun a b => b.stop ≤ a.start) →
    applyRepl t s ms =
      (sewGo t 0 ((repsDesc s ms).1.reverse), (repsDesc s ms).2) := by
  intro ms
  induction ms with
  | nil =>
      intro t s _ _
      simp [applyRepl, repsDesc, sewGo]
  | cons m rest ih =>
      intro t s hval hdesc
      obtain ⟨hms, hstop⟩ := hval m (List.mem_cons_self _ _)
      rcases List.pairwise_cons.1 hdesc with ⟨hhead, htail⟩
      have hx : (List.take m.start t).length = m.start := by
        rw [List.length_take]
        omega
      have hv1 : ∀ m2 ∈ rest, m2.start < m2.stop ∧
          m2.stop ≤ (List.take m.start t).length := by
        intro m2 hm2
        have h1 := (hval m2 (List.mem_cons_of_mem _ hm2)).1
        have h2 := hhead m2 hm2
        rw [hx]
        exact ⟨h1, by omega⟩
      have hstep : applyRepl t s (m :: rest) =
          applyRepl (t.take m.start ++ ((getOrCreate s m.text m.category).1 ++
            t.drop m.stop)) (getOrCreate s m.text m.category).2 rest := by
        simp only [applyRepl, List.foldl_cons, List.append_assoc]
      have happ := applyRepl_append ((getOrCreate s m.text m.category).1 ++ t.drop m.stop)
        rest (t.take m.start) (getOrCreate s m.text m.category).2 hv1 htail
      have hih := ih (t.take m.start) (getOrCreate s m.text m.category).2 hv1 htail
      have hmem : ∀ p ∈ ((repsDesc (getOrCreate s m.text m.category).2 rest).1.reverse),
          p.1.start ≤ m.start ∧ p.1.stop ≤ m.start := by
        intro p hp
        have hp2 : p.1 ∈ rest := by
          rw [← repsDesc_matches rest (getOrCreate s m.text m.category).2]
          exact List.mem_map_of_mem Prod.fst (List.mem_reverse.1 hp)
        have h1 := (hval p.1 (List.mem_cons_of_mem _ hp2)).1
        have h2 := hhead p.1 hp2
        omega
      have hsnoc := sewGo_snoc t m (getOrCreate s m.text m.category).1
        ((repsDesc (getOrCreate s m.text m.category).2 rest).1.reverse) 0
        (Nat.zero_le _) hmem
      rw [hstep, happ, hih]
      simp only [repsDesc, List.reverse_cons]
      rw [hsnoc]

theorem slice_append_first (u v : Str) : slice (u ++ v) 0 u.length = u := by
  unfold slice
  rw [List.drop_zero, List.take_left]

theorem slice_append_second (u v w : Str) :
    slice (u ++ (v ++ w)) u.length (u.length + v.length) = v := by
  unfold slice
  rw [List.drop_take, List.drop_left]
  have e : u.length + v.length - u.length = v.length := by omega
  rw [e, List.take_left]

theorem slice_append_len1 (u v w : Str) : slice ((u ++ v) ++ w) 0 u.length = u := by
  rw [List.append_assoc]
  exact slice_append_first u (v ++ w)

theorem slice_append_len2 (u v w : Str) :
    slice ((u ++ v) ++ w) u.length (u.length + v.length) = v := by
  rw [List.append_assoc]
  exact slice_append_second u v w

theorem slice_append_drop {t : Str} {pos k : Nat} (h1 : pos ≤ k) (h2 : k ≤ t.length) :
    slice t pos k ++ t.drop k = t.drop pos := by
  conv_rhs => rw [← List.take_append_drop k t]
  rw [List.drop_append_of_le_length (by rw [List.length_take]; omega)]
  rfl

theorem sewSpansGo_shift (t : Str) :
    ∀ (L : List (Match × Str)) (pos out : Nat),
    sewSpansGo t pos out L =
      (sewSpansGo t pos 0 L).map (fun sp => (out + sp.1, out + sp.2)) := by
  intro L
  induction L with
  | nil => intro pos out; rfl
  | cons pr L' ih =>
      intro pos out
      rcases pr with ⟨m, r⟩
      simp only [sewSpansGo, List.map_cons]
      congr 1
      · simp [Nat.add_assoc]
      · have h1 := ih m.stop (out + (m.start - pos) + r.length)
        have h2 := ih m.stop (0 + (m.start - pos) + r.length)
        rw [h1, h2, List.map_map]
        apply List.map_congr_left
        intro sp _
        simp [Function.comp, Nat.zero_add, Nat.add_assoc]

theorem slice_append_right (x s : Str) (a b : Nat) :
    slice (x ++ s) (x.length + a) (x.length + b) = slice s a b := by
  unfold slice
  rw [List.drop_take, List.drop_take, List.drop_append_eq_append_drop,
    List.drop_eq_nil_of_le (by omega), List.nil_append]
  have e1 : x.length + a - x.length = a := by omega
  have e2 : x.length + b - (x.length + a) = b - a := by omega
  rw [e1, e2]

theorem reSubGo_append (x s : Str) (g : Str → Str) (n : Nat) (hn : n = x.length) :
    ∀ (spans : List (Nat × Nat)) (q : Nat),
    reSubGo (x ++ s) g (spans.map (fun sp => (n + sp.1, n + sp.2))) (n + q) =
      reSubGo s g spans q := by
  subst hn
  intro spans
  induction spans with
  | nil =>
      intro q
      simp only [List.map_nil, reSubGo]
      rw [List.drop_append_eq_append_drop, List.drop_eq_nil_of_le (by omega),
        List.nil_append]
      congr 1
      omega
  | cons ab rest ih =>
      intro q
      rcases ab with ⟨a, b⟩
      simp only [List.map_cons, reSubGo]
      rw [slice_append_right, slice_append_right, ih]

theorem sew_roundtrip (t : Str) (g : Str → Str) :
    ∀ (L : List (Match × Str)) (pos : Nat),
    pos ≤ t.length →
    (∀ p ∈ L, pos ≤ p.1.start ∧ p.1.start ≤ p.1.stop ∧ p.1.stop ≤ t.length ∧
      g p.2 = slice t p.1.start p.1.stop) →
    L.Pairwise (fun p q => p.1.stop ≤ q.1.start) →
    reSubGo (sewGo t pos L) g (sewSpansGo t pos 0 L) 0 = t.drop pos := by
  intro L
  induction L with
  | nil =>
      intro pos _ _ _
      simp [sewGo, sewSpansGo, reSubGo]
  | cons pr L' ih =>
      intro pos hpos hval hord
      rcases pr with ⟨m, r⟩
      obtain ⟨hps, hss, hsl, hg⟩ := hval (m, r) (List.mem_cons_self _ _)
      dsimp only at hps hss hsl hg
      rcases List.pairwise_cons.1 hord with ⟨hhead, htail⟩
      have hlenpre : (slice t pos m.start).length = m.start - pos :=
        slice_length (by omega)
      simp only [sewGo, sewSpansGo, reSubGo, Nat.zero_add]
      rw [← hlenpre]
      rw [slice_append_len1, slice_append_len2, hg]
      rw [sewSpansGo_shift t L' m.stop ((slice t pos m.start).length + r.length)]
      have happ := reSubGo_append (slice t pos m.start ++ r) (sewGo t m.stop L') g
        ((slice t pos m.start).length + r.length) (by rw [List.length_append])
        (sewSpansGo t m.stop 0 L') 0
      simp only [Nat.add_zero] at happ
      rw [happ]
      have hv2 : ∀ p ∈ L', m.stop ≤ p.1.start ∧ p.1.start ≤ p.1.stop ∧
          p.1.stop ≤ t.length ∧ g p.2 = slice t p.1.start p.1.stop := by
        intro p hp
        obtain ⟨_, h2, h3, h4⟩ := hval p (List.mem_cons_of_mem _ hp)
        exact ⟨hhead p hp, h2, h3, h4⟩
      rw [ih m.stop (by omega) hv2 htail]
      rw [show slice t pos m.start ++ slice t m.start m.stop ++ t.drop m.stop =
        slice t pos m.start ++ (slice t m.start m.stop ++ t.drop m.stop) from
        List.append_assoc _ _ _]
      rw [slice_append_drop hss hsl, slice_append_drop hps (by omega)]

/-- The surviving matches of the patterns-backend encode: span validity and
descending pairwise disjointness of the processing list. -/
theorem descList_props (text : Str) :
    (∀ m ∈ sortByStartDesc ((detectAll text).filter (fun m => !isMasked m.text)),
      m.start < m.stop ∧ m.stop ≤ text.length ∧ m.text = slice text m.start m.stop) ∧
    (sortByStartDesc ((detectAll text).filter (fun m => !isMasked m.text))).Pairwise
      (fun a b => b.stop ≤ a.start) := by
  have hval : ∀ m ∈ sortByStartDesc ((detectAll text).filter (fun m => !isMasked m.text)),
      m.start < m.stop ∧ m.stop ≤ text.length ∧ m.text = slice text m.start m.stop := by
    intro m hm
    simp only [sortByStartDesc] at hm
    have hm2 := List.mem_of_mem_filter (pySort_mem _ hm)
    obtain ⟨h1, h2, h3⟩ := detectAll_spanOk text m hm2
    exact ⟨h1, h2, h3⟩
  refine ⟨hval, ?_⟩
  have hsorted : (sortByStartDesc ((detectAll text).filter
      (fun m => !isMasked m.text))).Pairwise
      (fun a b => decide (b.start ≤ a.start) = true) := by
    simp only [sortByStartDesc]
    refine pySort_pairwise ?_ ?_ _
    · intro a b
      rcases Nat.le_total b.start a.start with h | h
      · exact Or.inl (decide_eq_true h)
      · exact Or.inr (decide_eq_true h)
    · intro a b c h1 h2
      exact decide_eq_true
        (Nat.le_trans (of_decide_eq_true h2) (of_decide_eq_true h1))
  have hnov : (sortByStartDesc ((detectAll text).filter
      (fun m => !isMasked m.text))).Pairwise
      (fun a b => ¬ (a.start < b.stop ∧ b.start < a.stop)) := by
    have hsym : ∀ {a b : Match},
        ¬ (a.start < b.stop ∧ b.start < a.stop) →
        ¬ (b.start < a.stop ∧ a.start < b.stop) := by
      intro a b hab hc
      exact hab ⟨hc.2, hc.1⟩
    have h1 : ((detectAll text).filter (fun m => !isMasked m.text)).Pairwise
        (fun a b => ¬ (a.start < b.stop ∧ b.start < a.stop)) :=
      (detectAll_nonoverlap text).sublist (List.filter_sublist _)
    simp only [sortByStartDesc]
    exact (List.Perm.pairwise_iff hsym (pySort_perm _ _)).2 h1
  refine List.Pairwise.imp_of_mem ?_ (hsorted.and hnov)
  intro a b ha hb hr
  obtain ⟨h1, h2⟩ := hr
  have h3 := of_decide_eq_true h1
  obtain ⟨ha1, _⟩ := hval a ha
  obtain ⟨hb1, _⟩ := hval b hb
  omega

/-! ## Lemmas: decomposing matches of the placeholder pattern -/

theorem matchEnds_eps_end {s : Str} {fuel : Nat} {i : Nat} {p : MRes}
    (hp : p ∈ matchEnds s fuel .eps i) : p.1 = i := by
  simp only [matchEnds, List.mem_singleton] at hp
  subst hp
  rfl

theorem matchEnds_wordB_end {s : Str} {fuel : Nat} {i : Nat} {p : MRes}
    (hp : p ∈ matchEnds s fuel .wordB i) : p.1 = i := by
  simp only [matchEnds] at hp
  split at hp
  · simp only [List.mem_singleton] at hp
    subst hp
    rfl
  · simp at hp

theorem matchEnds_cls_char {s : Str} {fuel : Nat} {cc : CClass} {i : Nat} {p : MRes}
    (hp : p ∈ matchEnds s fuel (.cls cc) i) :
    ∃ d, s.get? i = some d ∧ ccMatch cc d = true ∧ p.1 = i + 1 := by
  simp only [matchEnds] at hp
  split at hp
  · rename_i d hg
    split at hp
    · rename_i hcc
      simp only [List.mem_singleton] at hp
      subst hp
      exact ⟨d, hg, hcc, rfl⟩
    · simp at hp
  · simp at hp

theorem matchEnds_cat_split {s : Str} {fuel : Nat} {A B : RE} {i : Nat} {p : MRes}
    (hp : p ∈ matchEnds s fuel (.cat A B) i) :
    ∃ q r, q ∈ matchEnds s fuel A i ∧ r ∈ matchEnds s fuel B q.1 ∧ p.1 = r.1 := by
  simp only [matchEnds] at hp
  rcases List.mem_flatMap.1 hp with ⟨q, hq, hp2⟩
  rcases List.mem_map.1 hp2 with ⟨r, hr, rfl⟩
  exact ⟨q, r, hq, hr, rfl⟩

theorem matchEnds_alt_split {s : Str} {fuel : Nat} {A B : RE} {i : Nat} {p : MRes}
    (hp : p ∈ matchEnds s fuel (.alt A B) i) :
    p ∈ matchEnds s fuel A i ∨ p ∈ matchEnds s fuel B i := by
  simp only [matchEnds] at hp
  exact List.mem_append.1 hp

theorem ccMatch_single {c d : Char} (h : ccMatch [(c, c)] d = true) : d = c := by
  simp only [ccMatch, List.any_cons, List.any_nil, Bool.or_false, Bool.and_eq_true,
    decide_eq_true_eq] at h
  exact le_antisymm h.2 h.1

theorem ccMatch_digit {d : Char} (h : ccMatch [('0', '9')] d = true) :
    isDigitC d = true := by
  simp only [ccMatch, List.any_cons, List.any_nil, Bool.or_false] at h
  exact h

theorem matchEnds_rstr {s : Str} {fuel : Nat} :
    ∀ (w : Str) (i : Nat) (p : MRes),
    p ∈ matchEnds s fuel (rseq (w.map rchr)) i →
    p.1 = i + w.length ∧ slice s i (i + w.length) = w := by
  intro w
  induction w with
  | nil =>
      intro i p hp
      have h := matchEnds_eps_end hp
      exact ⟨h, slice_refl s i⟩
  | cons c w' ih =>
      intro i p hp
      have hp2 : p ∈ matchEnds s fuel (.cat (rchr c) (rseq (List.map rchr w'))) i := hp
      obtain ⟨q, r, hq, hr, hpr⟩ := matchEnds_cat_split hp2
      obtain ⟨d, hg, hcc, hq1⟩ := matchEnds_cls_char hq
      have hdc : d = c := ccMatch_single hcc
      subst hdc
      rw [hq1] at hr
      obtain ⟨hr1, hr2⟩ := ih (i + 1) r hr
      constructor
      · simp only [List.length_cons]
        omega
      · simp only [List.length_cons]
        have hsplit := slice_split s i (i + 1) (i + (w'.length + 1)) (by omega) (by omega)
        rw [hsplit, slice_single hg]
        have e : i + (w'.length + 1) = (i + 1) + w'.length := by omega
        rw [e, hr2]
        rfl

theorem matchEnds_rexact_digits {s : Str} {fuel : Nat} :
    ∀ (n : Nat) (i : Nat) (p : MRes),
    p ∈ matchEnds s fuel (rexact dDigit n) i →
    p.1 = i + n ∧ (slice s i (i + n)).all isDigitC = true := by
  intro n
  induction n with
  | zero =>
      intro i p hp
      have h := matchEnds_eps_end hp
      refine ⟨by omega, ?_⟩
      rw [show i + 0 = i from rfl, slice_refl]
      rfl
  | succ n ih =>
      intro i p hp
      have hp2 : p ∈ matchEnds s fuel (.cat dDigit (rexact dDigit n)) i := hp
      obtain ⟨q, r, hq, hr, hpr⟩ := matchEnds_cat_split hp2
      obtain ⟨d, hg, hcc, hq1⟩ := matchEnds_cls_char hq
      rw [hq1] at hr
      obtain ⟨hr1, hr2⟩ := ih (i + 1) r hr
      have hd : isDigitC d = true := ccMatch_digit hcc
      refine ⟨by omega, ?_⟩
      have hsplit := slice_split s i (i + 1) (i + (n + 1)) (by omega) (by omega)
      rw [hsplit, slice_single hg]
      have e : i + (n + 1) = (i + 1) + n := by omega
      rw [e]
      show (d :: slice s (i + 1) ((i + 1) + n)).all isDigitC = true
      rw [List.all_cons, hd, hr2]
      rfl

theorem matchEnds_ruptoN_digits {s : Str} {fuel : Nat} :
    ∀ (n : Nat) (i : Nat) (p : MRes),
    p ∈ matchEnds s fuel (ruptoN dDigit n) i →
    ∃ j, j ≤ n ∧ p.1 = i + j ∧ (slice s i (i + j)).all isDigitC = true := by
  intro n
  induction n with
  | zero =>
      intro i p hp
      have h := matchEnds_eps_end hp
      refine ⟨0, le_refl _, by omega, ?_⟩
      rw [show i + 0 = i from rfl, slice_refl]
      rfl
  | succ n ih =>
      intro i p hp
      have hp2 : p ∈ matchEnds s fuel (.alt (.cat dDigit (ruptoN dDigit n)) .eps) i := hp
      rcases matchEnds_alt_split hp2 with h | h
      · obtain ⟨q, r, hq, hr, hpr⟩ := matchEnds_cat_split h
        obtain ⟨d, hg, hcc, hq1⟩ := matchEnds_cls_char hq
        rw [hq1] at hr
        obtain ⟨j, hj, hr1, hr2⟩ := ih (i + 1) r hr
        have hd : isDigitC d = true := ccMatch_digit hcc
        refine ⟨j + 1, by omega, by omega, ?_⟩
        have hsplit := slice_split s i (i + 1) (i + (j + 1)) (by omega) (by omega)
        rw [hsplit, slice_single hg]
        have e : i + (j + 1) = (i + 1) + j := by omega
        rw [e]
        show (d :: slice s (i + 1) ((i + 1) + j)).all isDigitC = true
        rw [List.all_cons, hd, hr2]
        rfl
      · have h0 := matchEnds_eps_end h
        refine ⟨0, Nat.zero_le _, by omega, ?_⟩
        rw [show i + 0 = i from rfl, slice_refl]
        rfl

theorem raltL_member {s : Str} {fuel : Nat} :
    ∀ (l : List RE) (i : Nat) (p : MRes),
    p ∈ matchEnds s fuel (raltL l) i →
    ∃ a ∈ l, p ∈ matchEnds s fuel a i := by
  intro l
  induction l with
  | nil =>
      intro i p hp
      obtain ⟨d, _, hcc, _⟩ := matchEnds_cls_char hp
      simp [ccMatch] at hcc
  | cons a rest ih =>
      intro i p hp
      cases rest with
      | nil => exact ⟨a, List.mem_cons_self _ _, hp⟩
      | cons b rest' =>
          have hp2 : p ∈ matchEnds s fuel (.alt a (raltL (b :: rest'))) i := hp
          rcases matchEnds_alt_split hp2 with h | h
          · exact ⟨a, List.mem_cons_self _ _, h⟩
          · obtain ⟨x, hx, hpx⟩ := ih i p h
            exact ⟨x, List.mem_cons_of_mem _ hx, hpx⟩

/-- Every match of `PLACEHOLDER_PATTERN` is a category word from the
alternation, an underscore, and three or four digits. -/
theorem placeholderRE_shape (s : Str) (fuel : Nat) :
    ∀ i p, p ∈ matchEnds s fuel placeholderRE i →
      ∃ w j, w ∈ placeholderCats ∧ j ≤ 1 ∧
        p.1 = i + (sl w).length + 1 + 3 + j ∧
        slice s i p.1 = sl w ++ '_' :: slice s (i + (sl w).length + 1) p.1 ∧
        (slice s (i + (sl w).length + 1) p.1).all isDigitC = true := by
  intro i p hp
  have hp2 : p ∈ matchEnds s fuel
      (.cat .wordB (.cat (raltL (placeholderCats.map rstr))
        (.cat (rchr '_') (.cat (dRange 3 4) (.cat .wordB .eps))))) i := hp
  have hp3 := matchEnds_cat_wordB s fuel _ i p hp2
  obtain ⟨q1, r1, hq1, hr1, hp1e⟩ := matchEnds_cat_split hp3
  obtain ⟨a, ha, hqa⟩ := raltL_member _ i q1 hq1
  rcases List.mem_map.1 ha with ⟨w, hw, rfl⟩
  have hqa2 : q1 ∈ matchEnds s fuel (rseq ((sl w).map rchr)) i := hqa
  obtain ⟨hq1e, hq1s⟩ := matchEnds_rstr (sl w) i q1 hqa2
  obtain ⟨q2, r2, hq2, hr2, hr1e⟩ := matchEnds_cat_split hr1
  obtain ⟨d, hgd, hccd, hq2e⟩ := matchEnds_cls_char hq2
  have hd : d = '_' := ccMatch_single hccd
  subst hd
  obtain ⟨q3, r3, hq3, hr3, hr2e⟩ := matchEnds_cat_split hr2
  have hq3b : q3 ∈ matchEnds s fuel (.cat (rexact dDigit 3) (ruptoN dDigit 1)) q2.1 := hq3
  obtain ⟨q4, r4, hq4, hr4, hq3e⟩ := matchEnds_cat_split hq3b
  obtain ⟨hq4e, hq4all⟩ := matchEnds_rexact_digits 3 q2.1 q4 hq4
  obtain ⟨j, hj, hr4e, hr4all⟩ := matchEnds_ruptoN_digits 1 q4.1 r4 hr4
  have hr3e : r3.1 = q3.1 := by
    obtain ⟨u, v, hu, hv, he⟩ := matchEnds_cat_split hr3
    have hu1 := matchEnds_wordB_end hu
    have hv1 := matchEnds_eps_end hv
    omega
  refine ⟨w, j, hw, hj, by omega, ?_, ?_⟩
  · have hs1 := slice_split s i q1.1 p.1 (by omega) (by omega)
    have hs2 := slice_split s q1.1 (q1.1 + 1) p.1 (by omega) (by omega)
    rw [hs1, hs2, slice_single hgd, hq1e, hq1s]
    rfl
  · have e2 : i + (sl w).length + 1 = q2.1 := by omega
    rw [e2]
    have hsp := slice_split s q2.1 q4.1 p.1 (by omega) (by omega)
    rw [hsp, List.all_append]
    have e3 : q4.1 = q2.1 + 3 := by omega
    have e4 : p.1 = q4.1 + j := by omega
    rw [← e3] at hq4all
    rw [e4, hr4all, Bool.and_true]
    exact hq4all

/-- `re.sub` only depends on the replacement callback pointwise. -/
theorem reSubGo_congr {s : Str} {f g : Str → Str} (h : ∀ x, f x = g x) :
    ∀ (L : List (Nat × Nat)) (p : Nat), reSubGo s f L p = reSubGo s g L p := by
  intro L
  induction L with
  | nil => intro p; rfl
  | cons ab rest ih =>
      intro p
      rcases ab with ⟨a, b⟩
      simp only [reSubGo]
      rw [h, ih]

/-! ## Claim theorems -/

/-- C2: the Conflict Resolver sorts candidates by confidence descending then
span length descending and greedily keeps non-overlapping spans; its output
is a subsequence of the sorted candidates and contains no two matches `a`,
`b` with `a.start < b.end` and `b.start < a.end`. -/
theorem claim_C2_resolver_nonoverlap (ms : List Match) :
    (removeOverlaps ms).Pairwise
      (fun a b => ¬ (a.start < b.stop ∧ b.start < a.stop)) ∧
    (removeOverlaps ms).Sublist (pySort confLenLe ms) :=
  ⟨remOvGo_pairwise _ _, remOvGo_sublist _ _⟩

/-- C1 counterexample: the round trip fails without category-overlapping
ambiguity. Two variant surface forms of the same identity ("A@B.CC" and
"a@b.cc" share the normalized key) receive the same placeholder; decode
restores the single canonical form (the first-processed raw form), not
each original surface form. -/
theorem claim_C1_counterexample :
    (encodePatterns [] (sl "A@B.CC a@b.cc")).1 = sl "EMAIL_001 EMAIL_001" ∧
    decode (encodePatterns [] (sl "A@B.CC a@b.cc")).1
      (encodePatterns [] (sl "A@B.CC a@b.cc")).2 = sl "a@b.cc a@b.cc" ∧
    sl "a@b.cc a@b.cc" ≠ sl "A@B.CC a@b.cc" := by
  refine ⟨?_, ?_, ?_⟩
  · decide
  · decide
  · decide

/-- C1 (amended): the round trip holds under explicit conditions: the
preprocessing step does not change the text; every placeholder-pattern
match of the encoded text is exactly one of the inserted placeholder
occurrences (no pre-existing or accidentally formed placeholder-shaped
tokens); and every surviving match's placeholder decodes back to that
match's raw text (each raw text is its entry's canonical value — this is
what fails for variant surface forms of one identity). Then decoding the
encoded text with the returned mapping reproduces the input exactly. -/
theorem claim_C1_roundtrip (created text : Str)
    (hpre : preprocess text = text)
    (hdec : ∀ p ∈ (repsDesc (mappingInit created)
        (sortByStartDesc ((detectAll text).filter (fun m => !isMasked m.text)))).1,
      decodeSub (repsDesc (mappingInit created)
        (sortByStartDesc ((detectAll text).filter (fun m => !isMasked m.text)))).2 p.2
        = p.1.text)
    (hspans : fspans placeholderRE (encodePatterns created text).1 =
      sewSpansGo text 0 0 ((repsDesc (mappingInit created)
        (sortByStartDesc ((detectAll text).filter
          (fun m => !isMasked m.text)))).1.reverse)) :
    decode (encodePatterns created text).1 (encodePatterns created text).2 = text := by
  have h0 : encodePatterns created text =
      applyRepl (preprocess text) (mappingInit created)
        (sortByStartDesc ((detectAll (preprocess text)).filter
          (fun m => !isMasked m.text))) := rfl
  rw [hpre] at h0
  obtain ⟨hvals, hdescp⟩ := descList_props text
  have hsew := applyRepl_sew
    (sortByStartDesc ((detectAll text).filter (fun m => !isMasked m.text)))
    text (mappingInit created)
    (fun m hm => ⟨(hvals m hm).1, (hvals m hm).2.1⟩) hdescp
  rw [h0, hsew] at hspans ⊢
  dsimp only at hspans ⊢
  simp only [decode, reSub]
  rw [hspans]
  have hv : ∀ p ∈ (repsDesc (mappingInit created)
      (sortByStartDesc ((detectAll text).filter
        (fun m => !isMasked m.text)))).1.reverse,
      0 ≤ p.1.start ∧ p.1.start ≤ p.1.stop ∧ p.1.stop ≤ text.length ∧
      decodeSub (repsDesc (mappingInit created)
        (sortByStartDesc ((detectAll text).filter
          (fun m => !isMasked m.text)))).2 p.2 =
        slice text p.1.start p.1.stop := by
    intro p hp
    have hpr := List.mem_reverse.1 hp
    have hm : p.1 ∈ sortByStartDesc ((detectAll text).filter
        (fun m => !isMasked m.text)) := by
      rw [← repsDesc_matches
        (sortByStartDesc ((detectAll text).filter (fun m => !isMasked m.text)))
        (mappingInit created)]
      exact List.mem_map_of_mem Prod.fst hpr
    obtain ⟨h1, h2, h3⟩ := hvals p.1 hm
    refine ⟨Nat.zero_le _, by omega, h2, ?_⟩
    rw [hdec p hpr]
    exact h3
  have hord : ((repsDesc (mappingInit created)
      (sortByStartDesc ((detectAll text).filter
        (fun m => !isMasked m.text)))).1.reverse).Pairwise
      (fun p q => p.1.stop ≤ q.1.start) := by
    have h5 : ((repsDesc (mappingInit created)
        (sortByStartDesc ((detectAll text).filter
          (fun m => !isMasked m.text)))).1.map Prod.fst).Pairwise
        (fun a b => b.stop ≤ a.start) := by
      rw [repsDesc_matches]
      exact hdescp
    have h6 := List.pairwise_map.1 h5
    exact List.pairwise_reverse.2 h6
  have hmain := sew_roundtrip text
    (decodeSub (repsDesc (mappingInit created)
      (sortByStartDesc ((detectAll text).filter (fun m => !isMasked m.text)))).2)
    ((repsDesc (mappingInit created)
      (sortByStartDesc ((detectAll text).filter
        (fun m => !isMasked m.text)))).1.reverse)
    0 (Nat.zero_le _) hv hord
  rw [hmain, List.drop_zero]

theorem claim_C1_roundtrip_witness :
    preprocess (sl "a@b.cc x") = sl "a@b.cc x" ∧
    decode (encodePatterns [] (sl "a@b.cc x")).1
      (encodePatterns [] (sl "a@b.cc x")).2 = sl "a@b.cc x" :=
  ⟨by decide,
    claim_C1_roundtrip [] (sl "a@b.cc x") (by decide) (by decide) (by decide)⟩

/-- C3 counterexample: the masking filter runs after the Conflict Resolver,
not before it. The resolver runs inside the detection backend (`detect_all`
ends with `_remove_overlaps`), and `encode` filters already-masked matches
afterwards. On `"axx@n1.com"` the masked EMAIL match wins resolution over
the overlapping ROAD match `"n1"` and is then dropped by the filter, so the
code changes nothing, while the spec's step order (filter, then resolve)
would keep and replace the ROAD match. -/
theorem claim_C3_counterexample :
    (encodePatterns [] (sl "axx@n1.com")).1 = sl "axx@n1.com" ∧
    (encodeSpecOrder [] (sl "axx@n1.com")).1 ≠ sl "axx@n1.com" := by
  constructor
  · decide
  · decide

/-- C3 (amended): for the patterns backend, `encode` preprocesses, detects
via `detect_all` (whose output is already conflict-resolved and
non-overlapping), then drops matches whose raw text contains masking
markers, then applies the replace strategy in descending start-offset
order; every replacement is applied at an offset still valid in the
partially rewritten text, so the result equals the simultaneous splice of
all surviving matches' placeholders into the preprocessed text. -/
theorem claim_C3_encode_order (created text : Str) :
    encodePatterns created text =
      (sewGo (preprocess text) 0
        ((repsDesc (mappingInit created)
          (sortByStartDesc ((detectAll (preprocess text)).filter
            (fun m => !isMasked m.text)))).1.reverse),
       (repsDesc (mappingInit created)
          (sortByStartDesc ((detectAll (preprocess text)).filter
            (fun m => !isMasked m.text)))).2) := by
  have h0 : encodePatterns created text =
      applyRepl (preprocess text) (mappingInit created)
        (sortByStartDesc ((detectAll (preprocess text)).filter
          (fun m => !isMasked m.text))) := rfl
  rw [h0]
  have hval : ∀ m ∈ sortByStartDesc ((detectAll (preprocess text)).filter
      (fun m => !isMasked m.text)),
      m.start < m.stop ∧ m.stop ≤ (preprocess text).length := by
    intro m hm
    simp only [sortByStartDesc] at hm
    have hm2 := List.mem_of_mem_filter (pySort_mem _ hm)
    obtain ⟨h1, h2, _⟩ := detectAll_spanOk (preprocess text) m hm2
    exact ⟨h1, h2⟩
  have hsorted : (sortByStartDesc ((detectAll (preprocess text)).filter
      (fun m => !isMasked m.text))).Pairwise
      (fun a b => decide (b.start ≤ a.start) = true) := by
    simp only [sortByStartDesc]
    refine pySort_pairwise ?_ ?_ _
    · intro a b
      rcases Nat.le_total b.start a.start with h | h
      · exact Or.inl (decide_eq_true h)
      · exact Or.inr (decide_eq_true h)
    · intro a b c h1 h2
      exact decide_eq_true
        (Nat.le_trans (of_decide_eq_true h2) (of_decide_eq_true h1))
  have hnov : (sortByStartDesc ((detectAll (preprocess text)).filter
      (fun m => !isMasked m.text))).Pairwise
      (fun a b => ¬ (a.start < b.stop ∧ b.start < a.stop)) := by
    have hsym : ∀ {a b : Match},
        ¬ (a.start < b.stop ∧ b.start < a.stop) →
        ¬ (b.start < a.stop ∧ a.start < b.stop) := by
      intro a b hab hc
      exact hab ⟨hc.2, hc.1⟩
    have h1 : ((detectAll (preprocess text)).filter
        (fun m => !isMasked m.text)).Pairwise
        (fun a b => ¬ (a.start < b.stop ∧ b.start < a.stop)) :=
      (detectAll_nonoverlap (preprocess text)).sublist (List.filter_sublist _)
    simp only [sortByStartDesc]
    exact (List.Perm.pairwise_iff hsym (pySort_perm _ _)).2 h1
  have hdesc : (sortByStartDesc ((detectAll (preprocess text)).filter
      (fun m => !isMasked m.text))).Pairwise
      (fun a b => b.stop ≤ a.start) := by
    refine List.Pairwise.imp_of_mem ?_ (hsorted.and hnov)
    intro a b ha hb hr
    obtain ⟨h1, h2⟩ := hr
    have h3 := of_decide_eq_true h1
    obtain ⟨ha1, _⟩ := hval a ha
    obtain ⟨hb1, _⟩ := hval b hb
    omega
  exact applyRepl_sew _ _ _ hval hdesc

/-- C4 counterexample: a placeholder present in the mapping is NOT always
replaced by its canonical value. The callback is
`original if original else placeholder`: Python truthiness makes an entry
whose canonical value is the empty string fall back to the placeholder.
Such a mapping is reachable via `Mapping.load` on a persisted file whose
entry has `"canonical": ""`. -/
theorem claim_C4_counterexample :
    getOriginal (loadDict
        { version := sl "1.0", created := [], statistics := [],
          mappings := [(sl "PERSON_001",
            { canonical := [], variations := [], occurrences := 1 })] })
      (sl "PERSON_001") = some [] ∧
    decode (sl "PERSON_001")
      (loadDict
        { version := sl "1.0", created := [], statistics := [],
          mappings := [(sl "PERSON_001",
            { canonical := [], variations := [], occurrences := 1 })] }) =
    sl "PERSON_001" := by
  constructor
  · decide
  · decide

/-- C4 (amended): decode is total (never raises); every substring matched by
the placeholder pattern is a category word, an underscore and 3–4 digits;
the output replaces exactly the matched spans: a span whose token is in the
mapping with a non-empty canonical value becomes that canonical value, a
span absent from the mapping — or present with an empty canonical value —
is kept unchanged, and all text outside matched spans is copied
unchanged. -/
theorem claim_C4_decode_never_raises (text : Str) (m : MState) :
    (∀ sp ∈ fspans placeholderRE text,
      sp.1 < sp.2 ∧ sp.2 ≤ text.length ∧
      ∃ w ds, w ∈ placeholderCats ∧
        slice text sp.1 sp.2 = sl w ++ '_' :: ds ∧
        ds.all isDigitC = true ∧ (ds.length = 3 ∨ ds.length = 4)) ∧
    decode text m =
      reSubGo text
        (fun g =>
          match dictGet m.entries g with
          | some e => if e.canonical.isEmpty then g else e.canonical
          | none => g)
        (fspans placeholderRE text) 0 := by
  constructor
  · intro sp hsp
    obtain ⟨h1, h2, cap, hcap⟩ := fspans_sound placeholderRE text sp hsp
    obtain ⟨w, j, hw, hj, he, hslice, hall⟩ :=
      placeholderRE_shape text (text.length + 1) sp.1 (sp.2, cap) hcap
    refine ⟨h1, h2, w, slice text (sp.1 + (sl w).length + 1) sp.2, hw, hslice, hall, ?_⟩
    have hlen := slice_length (s := text) (a := sp.1 + (sl w).length + 1) (b := sp.2) h2
    omega
  · have hpt : ∀ x, decodeSub m x =
        (fun g =>
          match dictGet m.entries g with
          | some e => if e.canonical.isEmpty then g else e.canonical
          | none => g) x := by
      intro x
      unfold decodeSub getOriginal
      cases hx : dictGet m.entries x with
      | none => simp [hx]
      | some e => simp [hx]
    exact reSubGo_congr hpt (fspans placeholderRE text) 0

theorem claim_C4_decode_never_raises_witness :
    (0, 10) ∈ fspans placeholderRE (sl "PERSON_001") ∧
    ((0, 10).1 < (0, 10).2 ∧ (0, 10).2 ≤ (sl "PERSON_001").length ∧
      ∃ w ds, w ∈ placeholderCats ∧
        slice (sl "PERSON_001") (0, 10).1 (0, 10).2 = sl w ++ '_' :: ds ∧
        ds.all isDigitC = true ∧ (ds.length = 3 ∨ ds.length = 4)) :=
  ⟨by decide,
    (claim_C4_decode_never_raises (sl "PERSON_001") (mappingInit [])).1
      (0, 10) (by decide)⟩

/-- C10: every match returned by `detect_all` satisfies
`0 ≤ start < end ≤ len(text)` and `text[start:end] == match.text`, and the
returned list is pairwise non-overlapping and sorted in ascending order of
start offset. -/
theorem claim_C10_detect_all_invariants (text : Str) :
    (∀ m ∈ detectAll text,
      0 ≤ m.start ∧ m.start < m.stop ∧ m.stop ≤ text.length ∧
      m.text = slice text m.start m.stop) ∧
    (detectAll text).Pairwise
      (fun a b => ¬ (a.start < b.stop ∧ b.start < a.stop)) ∧
    (detectAll text).Pairwise (fun a b => a.start ≤ b.start) := by
  refine ⟨?_, ?_, detectAll_sorted text⟩
  · intro m hm
    obtain ⟨h1, h2, h3⟩ := detectAll_spanOk text m hm
    exact ⟨Nat.zero_le _, h1, h2, h3⟩
  · exact detectAll_nonoverlap text

theorem claim_C10_detect_all_invariants_witness :
    0 ≤ (mkM (sl "a@b.cc") 0 6 "EMAIL" 99 (sl "a@b.cc")).start ∧
    (mkM (sl "a@b.cc") 0 6 "EMAIL" 99 (sl "a@b.cc")).start <
      (mkM (sl "a@b.cc") 0 6 "EMAIL" 99 (sl "a@b.cc")).stop ∧
    (mkM (sl "a@b.cc") 0 6 "EMAIL" 99 (sl "a@b.cc")).stop ≤ (sl "a@b.cc").length ∧
    (mkM (sl "a@b.cc") 0 6 "EMAIL" 99 (sl "a@b.cc")).text =
      slice (sl "a@b.cc") (mkM (sl "a@b.cc") 0 6 "EMAIL" 99 (sl "a@b.cc")).start
        (mkM (sl "a@b.cc") 0 6 "EMAIL" 99 (sl "a@b.cc")).stop :=
  (claim_C10_detect_all_invariants (sl "a@b.cc")).1
    (mkM (sl "a@b.cc") 0 6 "EMAIL" 99 (sl "a@b.cc")) (by decide)

/-- C7: every category's normalization is idempotent:
`normalize(normalize(x)) == normalize(x)` for PERSON, PHONE, IBAN and the
default uppercase-and-trim branch (proved for every category string, which
covers the closed enumeration). -/
theorem claim_C7_normalize_idem (category x : Str) :
    normalize (normalize x category) category = normalize x category := by
  by_cases h1 : category = sl "PERSON"
  · have hd : ∀ y, normalize y category = normalizeName y := by
      intro y
      unfold normalize
      rw [if_pos h1]
    rw [hd, hd]
    exact normalizeName_idem x
  · by_cases h2 : category = sl "PHONE"
    · have hd : ∀ y, normalize y category = normalizePhone y := by
        intro y
        unfold normalize
        rw [if_neg h1, if_pos h2]
      rw [hd, hd]
      exact normalizePhone_idem x
    · by_cases h3 : category = sl "IBAN"
      · have hd : ∀ y, normalize y category = normalizeIban y := by
          intro y
          unfold normalize
          rw [if_neg h1, if_neg h2, if_pos h3]
        rw [hd, hd]
        exact normalizeIban_idem x
      · have hd : ∀ y, normalize y category = pyStrip (pyUpper y) := by
          intro y
          unfold normalize
          rw [if_neg h1, if_neg h2, if_neg h3]
        rw [hd, hd]
        exact upperStrip_idem x

/-- C5: `_validate_bsn` accepts exactly the strings containing 9 digits
whose weighted sum with weights `[9,8,7,6,5,4,3,2,-1]` is divisible by 11;
`validate_bsn("111222333")` holds; and a match of `detect_national_ids`
whose text is 9 digits failing the checksum always has an ID context
keyword inside the 50-character lookbehind window before it. -/
theorem claim_C5_bsn_checksum :
    validateBsn (sl "111222333") = true ∧
    (∀ s, validateBsn s = true ↔
      ((s.filter (fun c => isDigitC c)).length = 9 ∧
       (11 : Int) ∣ (List.zipWith (fun c w => ((c.toNat : Int) - 48) * w)
          (s.filter (fun c => isDigitC c)) ([9, 8, 7, 6, 5, 4, 3, 2, -1] : List Int)).sum)) ∧
    (∀ text m, m ∈ detectNationalIds text →
      m.text.all (fun c => isDigitC c) = true → m.text.length = 9 →
      validateBsn m.text = false →
      idContext.any (fun c => subIn c (slice (pyLower text) (m.start - 50) m.start)) = true) := by
  refine ⟨by decide, validateBsn_spec, ?_⟩
  intro text m hm hall hlen hval
  rcases detectNationalIds_mem text m hm with ⟨pr, hpr, sp, hsp, htext, hstart, hg1, hg2⟩
  rw [hstart]
  rcases fspans_sound pr.1 text sp hsp with ⟨hlt, hle, cap, hmem⟩
  have hi : sp.1 ≤ text.length := by omega
  have hcnt9 : countDigits m.text = 9 := by
    unfold countDigits
    rw [List.filter_eq_self.2 (fun c hc => List.all_eq_true.1 hall c hc), hlen]
  have hshape := nationalIdPats_shape pr hpr
  have hsliceall : (slice text sp.1 sp.2).all (fun c => isDigitC c) = true := htext ▸ hall
  rcases hshape.2.2.2 with h | h | h | h | h | h | h | h | h | h | h
  · -- NL_BSN: the guard forces context
    rw [← htext, h, hval] at hg1
    cases hany : idContext.any (fun c => subIn c (slice (pyLower text) (sp.1 - 50) sp.1)) with
    | true => rfl
    | false =>
        rw [hany] at hg1
        exact absurd hg1 (by decide)
  · -- BE_NATIONAL: its matches contain exactly 11 digits, not 9
    have hdc := hshape.1 h
    have h11 := matchEnds_digitCount text (text.length + 1) pr.1 11 hdc sp.1 hi (sp.2, cap) hmem
    simp only at h11
    rw [← htext] at h11
    omega
  · -- US_SSN: the guard forces an `ssn` context, which is an ID context
    rw [h] at hg2
    have hg2' : ([sl "ssn", sl "social security"].any
        (fun c => subIn c (slice (pyLower text) (sp.1 - 50) sp.1))) = true := by
      cases hx : ([sl "ssn", sl "social security"].any
          (fun c => subIn c (slice (pyLower text) (sp.1 - 50) sp.1))) with
      | true => rfl
      | false =>
          rw [hx] at hg2
          exact absurd hg2 (by decide)
    rcases List.any_eq_true.1 hg2' with ⟨c, hc, hsub⟩
    refine List.any_eq_true.2 ⟨c, ?_, hsub⟩
    rcases List.mem_cons.1 hc with rfl | hc2
    · decide
    · rcases List.mem_cons.1 hc2 with rfl | hc3
      · decide
      · simp at hc3
  · -- FR_INSEE: its matches contain exactly 15 digits, not 9
    have hdc := hshape.2.1 h
    have h15 := matchEnds_digitCount text (text.length + 1) pr.1 15 hdc sp.1 hi (sp.2, cap) hmem
    simp only at h15
    rw [← htext] at h15
    omega
  all_goals {
    -- the remaining subtypes cannot match an all-digit string
    have hcan : canAllDigits pr.1 = false := hshape.2.2.1 (by rw [h]; decide)
    have htrue := matchEnds_allDigits text (text.length + 1) pr.1 sp.1 hi (sp.2, cap) hmem
      hsliceall
    rw [hcan] at htrue
    exact Bool.noConfusion htrue }

/-- Witness for C5: on `"bsn 123456789"` the (checksum-failing) candidate is
emitted because of the `bsn` context keyword, and the theorem's conclusion
holds for it. -/
theorem claim_C5_bsn_checksum_witness :
    (mkM (sl "123456789") 4 13 "ID" 85 (sl "bsn 123456789")
      ∈ detectNationalIds (sl "bsn 123456789")) ∧
    idContext.any (fun c => subIn c
      (slice (pyLower (sl "bsn 123456789")) (4 - 50) 4)) = true :=
  ⟨by decide,
   claim_C5_bsn_checksum.2.2 (sl "bsn 123456789")
     (mkM (sl "123456789") 4 13 "ID" 85 (sl "bsn 123456789"))
     (by decide) (by decide) (by decide) (by decide)⟩

/-- C8 counterexample: the claim says that any `+` character that is not leading
is removed by phone normalization, but `_normalize_phone`'s character filter
`re.sub(r"[^\d+]", "", phone)` keeps every `+` wherever it occurs: on input
`"1+2"` the result is `"1+2"`, not the `"12"` the claim predicts. -/
theorem claim_C8_counterexample :
    normalizePhone (sl "1+2") = sl "1+2" ∧ sl "1+2" ≠ sl "12" :=
  ⟨by decide, by decide⟩

/-- C8 (amended): phone normalization keeps exactly the digit and `+` characters
of the input, in order — every `+` is kept, not only a leading one. If the kept
characters start with `00`, those two characters are replaced by `+`; otherwise,
if they start with `0` and are exactly 10 characters long, the leading `0` is
replaced by `+32`; otherwise the kept characters are returned unchanged (in that
case the result is a subsequence of the input). Every character of the result is
a digit or `+`. -/
theorem claim_C8_phone_normalization (x : Str) :
    (∀ c ∈ normalizePhone x, (isDigitC c || c = '+') = true) ∧
    (listStarts (sl "00") (x.filter (fun c => isDigitC c || c = '+')) = true →
      normalizePhone x = '+' :: (x.filter (fun c => isDigitC c || c = '+')).drop 2) ∧
    (listStarts (sl "00") (x.filter (fun c => isDigitC c || c = '+')) = false →
      (listStarts (sl "0") (x.filter (fun c => isDigitC c || c = '+')) &&
        (x.filter (fun c => isDigitC c || c = '+')).length = 10) = true →
      normalizePhone x = sl "+32" ++ (x.filter (fun c => isDigitC c || c = '+')).drop 1) ∧
    (listStarts (sl "00") (x.filter (fun c => isDigitC c || c = '+')) = false →
      (listStarts (sl "0") (x.filter (fun c => isDigitC c || c = '+')) &&
        (x.filter (fun c => isDigitC c || c = '+')).length = 10) = false →
      normalizePhone x = x.filter (fun c => isDigitC c || c = '+') ∧
      (normalizePhone x).Sublist x) := by
  refine ⟨normalizePhone_chars x, ?_, ?_, ?_⟩
  · intro h1
    rw [normalizePhone_unfold x, if_pos h1]
  · intro h1 h2
    rw [normalizePhone_unfold x, if_neg (by simp [h1]), if_pos h2]
  · intro h1 h2
    have he : normalizePhone x = x.filter (fun c => isDigitC c || c = '+') := by
      rw [normalizePhone_unfold x, if_neg (by simp [h1]), if_neg (by simp [h2])]
    exact ⟨he, he ▸ List.filter_sublist x⟩

/-- Witness for C8: on the 10-character input `"0470123456"` the kept characters
start with a single `0`, so the leading `0` is rewritten to `+32`. -/
theorem claim_C8_phone_normalization_witness :
    normalizePhone (sl "0470123456") =
      sl "+32" ++ ((sl "0470123456").filter (fun c => isDigitC c || c = '+')).drop 1 :=
  (claim_C8_phone_normalization (sl "0470123456")).2.2.1 (by decide) (by decide)

/-- C6: consistent identity.  For any sequence of `get_or_create_placeholder`
calls on a fresh `Mapping`: (1) one placeholder is returned per call; (2) each
call's returned placeholder is the placeholder the reverse index assigns to
that call's normalized key, so two calls with the same normalized key receive
the same placeholder; (3) each reverse-index entry points at an entry whose
`occurrences` is the number of calls with that key, whose `canonical` is the
first-seen raw form, whose placeholder is that first call's category followed
by an underscore and a counter value at least 1 zero-padded to at least 3
digits, and whose `variations` contain every raw form seen for the key;
(4) distinct normalized keys have distinct placeholders. -/
theorem claim_C6_consistent_identity (created : Str) (calls : List (Str × Str)) :
    (callResults created calls).length = calls.length ∧
    (∀ pr ∈ calls.zip (callResults created calls),
      dictGet (runCalls created calls).valueToPlaceholder (normalize pr.1.1 pr.1.2)
        = some pr.2) ∧
    (∀ k ph, dictGet (runCalls created calls).valueToPlaceholder k = some ph →
      ∃ e, dictGet (runCalls created calls).entries ph = some e ∧
        e.occurrences = calls.countP (fun vc => normalize vc.1 vc.2 = k) ∧
        (∃ v0 c0, calls.find? (fun vc => normalize vc.1 vc.2 = k) = some (v0, c0) ∧
          e.canonical = v0 ∧
          ∃ n, 1 ≤ n ∧ ph = c0 ++ '_' :: pad3 n ∧ 3 ≤ (pad3 n).length) ∧
        (∀ vc ∈ calls, normalize vc.1 vc.2 = k → vc.1 ∈ e.variations)) ∧
    (∀ k k' ph ph', dictGet (runCalls created calls).valueToPlaceholder k = some ph →
      dictGet (runCalls created calls).valueToPlaceholder k' = some ph' →
      k ≠ k' → ph ≠ ph') := by
  obtain ⟨grs, ⟨hE0, hV0, hC0, hKnd, hPnd, hvars, hinc⟩, ⟨hH1, hH2⟩, ⟨hRlen0, hRz0⟩⟩ :=
    runCalls_inv created calls
  have hE : (runCalls created calls).entries
      = grs.map (fun g => (grpPh g, grpEntry g)) := hE0
  have hV : (runCalls created calls).valueToPlaceholder
      = grs.map (fun g => (grpKey g, grpPh g)) := hV0
  have hRlen : (callResults created calls).length = calls.length := hRlen0
  have hRz : ∀ pr ∈ calls.zip (callResults created calls),
      ∃ g ∈ grs, grpKey g = normalize pr.1.1 pr.1.2 ∧ pr.2 = grpPh g := hRz0
  refine ⟨hRlen, ?_, ?_, ?_⟩
  · intro pr hpr
    obtain ⟨g, hg, hk, hp⟩ := hRz pr hpr
    rw [hV, ← hk, hp]
    exact dictGet_mem_nodup (by rw [mapped_fst]; exact hKnd)
      (List.mem_map.2 ⟨g, hg, rfl⟩)
  · intro k ph hget
    rw [hV] at hget
    obtain ⟨l1, g0, l2, hsplit, hkey, hph, hl1⟩ :=
      dictGet_mapped_split grpKey grpPh grs k ph hget
    have hg0mem : g0 ∈ grs := by
      rw [hsplit]
      exact List.mem_append.2 (Or.inr (List.mem_cons_self _ _))
    have hold := hH1 g0 hg0mem
    refine ⟨grpEntry g0, ?_, ?_, ?_, ?_⟩
    · rw [hE, ← hph]
      exact dictGet_mem_nodup (by rw [mapped_fst]; exact hPnd)
        (List.mem_map.2 ⟨g0, hg0mem, rfl⟩)
    · show g0.occ = calls.countP (fun vc => normalize vc.1 vc.2 = k)
      rw [← hkey]
      exact hold.1
    · refine ⟨g0.canonical, g0.cat, ?_, rfl, g0.num, (hvars g0 hg0mem).2, ?_, pad3_len _⟩
      · rw [← hkey]
        exact hold.2.1
      · rw [← hph]
        rfl
    · intro vc hvc hk2
      exact hold.2.2 vc hvc (by rw [hkey]; exact hk2)
  · intro k k' ph ph' h1 h2 hne heq
    rw [hV] at h1 h2
    obtain ⟨l1, g0, l2, hsplit, hkey, hph, hl1⟩ :=
      dictGet_mapped_split grpKey grpPh grs k ph h1
    obtain ⟨l1', g0', l2', hsplit', hkey', hph', hl1'⟩ :=
      dictGet_mapped_split grpKey grpPh grs k' ph' h2
    have hg0mem : g0 ∈ grs := by
      rw [hsplit]
      exact List.mem_append.2 (Or.inr (List.mem_cons_self _ _))
    have hg0mem' : g0' ∈ grs := by
      rw [hsplit']
      exact List.mem_append.2 (Or.inr (List.mem_cons_self _ _))
    have hgg : g0 = g0' :=
      List.inj_on_of_nodup_map hPnd hg0mem hg0mem' (by rw [hph, hph', heq])
    exact hne (by rw [← hkey, ← hkey', hgg])

/-- Witness for C6: two surface forms of the same person name receive the
same `PERSON_001` placeholder, whose entry records both variations, the
first-seen canonical form and two occurrences. -/
theorem claim_C6_consistent_identity_witness :
    ∃ e, dictGet (runCalls (sl "t")
        [(sl "Jan Jansen", sl "PERSON"), (sl "JAN JANSEN", sl "PERSON")]).entries
        (sl "PERSON_001") = some e ∧
      e.occurrences = [(sl "Jan Jansen", sl "PERSON"), (sl "JAN JANSEN", sl "PERSON")].countP
        (fun vc => normalize vc.1 vc.2 = normalize (sl "Jan Jansen") (sl "PERSON")) ∧
      (∃ v0 c0, [(sl "Jan Jansen", sl "PERSON"), (sl "JAN JANSEN", sl "PERSON")].find?
          (fun vc => normalize vc.1 vc.2 = normalize (sl "Jan Jansen") (sl "PERSON"))
          = some (v0, c0) ∧
        e.canonical = v0 ∧
        ∃ n, 1 ≤ n ∧ sl "PERSON_001" = c0 ++ '_' :: pad3 n ∧ 3 ≤ (pad3 n).length) ∧
      (∀ vc ∈ [(sl "Jan Jansen", sl "PERSON"), (sl "JAN JANSEN", sl "PERSON")],
        normalize vc.1 vc.2 = normalize (sl "Jan Jansen") (sl "PERSON") →
        vc.1 ∈ e.variations) :=
  (claim_C6_consistent_identity (sl "t")
      [(sl "Jan Jansen", sl "PERSON"), (sl "JAN JANSEN", sl "PERSON")]).2.2.1
    (normalize (sl "Jan Jansen") (sl "PERSON")) (sl "PERSON_001") (by decide)

/-- C9: persistence round trip.  For every mapping reachable by a sequence of
`get_or_create_placeholder` calls, `load` of `to_dict` reconstructs the very
same state (entries, reverse index and per-category counters), and a value
whose normalized key is new never receives a placeholder colliding with an
existing entry's placeholder. -/
theorem claim_C9_persistence_roundtrip (created : Str) (calls : List (Str × Str))
    (v c : Str) :
    loadDict (toDict (runCalls created calls)) = runCalls created calls ∧
    (dictGet (runCalls created calls).valueToPlaceholder (normalize v c) = none →
      (getOrCreate (runCalls created calls) v c).1
        ∉ (runCalls created calls).entries.map Prod.fst) := by
  obtain ⟨grs, hG, _, _⟩ := runCalls_inv created calls
  constructor
  · exact loadDict_toDict hG
  · intro hnone
    obtain ⟨hE0, hV0, hC0, hKnd, hPnd, hvars, hinc⟩ := hG
    have hE : (runCalls created calls).entries
        = grs.map (fun g => (grpPh g, grpEntry g)) := hE0
    have hC : (runCalls created calls).counters = buildCounters grs := hC0
    rw [getOrCreate_new hnone]
    show freshPhOf (runCalls created calls) c ∉ _
    rw [hE, mapped_fst]
    intro hmem
    rcases List.mem_map.1 hmem with ⟨g, hgmem, hgeq⟩
    have hgeq2 : grpPh g
        = grpPh ⟨c, dictGetD (runCalls created calls).counters c 0 + 1, v, [v], 1⟩ := hgeq
    rcases grpPh_inj hgeq2 with ⟨hcat, hnum⟩
    have hle := incrOk_num_le grs [] hinc g hgmem
    rw [hcat, hnum] at hle
    have hle2 : dictGetD (runCalls created calls).counters c 0 + 1
        ≤ dictGetD (buildCounters grs) c 0 := hle
    rw [← hC] at hle2
    omega

/-- Witness for C9: after one call, a value of a fresh normalized key gets a
placeholder distinct from every existing placeholder. -/
theorem claim_C9_persistence_roundtrip_witness :
    dictGet (runCalls (sl "t") [(sl "Jan", sl "PERSON")]).valueToPlaceholder
      (normalize (sl "foo") (sl "EMAIL")) = none ∧
    (getOrCreate (runCalls (sl "t") [(sl "Jan", sl "PERSON")]) (sl "foo") (sl "EMAIL")).1
      ∉ (runCalls (sl "t") [(sl "Jan", sl "PERSON")]).entries.map Prod.fst :=
  ⟨by decide,
   (claim_C9_persistence_roundtrip (sl "t") [(sl "Jan", sl "PERSON")]
      (sl "foo") (sl "EMAIL")).2 (by decide)⟩

end DocSan
